import Mathlib

/-!
mcpelauncher-linker: the public registry API (`src/mcpelauncher-linker/src/linker.cpp`)

A shallow embedding of `linker::init`, `linker::load_library`,
`linker::unload_library`, `linker::get_library_base`,
`linker::get_library_code_region` and `linker::relocate`.

The bionic side of the linker (`soinfo::load_library`, `soinfo::add_symbols`,
`soinfo_from_handle`, `solist_init`, `dlclose`) is only declared in `linker.cpp`, and
the load of image-backed objects with their dependencies (`dlopen`) is not part of it;
those helpers are modelled from the specification and marked as such.
Record references (`soinfo*`) are represented by the record's handle, and a
null pointer by `none`; dereferencing a null pointer is the outcome
`Fault.null_deref`.
-/

/-! ## Data model -/

/-- Outcomes of a call that does not return normally. -/
inductive Fault where
  /-- A member access through a null `soinfo*`. -/
  | null_deref
  /-- The exception `std::invalid_argument` leaving `std::stoi`. -/
  | invalid_argument
  /-- The exception `std::out_of_range` leaving `std::stoi`. -/
  | out_of_range
  /-- A failing `CHECK` aborts the process. -/
  | check_failed
  deriving DecidableEq, Repr

deriving instance DecidableEq for Except

/-- Segment type of a loadable segment (`elf.h`). -/
def PT_LOAD : Nat := 1

/-- Segment flag: executable (`elf.h`). -/
def PF_X : Nat := 1

/-- The fields of a program header that `linker.cpp` reads. -/
structure Elf_Phdr where
  p_type : Nat
  p_flags : Nat
  p_vaddr : Nat
  p_memsz : Nat
  deriving DecidableEq, Repr

/-- An override table, `std::unordered_map<std::string, void*>`: the address bound
to a name is the one of the first pair with that name. -/
abbrev SymbolMap := List (String × Nat)

/-- Address bound to `name` in an override table, if any. -/
def SymbolMap.find (m : SymbolMap) (name : String) : Option Nat :=
  List.lookup name m

/-- A loaded-object record. `phnum` is the length of `phdr`; `deps` holds the handles
of the records this one depends on. -/
structure soinfo where
  name : String
  handle : Nat
  base : Nat
  phdr : List Elf_Phdr
  deps : List Nat
  ref_count : Nat
  symbols : SymbolMap
  deriving DecidableEq, Repr

/-- The process-wide state of the linker: the diagnostic verbosity, the registry
(`solist`) and the next handle identity to hand out. -/
structure LinkerState where
  g_ld_debug_verbosity : Int
  solist : List soinfo
  next_handle : Nat
  deriving DecidableEq, Repr

/-! ## Registry helpers -/

/-- First record of the registry with the given handle. -/
def find_handle : List soinfo → Nat → Option soinfo
  | [], _ => none
  | r :: rs, h => if r.handle = h then some r else find_handle rs h

/-- First record of the registry with the given name. -/
def find_name : List soinfo → String → Option soinfo
  | [], _ => none
  | r :: rs, n => if r.name = n then some r else find_name rs n

/-- Apply `f` to the first record with the given handle. -/
def modify_handle (f : soinfo → soinfo) : List soinfo → Nat → List soinfo
  | [], _ => []
  | r :: rs, h => if r.handle = h then f r :: rs else r :: modify_handle f rs h

/-- Remove the first record with the given handle. -/
def erase_handle : List soinfo → Nat → List soinfo
  | [], _ => []
  | r :: rs, h => if r.handle = h then rs else r :: erase_handle rs h

/-- Number of dependency edges pointing to the record with handle `h`. -/
def in_edges (l : List soinfo) (h : Nat) : Nat :=
  (l.map (fun r => r.deps.count h)).sum

/-- Modelled from the spec: `soinfo_from_handle` (declared in `linker.cpp`, defined in
the bionic linker). "The registry ... is the sole authority for handle-to-record
translation"; an unknown or already-freed handle translates to no record (`nullptr`). -/
def soinfo_from_handle (st : LinkerState) (handle : Nat) : Option soinfo :=
  find_handle st.solist handle

/-- Modelled from the spec: `solist_init` (declared in `linker.cpp`). "The registry
itself is process-wide state, created by `init()`": an empty registry; handle 0 is the
null handle, so identities start at 1. -/
def solist_init (st : LinkerState) : LinkerState :=
  { st with solist := [], next_handle := 1 }

/-- The record with one more reference. -/
def soinfo.inc_ref (r : soinfo) : soinfo :=
  { r with ref_count := r.ref_count + 1 }

/-- The record with one reference less. -/
def soinfo.dec_ref (r : soinfo) : soinfo :=
  { r with ref_count := r.ref_count - 1 }

/-- Modelled from the spec: `soinfo::increment_ref_count`, on the record `lib`. -/
def increment_ref_count (st : LinkerState) (lib : Nat) : LinkerState :=
  { st with solist := modify_handle soinfo.inc_ref st.solist lib }

/-- Modelled from the spec: `soinfo::load_library(name, symbols)`, the bionic-side
load primitive. "`load(name, symbols)` registers a synthetic ... object; `symbols`
seeds its override table"; "`load` with a name already present returns the existing
handle ... instead of reloading". A new record has no backing image, no dependencies
and no references yet. Returns the record reference and the new state. -/
def soinfo.load_library (st : LinkerState) (name : String) (symbols : SymbolMap) :
    Nat × LinkerState :=
  match find_name st.solist name with
  | some r => (r.handle, st)
  | none =>
    let r : soinfo :=
      { name := name, handle := st.next_handle, base := 0, phdr := [], deps := [],
        ref_count := 0, symbols := symbols }
    (r.handle, { st with solist := st.solist ++ [r], next_handle := st.next_handle + 1 })

/-- Modelled from the spec: `soinfo::add_symbols(symbols)`. `relocate` "extends an
existing record's override table": the new bindings are placed in front of the old
ones, so a name bound by `symbols` has the address `symbols` gives it. -/
def soinfo.add_symbols (r : soinfo) (symbols : SymbolMap) : soinfo :=
  { r with symbols := symbols ++ r.symbols }

/-- Modelled from the spec: dropping one reference to the record with handle `h`
(bionic `soinfo_unload`). "Decrement its reference count and, at zero, unmap and erase
it"; "destruction ... removes all dependency edges it held (which may
cascade-decrement its own dependencies)". Every level of the cascade erases a record,
so `fuel` larger than the registry is never exhausted. -/
def soinfo_unload : Nat → List soinfo → Nat → List soinfo
  | 0, l, _ => l
  | fuel + 1, l, h =>
    match find_handle l h with
    | none => l
    | some r =>
      if r.ref_count ≤ 1 then
        r.deps.foldl (fun acc d => soinfo_unload fuel acc d) (erase_handle l h)
      else
        modify_handle soinfo.dec_ref l h

/-- Modelled from the spec: `dlclose(handle)`, the foreign-loader-compatible "close"
entry point. An unknown handle is an error (-1); otherwise one reference is dropped
and the call reports 0 when the record was freed and 1 ("still referenced") when it
was only decremented. -/
def dlclose (st : LinkerState) (handle : Nat) : Int × LinkerState :=
  match soinfo_from_handle st handle with
  | none => (-1, st)
  | some r =>
    (if r.ref_count ≤ 1 then 0 else 1,
     { st with solist := soinfo_unload (st.solist.length + 1) st.solist handle })

/-! ## `std::stoi` -/

/-- The characters `std::isspace` accepts in the "C" locale. -/
def isspace (c : Char) : Bool :=
  c.toNat = 32 || (9 ≤ c.toNat && c.toNat ≤ 13)

/-- Value of a string of decimal digits. -/
def digits_value (ds : List Char) : Nat :=
  ds.foldl (fun acc c => 10 * acc + (c.toNat - 48)) 0

/-- The conversion `std::stoi(str)` (base 10): leading white space is skipped, an
optional sign and the longest run of digits are read, anything after it is ignored.
No digit: `std::invalid_argument`; a value outside `int`: `std::out_of_range`. -/
def stoi (str : String) : Except Fault Int :=
  let cs := str.toList.dropWhile isspace
  let neg := cs.head? = some '-'
  let body := if cs.head? = some '-' ∨ cs.head? = some '+' then cs.tail else cs
  let ds := body.takeWhile Char.isDigit
  if ds = [] then .error .invalid_argument
  else
    let v : Int := if neg then -(digits_value ds : Int) else (digits_value ds : Int)
    if v < -2147483648 ∨ 2147483647 < v then .error .out_of_range else .ok v

/-! ## `linker.cpp` -/

namespace linker

/-- `void *linker::load_library(const char *name, const unordered_map<...> &symbols)`. -/
def load_library (st : LinkerState) (name : String) (symbols : SymbolMap) :
    Nat × LinkerState :=
  let (lib, st1) := soinfo.load_library st name symbols
  let st2 := increment_ref_count st1 lib
  (lib, st2)

/-- `void linker::init()`; `env` is the value of `MCPELAUNCHER_LINKER_VERBOSITY`
(`none` when `getenv` returns null) and `dl_symbols` is the table
`linker::libdl::get_dl_symbols()`. -/
def init (env : Option String) (dl_symbols : SymbolMap) (st : LinkerState) :
    Except Fault LinkerState :=
  match env with
  | some verbosity =>
    match stoi verbosity with
    | .error e => .error e
    | .ok v =>
      .ok (load_library (solist_init { st with g_ld_debug_verbosity := v })
        "libdl.so" dl_symbols).2
  | none => .ok (load_library (solist_init st) "libdl.so" dl_symbols).2

/-- `int linker::unload_library(void* handle)`. -/
def unload_library (st : LinkerState) (handle : Nat) : Int × LinkerState :=
  match soinfo_from_handle st handle with
  | none => (1, st)
  | some lib => if lib.ref_count ≠ 1 then (1, st) else dlclose st handle

/-- `size_t linker::get_library_base(void *handle)`. -/
def get_library_base (st : LinkerState) (handle : Nat) : Except Fault Nat :=
  match soinfo_from_handle st handle with
  | none => .error .null_deref
  | some s => .ok s.base

/-- Body of the loop of `get_library_code_region` for the header `ph`; `w` is the
width of `size_t` and of the ELF address type in bits (the sum `s->base + p_vaddr`
wraps at that width) and `out` holds the current values of `base` and `size`. -/
def code_region_step (w : Nat) (s : soinfo) (out : Nat × Nat) (ph : Elf_Phdr) : Nat × Nat :=
  if ph.p_type = PT_LOAD ∧ ph.p_flags &&& PF_X ≠ 0 then
    ((s.base + ph.p_vaddr) % 2 ^ w, ph.p_memsz)
  else out

/-- `void linker::get_library_code_region(void *handle, size_t &base, size_t &size)`:
the result is the pair of the values of `base` and `size` after the call. -/
def get_library_code_region (w : Nat) (st : LinkerState) (handle : Nat) (base size : Nat) :
    Except Fault (Nat × Nat) :=
  match soinfo_from_handle st handle with
  | none => .error .null_deref
  | some s => .ok (s.phdr.foldl (code_region_step w s) (base, size))

/-- `void linker::relocate(void *handle, const unordered_map<...> &symbols)`: the
function returns no value (`Unit`). -/
def relocate (st : LinkerState) (handle : Nat) (symbols : SymbolMap) :
    Except Fault (Unit × LinkerState) :=
  match soinfo_from_handle st handle with
  | none => .error .null_deref
  | some s =>
    .ok ((), { st with solist := modify_handle (fun r => r.add_symbols symbols) st.solist s.handle })

end linker

/-! ## Image-backed loads -/

/-- What the loader finds for the name of a loadable image: the address it is mapped
at, its program headers and the dependency names its dynamic section declares. -/
structure Image where
  base : Nat
  phdr : List Elf_Phdr
  needed : List String
  deriving DecidableEq, Repr

/-- The record with one more dependency, `d`. -/
def soinfo.add_dep (d : Nat) (r : soinfo) : soinfo :=
  { r with deps := r.deps ++ [d] }

/-- Modelled from the spec: "dependency-edge creation" with its "reference-count
change". A dependency edge from the record `p` to the record `d`: `d` is appended to
the dependencies of `p` and holds one more reference. -/
def add_dependency (st : LinkerState) (p d : Nat) : LinkerState :=
  { st with
    solist := modify_handle (soinfo.add_dep d) (modify_handle soinfo.inc_ref st.solist d) p }

/-- Modelled from the spec: "dependency names found in the dynamic section are
loaded". The dependencies `needed` of the record `p` are loaded one after the other
with `load`, each getting an edge from `p`; the first that cannot be loaded ends the
run (`some none`). -/
def load_dependencies (load : LinkerState → String → Option (Option (Nat × LinkerState)))
    (p : Nat) : List String → LinkerState → Option (Option LinkerState)
  | [], st => some (some st)
  | dep :: rest, st =>
    match load st dep with
    | none => none
    | some none => some none
    | some (some (d, st')) => load_dependencies load p rest (add_dependency st' p d)

/-- Modelled from the spec: the load of an image-backed object (the bionic loader, not
under `src/`); `images` lists the images the loader can find. "`load` with a name
already present returns the existing handle"; otherwise "Object Registry allocates and
inserts a record → dependency names found in the dynamic section are loaded recursively
(cycle-safe)": the record is registered before its dependencies are loaded, so that a
cycle finds it. "A dependency name absent from the registry and unloadable causes
`load` of the dependent to fail": the result `some none`, on which the caller keeps the
registry "exactly as it was". The nested loads find the name that is being loaded in
the registry, so its image is left out of the images they search; `none` is a load
that `fuel` levels of nesting do not end. Returns the record reference and the state. -/
def load_image : Nat → List (String × Image) → LinkerState → String
    → Option (Option (Nat × LinkerState))
  | 0, _, _, _ => none
  | fuel + 1, images, st, name =>
    match find_name st.solist name with
    | some r => some (some (r.handle, st))
    | none =>
      match images.lookup name with
      | none => some none
      | some img =>
        let r : soinfo :=
          { name := name, handle := st.next_handle, base := img.base, phdr := img.phdr,
            deps := [], ref_count := 0, symbols := [] }
        let st1 : LinkerState :=
          { st with solist := st.solist ++ [r], next_handle := st.next_handle + 1 }
        match load_dependencies
            (fun s n => load_image fuel (images.filter (fun e => e.1 ≠ name)) s n)
            r.handle img.needed st1 with
        | none => none
        | some none => some none
        | some (some st2) => some (some (r.handle, st2))

/-- Modelled from the spec: `dlopen(name)`, the foreign-loader-compatible "open" entry
point through which "loaded code's own calls to load a library ... are served by this
same registry": the image-backed load, with one reference for the handle it returns.
When the load fails the null handle 0 is returned and the registry is as it was. One
level of nesting per image is enough, so the fuel is never used up. -/
def dlopen (images : List (String × Image)) (st : LinkerState) (name : String) :
    Option (Nat × LinkerState) :=
  match load_image (images.length + 1) images st name with
  | none => none
  | some none => some (0, st)
  | some (some (h, st')) => some (h, increment_ref_count st' h)

/-! ## Call sequences and bookkeeping of handed-out handles -/

/-- A call that loads or unloads: `load_library` and `unload_library` of the public
API, and the load of an image-backed object with its dependencies. -/
inductive Call where
  | load (name : String) (symbols : SymbolMap)
  | load_image (name : String)
  | unload (handle : Nat)
  deriving DecidableEq, Repr

/-- One call on the linker state together with the list of outstanding external
handles: a load adds the handle it returns (a failed load returns the null handle 0
and adds none), an unload that succeeds (returns 0) removes one occurrence of its
handle. -/
def step (images : List (String × Image)) (s : LinkerState × List Nat) :
    Call → Option (LinkerState × List Nat)
  | .load name symbols =>
    some ((linker.load_library s.1 name symbols).2,
      (linker.load_library s.1 name symbols).1 :: s.2)
  | .load_image name =>
    match dlopen images s.1 name with
    | none => none
    | some (h, st') => some (st', if h = 0 then s.2 else h :: s.2)
  | .unload handle =>
    some ((linker.unload_library s.1 handle).2,
      if (linker.unload_library s.1 handle).1 = 0 then s.2.erase handle else s.2)

/-- A sequence of calls, in order. -/
def run (images : List (String × Image)) (s : LinkerState × List Nat) :
    List Call → Option (LinkerState × List Nat)
  | [] => some s
  | c :: cs =>
    match step images s c with
    | none => none
    | some s' => run images s' cs

/-- The handles outstanding after `linker::init`: the one returned by its own
`load_library` call. -/
def init_handles (dl_symbols : SymbolMap) (st : LinkerState) : List Nat :=
  [(linker.load_library (solist_init st) "libdl.so" dl_symbols).1]

/-- The state after `n` calls `load_library(name, symbols)`. -/
def load_times (name : String) (symbols : SymbolMap) : Nat → LinkerState → LinkerState
  | 0, st => st
  | n + 1, st => load_times name symbols n (linker.load_library st name symbols).2

/-- The state after `k` calls `unload_library(handle)`. -/
def unload_times (handle : Nat) : Nat → LinkerState → LinkerState
  | 0, st => st
  | k + 1, st => unload_times handle k (linker.unload_library st handle).2

/-- A program header is an executable loadable segment. -/
def is_code_segment (ph : Elf_Phdr) : Bool :=
  ph.p_type = PT_LOAD ∧ ph.p_flags &&& PF_X ≠ 0

/-- Handles identify records: they are pairwise distinct and below `next_handle`. -/
def handles_ok (st : LinkerState) : Prop :=
  (st.solist.map soinfo.handle).Nodup ∧ ∀ r ∈ st.solist, r.handle < st.next_handle

/-- The bookkeeping of references in a registry `l` whose next handle identity is `nh`,
with the outstanding external handles `ext`: handle identities are positive, pairwise
distinct and below `nh`, as are the handles in `ext` and in the dependency lists, and
every record has as many references as there are outstanding handles to it, dependency
edges pointing to it and entries for it in `pending` (references that are about to be
dropped); it has at least one reference unless it is listed in `under` (records whose
load is under way). -/
def refs_inv (l : List soinfo) (nh : Nat) (ext pending under : List Nat) : Prop :=
  1 ≤ nh
    ∧ (l.map soinfo.handle).Nodup
    ∧ (∀ r ∈ l, 1 ≤ r.handle ∧ r.handle < nh)
    ∧ (∀ h ∈ ext, h < nh)
    ∧ (∀ r ∈ l, ∀ d ∈ r.deps, d < nh)
    ∧ (∀ r ∈ l,
        r.ref_count = ext.count r.handle + in_edges l r.handle + pending.count r.handle)
    ∧ (∀ r ∈ l, r.handle ∈ under ∨ 1 ≤ r.ref_count)

/-- The bookkeeping invariant of a linker state `s.1` with outstanding handles `s.2`. -/
def registry_inv (s : LinkerState × List Nat) : Prop :=
  refs_inv s.1.solist s.1.next_handle s.2 [] []

/-- Images used as an example: `liba.so` needs `libc.so` and `libb.so`, `libb.so`
needs `libc.so` and, in a cycle, `liba.so`. -/
def images0 : List (String × Image) :=
  [("liba.so", { base := 4096, phdr := [], needed := ["libc.so", "libb.so"] }),
   ("libb.so", { base := 8192, phdr := [], needed := ["libc.so", "liba.so"] }),
   ("libc.so", { base := 12288, phdr := [], needed := [] }),
   ("libd.so", { base := 16384, phdr := [], needed := ["libc.so"] })]

/-- Calls used as an example: loads of a synthetic object and of image-backed objects
with dependencies, and unloads. -/
def calls0 : List Call :=
  [.load "libfoo.so" [("foo", 1)], .load_image "liba.so", .load "libfoo.so" [],
   .load_image "libd.so", .unload 2, .load_image "libmissing.so", .unload 6, .unload 3]

/-! ## Concrete states -/

/-- An executable loadable segment at `v` of size `m`. -/
def ph_x (v m : Nat) : Elf_Phdr := { p_type := 1, p_flags := 5, p_vaddr := v, p_memsz := m }

/-- A record with two executable loadable segments and two references. -/
def rec0 : soinfo :=
  { name := "libfoo.so", handle := 7, base := 4096, phdr := [ph_x 0 100, ph_x 8192 200],
    deps := [], ref_count := 2, symbols := [("foo", 1)] }

/-- A registry holding `rec0` only. -/
def st0 : LinkerState := { g_ld_debug_verbosity := 0, solist := [rec0], next_handle := 8 }

/-- The state before `init`. -/
def st_boot : LinkerState := { g_ld_debug_verbosity := 0, solist := [], next_handle := 0 }

/-- The state after `init` with the variable unset and a one-entry loader table. -/
def st_init : LinkerState :=
  (linker.load_library (solist_init st_boot) "libdl.so" [("dlopen", 4660)]).2

/-- The state after `init` with the variable set to `"2"`. -/
def st_init2 : LinkerState :=
  { g_ld_debug_verbosity := 2,
    solist := [{ name := "libdl.so", handle := 1, base := 0, phdr := [], deps := [],
                 ref_count := 1, symbols := [("dlopen", 4660)] }],
    next_handle := 2 }

/-- The state after `init`, one load of `libfoo.so` (which returns handle 2) and the
matching unload: handle 2 is freed. -/
def st_freed : LinkerState :=
  (linker.unload_library (linker.load_library st_init "libfoo.so" []).2 2).2

/-- The record of `libc.so` after `init` and the calls `calls0`: no handle to it is
outstanding, `liba.so` and `libb.so` depend on it. -/
def rec_libc : soinfo :=
  { name := "libc.so", handle := 4, base := 12288, phdr := [], deps := [], ref_count := 2,
    symbols := [] }

/-- The state and the outstanding handles after `init` and the calls `calls0` with the
images `images0`. -/
def run0 : LinkerState × List Nat :=
  ({ g_ld_debug_verbosity := 0,
     solist :=
       [{ name := "libdl.so", handle := 1, base := 0, phdr := [], deps := [], ref_count := 1,
          symbols := [("dlopen", 4660)] },
        { name := "libfoo.so", handle := 2, base := 0, phdr := [], deps := [], ref_count := 2,
          symbols := [("foo", 1)] },
        { name := "liba.so", handle := 3, base := 4096, phdr := [], deps := [4, 5],
          ref_count := 2, symbols := [] },
        rec_libc,
        { name := "libb.so", handle := 5, base := 8192, phdr := [], deps := [4, 3],
          ref_count := 1, symbols := [] }],
     next_handle := 7 },
   [2, 3, 2, 1])

/-! ## The archive reader (`core/libziparchive/zip_archive.cc`)

Memory and file contents are functions from an offset to a byte, so that a read
past the end of a block yields whatever lies there. The record layouts, sizes,
signatures and error codes come from `zip_archive_common.h` and
`zip_archive_private.h`. Pointers into the central directory are offsets from its
base pointer. -/

/-- Bytes addressed by their offset. -/
abbrev Mem := Nat → Nat

/-- The byte at `off`. -/
def get_u8 (m : Mem) (off : Nat) : Nat := m off % 256

/-- The little-endian `uint16_t` at `off`. -/
def get_u16 (m : Mem) (off : Nat) : Nat := get_u8 m off + 256 * get_u8 m (off + 1)

/-- The little-endian `uint32_t` at `off`. -/
def get_u32 (m : Mem) (off : Nat) : Nat := get_u16 m off + 65536 * get_u16 m (off + 2)

/-- The `len` bytes from `off` on. -/
def view (m : Mem) (off len : Nat) : List Nat :=
  (List.range len).map (fun k => get_u8 m (off + k))

/-- The bytes of a list, zero beyond its end. -/
def mem_of_list (l : List Nat) : Mem := fun i => l.getD i 0

/-- Error code (`zip_archive_private.h`). -/
def kIterationEnd : Int := -1
/-- Error code (`zip_archive_private.h`). -/
def kZlibError : Int := -2
/-- Error code (`zip_archive_private.h`). -/
def kInvalidFile : Int := -3
/-- Error code (`zip_archive_private.h`). -/
def kInvalidHandle : Int := -4
/-- Error code (`zip_archive_private.h`). -/
def kDuplicateEntry : Int := -5
/-- Error code (`zip_archive_private.h`). -/
def kEmptyArchive : Int := -6
/-- Error code (`zip_archive_private.h`). -/
def kEntryNotFound : Int := -7
/-- Error code (`zip_archive_private.h`). -/
def kInvalidOffset : Int := -8
/-- Error code (`zip_archive_private.h`). -/
def kInconsistentInformation : Int := -9
/-- Error code (`zip_archive_private.h`). -/
def kInvalidEntryName : Int := -10
/-- Error code (`zip_archive_private.h`). -/
def kIoError : Int := -11
/-- Error code (`zip_archive_private.h`). -/
def kMmapFailed : Int := -12
/-- Error code (`zip_archive_private.h`). -/
def kAllocationFailed : Int := -13

/-- The value of `sizeof(EocdRecord)`. -/
def sizeof_EocdRecord : Nat := 22
/-- The value of `sizeof(CentralDirectoryRecord)`. -/
def sizeof_CentralDirectoryRecord : Nat := 46
/-- The value of `sizeof(LocalFileHeader)`. -/
def sizeof_LocalFileHeader : Nat := 30
/-- The value of `sizeof(DataDescriptor)`. -/
def sizeof_DataDescriptor : Nat := 12
/-- Longest archive comment (`zip_archive_common.h`). -/
def kMaxCommentLen : Nat := 65535
/-- `static const uint32_t kMaxEOCDSearch = kMaxCommentLen + sizeof(EocdRecord)`. -/
def kMaxEOCDSearch : Nat := kMaxCommentLen + sizeof_EocdRecord
/-- Bit 3 of the general purpose flags: a data descriptor follows the data. -/
def kGPBDDFlagMask : Nat := 8
/-- Compression method: stored. -/
def kCompressStored : Nat := 0
/-- Compression method: deflated. -/
def kCompressDeflated : Nat := 8
/-- `static constexpr bool kCrcChecksEnabled = false`. -/
def kCrcChecksEnabled : Bool := false

/-- The end-of-central-directory record (`zip_archive_common.h`). -/
structure EocdRecord where
  eocd_signature : Nat
  disk_num : Nat
  cd_start_disk : Nat
  num_records_on_disk : Nat
  num_records : Nat
  cd_size : Nat
  cd_start_offset : Nat
  comment_length : Nat
  deriving DecidableEq, Repr

/-- The magic number of an end-of-central-directory record. -/
def EocdRecord.kSignature : Nat := 0x06054b50

/-- The record overlaid on the bytes at `off`. -/
def EocdRecord.read (m : Mem) (off : Nat) : EocdRecord :=
  { eocd_signature := get_u32 m off, disk_num := get_u16 m (off + 4),
    cd_start_disk := get_u16 m (off + 6), num_records_on_disk := get_u16 m (off + 8),
    num_records := get_u16 m (off + 10), cd_size := get_u32 m (off + 12),
    cd_start_offset := get_u32 m (off + 16), comment_length := get_u16 m (off + 20) }

/-- A central directory record (`zip_archive_common.h`). -/
structure CentralDirectoryRecord where
  record_signature : Nat
  version_made_by : Nat
  version_needed : Nat
  gpb_flags : Nat
  compression_method : Nat
  last_mod_time : Nat
  last_mod_date : Nat
  crc32 : Nat
  compressed_size : Nat
  uncompressed_size : Nat
  file_name_length : Nat
  extra_field_length : Nat
  comment_length : Nat
  file_start_disk : Nat
  internal_file_attributes : Nat
  external_file_attributes : Nat
  local_file_header_offset : Nat
  deriving DecidableEq, Repr

/-- The magic number of a central directory record. -/
def CentralDirectoryRecord.kSignature : Nat := 0x02014b50

/-- The record overlaid on the bytes at `off`. -/
def CentralDirectoryRecord.read (m : Mem) (off : Nat) : CentralDirectoryRecord :=
  { record_signature := get_u32 m off, version_made_by := get_u16 m (off + 4),
    version_needed := get_u16 m (off + 6), gpb_flags := get_u16 m (off + 8),
    compression_method := get_u16 m (off + 10), last_mod_time := get_u16 m (off + 12),
    last_mod_date := get_u16 m (off + 14), crc32 := get_u32 m (off + 16),
    compressed_size := get_u32 m (off + 20), uncompressed_size := get_u32 m (off + 24),
    file_name_length := get_u16 m (off + 28), extra_field_length := get_u16 m (off + 30),
    comment_length := get_u16 m (off + 32), file_start_disk := get_u16 m (off + 34),
    internal_file_attributes := get_u16 m (off + 36),
    external_file_attributes := get_u32 m (off + 38),
    local_file_header_offset := get_u32 m (off + 42) }

/-- A local file header (`zip_archive_common.h`). -/
structure LocalFileHeader where
  lfh_signature : Nat
  version_needed : Nat
  gpb_flags : Nat
  compression_method : Nat
  last_mod_time : Nat
  last_mod_date : Nat
  crc32 : Nat
  compressed_size : Nat
  uncompressed_size : Nat
  file_name_length : Nat
  extra_field_length : Nat
  deriving DecidableEq, Repr

/-- The magic number of a local file header. -/
def LocalFileHeader.kSignature : Nat := 0x04034b50

/-- The header overlaid on the bytes at `off`. -/
def LocalFileHeader.read (m : Mem) (off : Nat) : LocalFileHeader :=
  { lfh_signature := get_u32 m off, version_needed := get_u16 m (off + 4),
    gpb_flags := get_u16 m (off + 6), compression_method := get_u16 m (off + 8),
    last_mod_time := get_u16 m (off + 10), last_mod_date := get_u16 m (off + 12),
    crc32 := get_u32 m (off + 14), compressed_size := get_u32 m (off + 18),
    uncompressed_size := get_u32 m (off + 22), file_name_length := get_u16 m (off + 26),
    extra_field_length := get_u16 m (off + 28) }

/-- A data descriptor (`zip_archive_common.h`). -/
structure DataDescriptor where
  crc32 : Nat
  compressed_size : Nat
  uncompressed_size : Nat
  deriving DecidableEq, Repr

/-- The optional magic number in front of a data descriptor. -/
def DataDescriptor.kOptSignature : Nat := 0x08074b50

/-- The descriptor overlaid on the bytes at `off`. -/
def DataDescriptor.read (m : Mem) (off : Nat) : DataDescriptor :=
  { crc32 := get_u32 m off, compressed_size := get_u32 m (off + 4),
    uncompressed_size := get_u32 m (off + 8) }

/-- The entry description filled in by `FindEntry` (`zip_archive.h`). -/
structure ZipEntry where
  method : Nat
  mod_time : Nat
  unix_mode : Nat
  has_data_descriptor : Nat
  crc32 : Nat
  compressed_length : Nat
  uncompressed_length : Nat
  offset : Int
  gpbf : Nat
  version_made_by : Nat
  external_file_attributes : Nat
  is_text : Nat
  deriving DecidableEq, Repr

/-- A slot of the hash table: where a file name lies in the central directory. -/
structure ZipStringOffset where
  name_offset : Nat
  name_length : Nat
  deriving DecidableEq, Repr

/-- `ZipStringOffset::ToStringView(start)`: the bytes of the name. -/
def ZipStringOffset.ToStringView (s : ZipStringOffset) (start : Mem) : List Nat :=
  view start s.name_offset s.name_length

/-- The hash table, indexed by slot. -/
abbrev HashTable := Nat → ZipStringOffset

/-- The table `calloc` returns. -/
def zero_table : HashTable := fun _ => { name_offset := 0, name_length := 0 }

/-- The zip file: either behind a file descriptor (`has_fd`), with the contents
`file` and the size `file_size` that `lseek64(fd, 0, SEEK_END)` reports (-1 when it
fails), or a block of memory at `base_ptr`. `map_ok` tells whether mapping the file
into memory succeeds. -/
structure MappedZipFile where
  has_fd : Bool
  fd : Int
  fd_offset : Int
  base_ptr : Option Mem
  data_length : Int
  file : Mem
  file_size : Int
  map_ok : Bool

/-- `off64_t MappedZipFile::GetFileLength() const`: the length and the object, whose
cached `data_length_` the call may set. -/
def MappedZipFile.GetFileLength (z : MappedZipFile) : Int × MappedZipFile :=
  if z.has_fd then
    if z.data_length ≠ -1 then (z.data_length, z)
    else (z.file_size, { z with data_length := z.file_size })
  else
    match z.base_ptr with
    | none => (-1, z)
    | some _ => (z.data_length, z)

/-- `bool MappedZipFile::ReadAtOffset(uint8_t* buf, size_t len, off64_t off) const`:
`.ok (some b)` with the contents `b` of `buf` after a successful read, `.ok none` when
the call returns false. `ReadFullyAtOffset` (libbase) succeeds when `len` is 0 or the
`len` bytes lie inside the file. For a memory block the function tests the offset only
and then calls `memcpy` on `base_ptr_ + off`: with a null base pointer that is the
fault `null_deref`. -/
def MappedZipFile.ReadAtOffset (z : MappedZipFile) (len : Nat) (off : Int) :
    Except Fault (Option Mem) :=
  if z.has_fd then
    if off < 0 then .ok none
    else if z.fd_offset + off < -9223372036854775808 ∨ 9223372036854775807 < z.fd_offset + off
    then .ok none
    else if z.data_length ≠ -1
        ∧ ((9223372036854775807 : Int) < len ∨ 9223372036854775807 < off + len
            ∨ z.data_length < off + len) then .ok none
    else if len ≠ 0 ∧ (z.fd_offset + off < 0 ∨ z.file_size < z.fd_offset + off + len) then
      .ok none
    else .ok (some (fun k => z.file ((z.fd_offset + off).toNat + k)))
  else
    if off < 0 ∨ z.data_length < off then .ok none
    else
      match z.base_ptr with
      | none => .error .null_deref
      | some base => .ok (some (fun k => base (off.toNat + k)))

/-- The mapped central directory: base pointer and length. -/
structure CentralDirectory where
  base_ptr : Mem
  length : Nat

/-- The open archive. `hash_table` is `none` for a null pointer. -/
structure ZipArchive where
  mapped_zip : MappedZipFile
  directory_offset : Int
  central_directory : CentralDirectory
  num_entries : Nat
  hash_table_size : Nat
  hash_table : Option HashTable

/-- `static uint32_t RoundUpPower2(uint32_t val)`. -/
def RoundUpPower2 (val : Nat) : Nat :=
  let v0 := (val + 4294967295) % 4294967296
  let v1 := v0 ||| (v0 >>> 1)
  let v2 := v1 ||| (v1 >>> 2)
  let v3 := v2 ||| (v2 >>> 4)
  let v4 := v3 ||| (v3 >>> 8)
  let v5 := v4 ||| (v4 >>> 16)
  (v5 + 1) % 4294967296

/-- The value of `hash_table_size - 1` in `uint32_t`. -/
def size_mask (hash_table_size : Nat) : Nat := (hash_table_size + 4294967295) % 4294967296

/-- The loop of `EntryToIndex` from slot `ent`; `none` when `fuel` probes do not end
it. -/
def EntryToIndex_loop (hash_table : HashTable) (hash_table_size : Nat) (name : List Nat)
    (start : Mem) : Nat → Nat → Option Int
  | 0, _ => none
  | fuel + 1, ent =>
    if (hash_table ent).name_offset ≠ 0 then
      if (hash_table ent).ToStringView start = name then some (ent : Int)
      else EntryToIndex_loop hash_table hash_table_size name start fuel
        (((ent + 1) % 4294967296) &&& size_mask hash_table_size)
    else some kEntryNotFound

/-- `static int64_t EntryToIndex(hash_table, hash_table_size, name, start)`;
`ComputeHash` is `std::hash<std::string_view>`. After `hash_table_size` probes
without an empty slot or a match the loop of the source never ends: `none`. -/
def EntryToIndex (ComputeHash : List Nat → Nat) (hash_table : HashTable)
    (hash_table_size : Nat) (name : List Nat) (start : Mem) : Option Int :=
  EntryToIndex_loop hash_table hash_table_size name start hash_table_size
    ((ComputeHash name % 4294967296) &&& size_mask hash_table_size)

/-- The loop of `AddToHash` from slot `ent` and the two stores after it; the name is
the `name_len` bytes at `start + name_off`. -/
def AddToHash_loop (hash_table : HashTable) (hash_table_size : Nat) (name_off name_len : Nat)
    (start : Mem) : Nat → Nat → Option (Int × HashTable)
  | 0, _ => none
  | fuel + 1, ent =>
    if (hash_table ent).name_offset ≠ 0 then
      if (hash_table ent).ToStringView start = view start name_off name_len then
        some (kDuplicateEntry, hash_table)
      else AddToHash_loop hash_table hash_table_size name_off name_len start fuel
        (((ent + 1) % 4294967296) &&& size_mask hash_table_size)
    else
      some (0, fun j =>
        if j = ent then { name_offset := name_off % 4294967296, name_length := name_len % 65536 }
        else hash_table j)

/-- `static int32_t AddToHash(hash_table, hash_table_size, name, start)`: the result
and the table afterwards. -/
def AddToHash (ComputeHash : List Nat → Nat) (hash_table : HashTable) (hash_table_size : Nat)
    (name_off name_len : Nat) (start : Mem) : Option (Int × HashTable) :=
  AddToHash_loop hash_table hash_table_size name_off name_len start hash_table_size
    ((ComputeHash (view start name_off name_len) % 4294967296) &&& size_mask hash_table_size)

/-- Insertion of the names (offset and length in the central directory) one after
the other: the results of the calls and the final table. -/
def add_names (ComputeHash : List Nat → Nat) (hash_table_size : Nat) (start : Mem) :
    List (Nat × Nat) → HashTable → Option (List Int × HashTable)
  | [], t => some ([], t)
  | n :: rest, t =>
    match AddToHash ComputeHash t hash_table_size n.1 n.2 start with
    | none => none
    | some (r, t') =>
      match add_names ComputeHash hash_table_size start rest t' with
      | none => none
      | some (rs, t'') => some (r :: rs, t'')

/-- The loop of `ParseZipArchive` with `n` records still to walk, `ptr` being the
offset of the current record from `cd_ptr`: the status that ends the walk (0 when all
records are accepted) and the hash table. `IsValidEntryName` is the check of
`entry_name_utils-inl.h`. -/
def ParseZipArchive_loop (ComputeHash : List Nat → Nat) (IsValidEntryName : List Nat → Bool)
    (directory_offset : Int) (hash_table_size : Nat) (cd_ptr : Mem) (cd_length : Nat) :
    Nat → Nat → HashTable → Option (Int × HashTable)
  | 0, _, t => some (0, t)
  | n + 1, ptr, t =>
    if (cd_length : Int) - sizeof_CentralDirectoryRecord < ptr then some (kInvalidFile, t)
    else
      let cdr := CentralDirectoryRecord.read cd_ptr ptr
      if cdr.record_signature ≠ CentralDirectoryRecord.kSignature then some (kInvalidFile, t)
      else if directory_offset ≤ (cdr.local_file_header_offset : Int) then some (kInvalidFile, t)
      else
        let file_name := ptr + sizeof_CentralDirectoryRecord
        if cd_length < file_name + cdr.file_name_length then some (kInvalidEntryName, t)
        else if ¬ IsValidEntryName (view cd_ptr file_name cdr.file_name_length) = true then
          some (kInvalidEntryName, t)
        else
          match AddToHash ComputeHash t hash_table_size file_name cdr.file_name_length cd_ptr with
          | none => none
          | some (add_result, t') =>
            if add_result ≠ 0 then some (add_result, t')
            else
              let ptr' := ptr + (sizeof_CentralDirectoryRecord + cdr.file_name_length
                + cdr.extra_field_length + cdr.comment_length)
              if cd_length < ptr' then some (kInvalidFile, t')
              else ParseZipArchive_loop ComputeHash IsValidEntryName directory_offset
                hash_table_size cd_ptr cd_length n ptr' t'

/-- `static int32_t ParseZipArchive(ZipArchive* archive)`; `calloc_ok` tells whether
the allocation of the hash table succeeds. `.ok none` when the probe loop of
`AddToHash` does not end. -/
def ParseZipArchive (ComputeHash : List Nat → Nat) (IsValidEntryName : List Nat → Bool)
    (calloc_ok : Bool) (archive : ZipArchive) : Except Fault (Option (Int × ZipArchive)) :=
  let cd_ptr := archive.central_directory.base_ptr
  let cd_length := archive.central_directory.length
  let num_entries := archive.num_entries % 65536
  let hash_table_size := RoundUpPower2 (1 + (num_entries * 4) / 3)
  if ¬ calloc_ok = true then
    .ok (some (kAllocationFailed,
      { archive with hash_table_size := hash_table_size, hash_table := none }))
  else
    match ParseZipArchive_loop ComputeHash IsValidEntryName archive.directory_offset
        hash_table_size cd_ptr cd_length num_entries 0 zero_table with
    | none => .ok none
    | some (r, t) =>
      let archive' : ZipArchive :=
        { archive with hash_table_size := hash_table_size, hash_table := some t }
      if r ≠ 0 then .ok (some (r, archive'))
      else
        match archive.mapped_zip.ReadAtOffset 4 0 with
        | .error e => .error e
        | .ok none => .ok (some (kInvalidFile, archive'))
        | .ok (some lfh_start_bytes) =>
          if get_u32 lfh_start_bytes 0 ≠ LocalFileHeader.kSignature then
            .ok (some (kInvalidFile, archive'))
          else .ok (some (0, archive'))

/-- `bool ZipArchive::InitializeCentralDirectory(off64_t cd_start_offset, size_t cd_size)`. -/
def ZipArchive.InitializeCentralDirectory (archive : ZipArchive) (cd_start_offset : Int)
    (cd_size : Nat) : Bool × ZipArchive :=
  if archive.mapped_zip.has_fd then
    if ¬ archive.mapped_zip.map_ok = true then (false, archive)
    else
      (true, { archive with central_directory :=
        { base_ptr := fun k =>
            archive.mapped_zip.file ((archive.mapped_zip.fd_offset + cd_start_offset).toNat + k),
          length := cd_size } })
  else
    match archive.mapped_zip.base_ptr with
    | none => (false, archive)
    | some base =>
      if archive.mapped_zip.GetFileLength.1 < cd_start_offset + cd_size then (false, archive)
      else
        (true, { archive with central_directory :=
          { base_ptr := fun k => base (cd_start_offset.toNat + k), length := cd_size } })

/-- The backward scan of `MapCentralDirectory0` from index `i`: the highest index at
most `i` where the end-of-central-directory magic lies, if any. -/
def eocd_scan (scan_buffer : Mem) : Nat → Option Nat
  | 0 =>
    if get_u8 scan_buffer 0 = 0x50 ∧ get_u32 scan_buffer 0 = EocdRecord.kSignature then some 0
    else none
  | i + 1 =>
    if get_u8 scan_buffer (i + 1) = 0x50 ∧ get_u32 scan_buffer (i + 1) = EocdRecord.kSignature
    then some (i + 1)
    else eocd_scan scan_buffer i

/-- `static int32_t MapCentralDirectory0(debug_file_name, archive, file_length,
read_amount, scan_buffer)`. A failing `CHECK_LE` aborts. -/
def MapCentralDirectory0 (archive : ZipArchive) (file_length : Int) (read_amount : Nat) :
    Except Fault (Int × ZipArchive) :=
  let search_start : Int := file_length - read_amount
  match archive.mapped_zip.ReadAtOffset read_amount search_start with
  | .error e => .error e
  | .ok none => .ok (kIoError, archive)
  | .ok (some scan_buffer) =>
    if 2147483647 < read_amount then .error .check_failed
    else
      match (if read_amount < sizeof_EocdRecord then none
             else eocd_scan scan_buffer (read_amount - sizeof_EocdRecord)) with
      | none => .ok (kInvalidFile, archive)
      | some i =>
        let eocd_offset : Int := search_start + i
        let eocd := EocdRecord.read scan_buffer i
        let calculated_length : Int := eocd_offset + sizeof_EocdRecord + eocd.comment_length
        if calculated_length ≠ file_length then .ok (kInvalidFile, archive)
        else if eocd_offset < (eocd.cd_start_offset : Int) + eocd.cd_size then
          .ok (kInvalidOffset, archive)
        else if eocd.num_records = 0 then .ok (kEmptyArchive, archive)
        else
          match archive.InitializeCentralDirectory eocd.cd_start_offset eocd.cd_size with
          | (false, archive') => .ok (kMmapFailed, archive')
          | (true, archive') =>
            .ok (0, { archive' with num_entries := eocd.num_records,
                                    directory_offset := eocd.cd_start_offset })

/-- `static int32_t MapCentralDirectory(debug_file_name, archive)`. -/
def MapCentralDirectory (archive : ZipArchive) : Except Fault (Int × ZipArchive) :=
  let file_length := archive.mapped_zip.GetFileLength.1
  let archive1 : ZipArchive := { archive with mapped_zip := archive.mapped_zip.GetFileLength.2 }
  if file_length = -1 then .ok (kInvalidFile, archive1)
  else if (0xffffffff : Int) < file_length then .ok (kInvalidFile, archive1)
  else if file_length < (sizeof_EocdRecord : Int) then .ok (kInvalidFile, archive1)
  else
    let read_amount : Nat :=
      if file_length < (kMaxEOCDSearch : Int) then file_length.toNat % 4294967296
      else kMaxEOCDSearch
    MapCentralDirectory0 archive1 file_length read_amount

/-- `static int32_t OpenArchiveInternal(ZipArchive* archive, const char* debug_file_name)`. -/
def OpenArchiveInternal (ComputeHash : List Nat → Nat) (IsValidEntryName : List Nat → Bool)
    (calloc_ok : Bool) (archive : ZipArchive) : Except Fault (Option (Int × ZipArchive)) :=
  match MapCentralDirectory archive with
  | .error e => .error e
  | .ok (result, archive') =>
    if result ≠ 0 then .ok (some (result, archive'))
    else ParseZipArchive ComputeHash IsValidEntryName calloc_ok archive'

/-- The end of `FindEntry(archive, ent, data)`, from the computation of the data
offset on (`zip_archive.cc:670-693`). -/
def FindEntry_data (cd_offset local_header_offset : Int) (lfh : LocalFileHeader)
    (data3 : ZipEntry) : Int × ZipEntry :=
  let data_offset : Int := local_header_offset + sizeof_LocalFileHeader
    + lfh.file_name_length + lfh.extra_field_length
  if cd_offset < data_offset then (kInvalidOffset, data3)
  else if cd_offset < data_offset + data3.compressed_length then (kInvalidOffset, data3)
  else if data3.method = kCompressStored
      ∧ cd_offset < data_offset + data3.uncompressed_length then (kInvalidOffset, data3)
  else (0, { data3 with offset := data_offset })

/-- The part of `FindEntry(archive, ent, data)` that compares the name in the local
file header with the name in the central directory (`zip_archive.cc:647-668`),
followed by `FindEntry_data`. -/
def FindEntry_name (mapped_zip : MappedZipFile) (cd_offset local_header_offset : Int)
    (nameLen : Nat) (entry_name : List Nat) (lfh : LocalFileHeader) (data3 : ZipEntry) :
    Except Fault (Int × ZipEntry) :=
  if lfh.file_name_length ≠ nameLen then .ok (kInconsistentInformation, data3)
  else
    let name_offset : Int := local_header_offset + sizeof_LocalFileHeader
    if cd_offset < name_offset + lfh.file_name_length then .ok (kInvalidOffset, data3)
    else
      match mapped_zip.ReadAtOffset nameLen name_offset with
      | .error e => .error e
      | .ok none => .ok (kIoError, data3)
      | .ok (some name_buf) =>
        if entry_name ≠ view name_buf 0 nameLen then .ok (kInconsistentInformation, data3)
        else .ok (FindEntry_data cd_offset local_header_offset lfh data3)

/-- The part of `FindEntry(archive, ent, data)` that checks the local file header
against the central directory record (`zip_archive.cc:588-645`), followed by
`FindEntry_name`. -/
def FindEntry_lfh (mapped_zip : MappedZipFile) (cd_offset : Int) (nameLen : Nat)
    (entry_name : List Nat) (cdr : CentralDirectoryRecord) (lfh : LocalFileHeader)
    (data1 : ZipEntry) : Except Fault (Int × ZipEntry) :=
  if lfh.lfh_signature ≠ LocalFileHeader.kSignature then .ok (kInvalidOffset, data1)
  else
    let data2 : ZipEntry :=
      { data1 with
        has_data_descriptor := if lfh.gpb_flags &&& kGPBDDFlagMask = 0 then 0 else 1 }
    if lfh.gpb_flags &&& kGPBDDFlagMask = 0
        ∧ (data1.compressed_length ≠ lfh.compressed_size
            ∨ data1.uncompressed_length ≠ lfh.uncompressed_size
            ∨ data1.crc32 ≠ lfh.crc32) then
      .ok (kInconsistentInformation, data2)
    else
      FindEntry_name mapped_zip cd_offset cdr.local_file_header_offset nameLen entry_name lfh
        { data2 with
          version_made_by := cdr.version_made_by,
          external_file_attributes := cdr.external_file_attributes,
          unix_mode :=
            if cdr.version_made_by >>> 8 = 3 then
              (cdr.external_file_attributes >>> 16) &&& 0xffff
            else 0o777,
          gpbf := lfh.gpb_flags,
          is_text := cdr.internal_file_attributes &&& 1 }

/-- `static int32_t FindEntry(const ZipArchive* archive, const int32_t ent, ZipEntry* data)`:
the result and the entry `data` points to afterwards. -/
def FindEntry (archive : ZipArchive) (ent : Nat) (data : ZipEntry) :
    Except Fault (Int × ZipEntry) :=
  match archive.hash_table with
  | none => .error .null_deref
  | some hash_table =>
    let nameLen := (hash_table ent).name_length
    let base_ptr := archive.central_directory.base_ptr
    let ptr : Int := ((hash_table ent).name_offset : Int) - sizeof_CentralDirectoryRecord
    if ptr < 0 ∨ (archive.central_directory.length : Int) < ptr then .ok (kInvalidOffset, data)
    else
      let cdr := CentralDirectoryRecord.read base_ptr ptr.toNat
      let cd_offset := archive.directory_offset
      let data1 : ZipEntry :=
        { data with
          method := cdr.compression_method,
          mod_time := ((cdr.last_mod_date <<< 16) ||| cdr.last_mod_time) % 4294967296,
          crc32 := cdr.crc32,
          compressed_length := cdr.compressed_size,
          uncompressed_length := cdr.uncompressed_size }
      let local_header_offset : Int := cdr.local_file_header_offset
      if cd_offset ≤ local_header_offset + sizeof_LocalFileHeader then .ok (kInvalidOffset, data1)
      else
        match archive.mapped_zip.ReadAtOffset sizeof_LocalFileHeader local_header_offset with
        | .error e => .error e
        | .ok none => .ok (kIoError, data1)
        | .ok (some lfh_buf) =>
          FindEntry_lfh archive.mapped_zip cd_offset nameLen
            ((hash_table ent).ToStringView base_ptr) cdr (LocalFileHeader.read lfh_buf 0) data1

/-- `int32_t FindEntry(const ZipArchiveHandle archive, const std::string_view entryName,
ZipEntry* data)`; `none` when the probe loop of `EntryToIndex` does not end. -/
def FindEntry_by_name (ComputeHash : List Nat → Nat) (archive : ZipArchive)
    (entryName : List Nat) (data : ZipEntry) : Except Fault (Option (Int × ZipEntry)) :=
  if entryName = [] ∨ 65535 < entryName.length then .ok (some (kInvalidEntryName, data))
  else
    match archive.hash_table with
    | none => .error .null_deref
    | some hash_table =>
      match EntryToIndex ComputeHash hash_table archive.hash_table_size entryName
          archive.central_directory.base_ptr with
      | none => .ok none
      | some ent =>
        if ent < 0 then .ok (some (ent, data))
        else (FindEntry archive (ent.toNat % 4294967296) data).map some

/-- The state of an iteration (`struct IterationHandle`). -/
structure IterationHandle where
  archive : Option ZipArchive
  prefix_ : List Nat
  suffix : List Nat
  position : Nat

/-- `int32_t StartIteration(archive, cookie_ptr, optional_prefix, optional_suffix)`:
the result and the cookie, which is untouched (`cookie`) on failure. -/
def StartIteration (archive : Option ZipArchive) (cookie : Option IterationHandle)
    (optional_prefix_ optional_suffix : List Nat) : Int × Option IterationHandle :=
  match archive with
  | none => (kInvalidHandle, cookie)
  | some a =>
    if a.hash_table.isNone then (kInvalidHandle, cookie)
    else if 65535 < optional_prefix_.length ∨ 65535 < optional_suffix.length then
      (kInvalidEntryName, cookie)
    else
      (0, some { archive := some a, prefix_ := optional_prefix_, suffix := optional_suffix,
                 position := 0 })

/-- The loop of `Next` with `fuel` slots left to look at, from slot `i`: the first
slot that is in use and whose name starts with the prefix and ends with the suffix. -/
def Next_scan (hash_table : HashTable) (base_ptr : Mem) (prefix_ suffix : List Nat) :
    Nat → Nat → Option Nat
  | 0, _ => none
  | fuel + 1, i =>
    if (hash_table i).name_offset ≠ 0
        ∧ (prefix_.isPrefixOf ((hash_table i).ToStringView base_ptr) = true
            ∧ suffix.isSuffixOf ((hash_table i).ToStringView base_ptr) = true) then some i
    else Next_scan hash_table base_ptr prefix_ suffix fuel (i + 1)

/-- `int32_t Next(void* cookie, ZipEntry* data, std::string_view* name)`: the result,
the iteration state, the entry and the name afterwards (`name` is `none` for a null
pointer). -/
def Next (cookie : Option IterationHandle) (data : ZipEntry) (name : Option (List Nat)) :
    Except Fault (Int × Option IterationHandle × ZipEntry × Option (List Nat)) :=
  match cookie with
  | none => .ok (kInvalidHandle, cookie, data, name)
  | some handle =>
    match handle.archive with
    | none => .ok (kInvalidHandle, cookie, data, name)
    | some archive =>
      match archive.hash_table with
      | none => .ok (kInvalidHandle, cookie, data, name)
      | some hash_table =>
        let currentOffset := handle.position
        let hash_table_length := archive.hash_table_size
        match Next_scan hash_table archive.central_directory.base_ptr handle.prefix_
            handle.suffix (hash_table_length - currentOffset) currentOffset with
        | some i =>
          let handle' : IterationHandle := { handle with position := (i + 1) % 4294967296 }
          match FindEntry archive i data with
          | .error e => .error e
          | .ok (error, data') =>
            .ok (error, some handle', data',
              if error = 0 ∧ name.isSome then
                some ((hash_table i).ToStringView archive.central_directory.base_ptr)
              else name)
        | none => .ok (kIterationEnd, some { handle with position := 0 }, data, name)

/-- `static int32_t ValidateDataDescriptor(MappedZipFile& mapped_zip, ZipEntry* entry)`. -/
def ValidateDataDescriptor (mapped_zip : MappedZipFile) (entry : ZipEntry) :
    Except Fault Int :=
  let offset : Int :=
    if entry.method ≠ kCompressStored then entry.offset + entry.compressed_length
    else entry.offset + entry.uncompressed_length
  match mapped_zip.ReadAtOffset (sizeof_DataDescriptor + 4) offset with
  | .error e => .error e
  | .ok none => .ok kIoError
  | .ok (some ddBuf) =>
    let ddSignature := get_u32 ddBuf 0
    let ddOffset := if ddSignature = DataDescriptor.kOptSignature then 4 else 0
    let descriptor := DataDescriptor.read ddBuf ddOffset
    if entry.compressed_length ≠ descriptor.compressed_size
        ∨ entry.uncompressed_length ≠ descriptor.uncompressed_size
        ∨ entry.crc32 ≠ descriptor.crc32 then .ok kInconsistentInformation
    else .ok 0

/-- A `zip_archive::Writer` with state `σ`: `Append(buf, buf_size)` gets the bytes
and yields its result and the state afterwards. -/
structure zip_archive.Writer (σ : Type) where
  Append : σ → List Nat → Bool × σ

/-- The state of a `MemoryWriter`: the region `buf_` of `size_` bytes and the number
of bytes written. -/
structure MemoryWriter where
  buf : Mem
  size : Nat
  bytes_written : Nat

/-- `bool MemoryWriter::Append(uint8_t* buf, size_t buf_size)`. -/
def MemoryWriter.Append (w : MemoryWriter) (data : List Nat) : Bool × MemoryWriter :=
  if w.size < w.bytes_written + data.length then (false, w)
  else
    (true, { w with
      buf := fun k =>
        if w.bytes_written ≤ k ∧ k < w.bytes_written + data.length then
          data.getD (k - w.bytes_written) 0
        else w.buf k,
      bytes_written := w.bytes_written + data.length })

/-- The `MemoryWriter` as a `Writer`. -/
def MemoryWriter.writer : zip_archive.Writer MemoryWriter := { Append := MemoryWriter.Append }

/-- The loop of `CopyEntryToWriter` from `count` bytes copied; `crc32` is the zlib
checksum and `crc_out` tells whether one is asked for. `.ok none` when `fuel` rounds
do not end the loop. -/
def CopyEntryToWriter_loop {σ : Type} (crc32 : Nat → List Nat → Nat)
    (mapped_zip : MappedZipFile) (entry : ZipEntry) (writer : zip_archive.Writer σ) (crc_out : Bool)
    (length : Nat) : Nat → Nat → σ → Nat → Except Fault (Option (Int × σ × Nat))
  | 0, count, w, crc => if count < length then .ok none else .ok (some (0, w, crc))
  | fuel + 1, count, w, crc =>
    if count < length then
      let remaining := length - count
      let offset : Int := entry.offset + count
      let block_size := if 32768 < remaining then 32768 else remaining
      match mapped_zip.ReadAtOffset block_size offset with
      | .error e => .error e
      | .ok none => .ok (some (kIoError, w, crc))
      | .ok (some buf) =>
        match writer.Append w (view buf 0 block_size) with
        | (false, w') => .ok (some (kIoError, w', crc))
        | (true, w') =>
          CopyEntryToWriter_loop crc32 mapped_zip entry writer crc_out length fuel
            (count + block_size) w'
            (if crc_out then crc32 crc (view buf 0 block_size) else crc)
    else .ok (some (0, w, crc))

/-- `static int32_t CopyEntryToWriter(mapped_zip, entry, writer, crc_out)`: the
result, the writer afterwards and the value stored through `crc_out`, if any. Every
round copies at least one byte, so `uncompressed_length` rounds are never used up. -/
def CopyEntryToWriter {σ : Type} (crc32 : Nat → List Nat → Nat) (mapped_zip : MappedZipFile)
    (entry : ZipEntry) (writer : zip_archive.Writer σ) (w : σ) (crc_out : Bool) :
    Except Fault (Option (Int × σ × Option Nat)) :=
  match CopyEntryToWriter_loop crc32 mapped_zip entry writer crc_out
      (entry.uncompressed_length % 4294967296) (entry.uncompressed_length % 4294967296) 0 w 0 with
  | .error e => .error e
  | .ok none => .ok none
  | .ok (some (r, w', crc)) =>
    .ok (some (r, w', if r = 0 ∧ crc_out = true then some crc else none))

/-- `int32_t ExtractToWriter(ZipArchiveHandle archive, ZipEntry* entry, Writer* writer)`;
`InflateEntryToWriter` stands for the function of that name, which runs zlib. -/
def ExtractToWriter {σ : Type} (crc32 : Nat → List Nat → Nat)
    (InflateEntryToWriter :
      MappedZipFile → ZipEntry → σ → Bool → Except Fault (Int × σ × Option Nat))
    (archive : ZipArchive) (entry : ZipEntry) (writer : zip_archive.Writer σ) (w : σ) :
    Except Fault (Option (Int × σ)) :=
  let method := entry.method % 65536
  let step1 : Except Fault (Option (Int × σ × Option Nat)) :=
    if method = kCompressStored then
      CopyEntryToWriter crc32 archive.mapped_zip entry writer w kCrcChecksEnabled
    else if method = kCompressDeflated then
      (InflateEntryToWriter archive.mapped_zip entry w kCrcChecksEnabled).map some
    else .ok (some (-1, w, none))
  match step1 with
  | .error e => .error e
  | .ok none => .ok none
  | .ok (some (return_value, w', crc_opt)) =>
    let crc : Nat := crc_opt.getD 0
    if return_value = 0 ∧ entry.has_data_descriptor ≠ 0 then
      match ValidateDataDescriptor archive.mapped_zip entry with
      | .error e => .error e
      | .ok validated =>
        if validated ≠ 0 then .ok (some (validated, w'))
        else if kCrcChecksEnabled = true ∧ entry.crc32 ≠ crc % 4294967296 then
          .ok (some (kInconsistentInformation, w'))
        else .ok (some (validated, w'))
    else if kCrcChecksEnabled = true ∧ entry.crc32 ≠ crc % 4294967296 then
      .ok (some (kInconsistentInformation, w'))
    else .ok (some (return_value, w'))

/-- `int32_t ExtractToMemory(ZipArchiveHandle archive, ZipEntry* entry, uint8_t* begin,
uint32_t size)`: the result and the writer, which holds the region and the number of
bytes written to it. -/
def ExtractToMemory (crc32 : Nat → List Nat → Nat)
    (InflateEntryToWriter :
      MappedZipFile → ZipEntry → MemoryWriter → Bool
        → Except Fault (Int × MemoryWriter × Option Nat))
    (archive : ZipArchive) (entry : ZipEntry) (begin_ : Mem) (size : Nat) :
    Except Fault (Option (Int × MemoryWriter)) :=
  ExtractToWriter crc32 InflateEntryToWriter archive entry MemoryWriter.writer
    { buf := begin_, size := size % 4294967296, bytes_written := 0 }

/-- The bytes of the name given by its offset and length in the central directory. -/
def name_at (start : Mem) (n : Nat × Nat) : List Nat := view start n.1 n.2

/-- The slot at which the probe for `name` begins. -/
def hash_home (ComputeHash : List Nat → Nat) (hash_table_size : Nat) (name : List Nat) : Nat :=
  (ComputeHash name % 4294967296) &&& size_mask hash_table_size

/-- Names as `ParseZipArchive` hands them to `AddToHash`: at a non-zero offset that
fits `uint32_t`, of a length that fits `uint16_t`, and pairwise distinct. -/
def names_ok (start : Mem) (names : List (Nat × Nat)) : Prop :=
  (∀ n ∈ names, n.1 ≠ 0 ∧ n.1 < 4294967296 ∧ n.2 < 65536)
    ∧ (names.map (name_at start)).Nodup

/-- A slot of the table is in use and holds the bytes `name`. -/
def name_stored (hash_table : HashTable) (hash_table_size : Nat) (start : Mem)
    (name : List Nat) : Prop :=
  ∃ j, j < hash_table_size ∧ (hash_table j).name_offset ≠ 0
    ∧ (hash_table j).ToStringView start = name

/-- The table holds the names `S` and nothing else: every slot in use holds one of
them, each of them is reached from its home slot through slots in use that hold other
names, and no more than `S.length` slots are in use. -/
def hash_table_inv (ComputeHash : List Nat → Nat) (start : Mem) (hash_table_size : Nat)
    (t : HashTable) (S : List (Nat × Nat)) : Prop :=
  (∀ n ∈ S, n.1 ≠ 0)
    ∧ (∀ j, j < hash_table_size → (t j).name_offset ≠ 0 →
        ∃ n ∈ S, t j = { name_offset := n.1, name_length := n.2 })
    ∧ (∀ n ∈ S, ∃ d, d < hash_table_size
        ∧ t ((hash_home ComputeHash hash_table_size (name_at start n) + d) % hash_table_size)
            = { name_offset := n.1, name_length := n.2 }
        ∧ ∀ d', d' < d →
            (t ((hash_home ComputeHash hash_table_size (name_at start n) + d')
                  % hash_table_size)).name_offset ≠ 0
            ∧ (t ((hash_home ComputeHash hash_table_size (name_at start n) + d')
                  % hash_table_size)).ToStringView start ≠ name_at start n)
    ∧ (List.range hash_table_size).countP (fun j => decide ((t j).name_offset ≠ 0)) ≤ S.length

/-- The offset from the base of the central directory at which the walk of
`ParseZipArchive` expects record `i`: each record is followed by its name, extra field
and comment. -/
def cd_record_ptr (cd_ptr : Mem) : Nat → Nat
  | 0 => 0
  | i + 1 =>
    cd_record_ptr cd_ptr i
      + (sizeof_CentralDirectoryRecord
          + (CentralDirectoryRecord.read cd_ptr (cd_record_ptr cd_ptr i)).file_name_length
          + (CentralDirectoryRecord.read cd_ptr (cd_record_ptr cd_ptr i)).extra_field_length
          + (CentralDirectoryRecord.read cd_ptr (cd_record_ptr cd_ptr i)).comment_length)

/-- Offset and length of the file name of record `i`. -/
def cd_record_name (cd_ptr : Mem) (i : Nat) : Nat × Nat :=
  (cd_record_ptr cd_ptr i + sizeof_CentralDirectoryRecord,
   (CentralDirectoryRecord.read cd_ptr (cd_record_ptr cd_ptr i)).file_name_length)

/-- The record at offset `p` passes the checks `ParseZipArchive` makes before it adds
the name to the hash table. -/
def cd_record_ok (IsValidEntryName : List Nat → Bool) (directory_offset : Int) (cd_ptr : Mem)
    (cd_length : Nat) (p : Nat) : Prop :=
  p + sizeof_CentralDirectoryRecord ≤ cd_length
    ∧ (CentralDirectoryRecord.read cd_ptr p).record_signature = CentralDirectoryRecord.kSignature
    ∧ ((CentralDirectoryRecord.read cd_ptr p).local_file_header_offset : Int) < directory_offset
    ∧ p + sizeof_CentralDirectoryRecord + (CentralDirectoryRecord.read cd_ptr p).file_name_length
        ≤ cd_length
    ∧ IsValidEntryName (view cd_ptr (p + sizeof_CentralDirectoryRecord)
        (CentralDirectoryRecord.read cd_ptr p).file_name_length) = true

/-! ## Concrete archives -/

/-- The two bytes of a little-endian `uint16_t`. -/
def le16 (n : Nat) : List Nat := [n % 256, n / 256 % 256]

/-- The four bytes of a little-endian `uint32_t`. -/
def le32 (n : Nat) : List Nat := le16 (n % 65536) ++ le16 (n / 65536)

/-- A local file header for a stored entry without data descriptor, followed by the
name and the data. -/
def lfh_bytes (name data : List Nat) (crc : Nat) : List Nat :=
  le32 0x04034b50 ++ le16 20 ++ le16 0 ++ le16 0 ++ le16 0 ++ le16 0 ++ le32 crc
    ++ le32 data.length ++ le32 data.length ++ le16 name.length ++ le16 0 ++ name ++ data

/-- A central directory record for a stored entry, followed by the name. -/
def cdr_bytes (name : List Nat) (size crc local_header_offset : Nat) : List Nat :=
  le32 0x02014b50 ++ le16 20 ++ le16 20 ++ le16 0 ++ le16 0 ++ le16 0 ++ le16 0 ++ le32 crc
    ++ le32 size ++ le32 size ++ le16 name.length ++ le16 0 ++ le16 0 ++ le16 0 ++ le16 0
    ++ le32 0 ++ le32 local_header_offset ++ name

/-- An end-of-central-directory record without comment. -/
def eocd_bytes (num_records cd_size cd_start_offset : Nat) : List Nat :=
  le32 0x06054b50 ++ le16 0 ++ le16 0 ++ le16 num_records ++ le16 num_records ++ le32 cd_size
    ++ le32 cd_start_offset ++ le16 0

/-- The central directory of `zip1`: the entries `a` and `bc`. -/
def zip1_cd : List Nat := cdr_bytes [97] 3 0 0 ++ cdr_bytes [98, 99] 2 0 34

/-- An archive of 185 bytes with the stored entries `a` (data `hi!`) and `bc` (data
`ok`); the central directory is at offset 68, the end record at offset 163. -/
def zip1_bytes : List Nat :=
  lfh_bytes [97] [104, 105, 33] 0 ++ lfh_bytes [98, 99] [111, 107] 0 ++ zip1_cd
    ++ eocd_bytes 2 95 68

/-- The central directory of `zip2`, which lists the name `a` twice. -/
def zip2_cd : List Nat := cdr_bytes [97] 3 0 0 ++ cdr_bytes [97] 3 0 0

/-- An archive whose central directory lists the entry `a` twice. -/
def zip2_bytes : List Nat :=
  lfh_bytes [97] [104, 105, 33] 0 ++ zip2_cd ++ eocd_bytes 2 94 34

/-- The zip file that is the block of memory `bytes`. -/
def memory_zip (bytes : List Nat) : MappedZipFile :=
  { has_fd := false, fd := -1, fd_offset := 0, base_ptr := some (mem_of_list bytes),
    data_length := bytes.length, file := fun _ => 0, file_size := -1, map_ok := false }

/-- The archive object for `bytes` before it is opened (`ZipArchive::ZipArchive`). -/
def new_archive (bytes : List Nat) : ZipArchive :=
  { mapped_zip := memory_zip bytes, directory_offset := 0,
    central_directory := { base_ptr := fun _ => 0, length := 0 }, num_entries := 0,
    hash_table_size := 0, hash_table := none }

/-- The archive for `bytes` with its central directory mapped: `num_entries` records
in the `cd_size` bytes at `cd_start_offset`. -/
def mapped_archive (bytes : List Nat) (cd_start_offset cd_size num_entries : Nat) : ZipArchive :=
  { mapped_zip := memory_zip bytes, directory_offset := cd_start_offset,
    central_directory :=
      { base_ptr := fun k => mem_of_list bytes (cd_start_offset + k), length := cd_size },
    num_entries := num_entries, hash_table_size := 0, hash_table := none }

/-- A hash function that sends every name to slot 3, so that all names collide. -/
def hash_const (_ : List Nat) : Nat := 3

/-- A hash function: the sum of the bytes. -/
def hash_sum (name : List Nat) : Nat := name.sum

/-- A name check that accepts names without a zero byte. -/
def no_nul (name : List Nat) : Bool := !name.contains 0

/-- An entry description with every field zero. -/
def zero_entry : ZipEntry :=
  { method := 0, mod_time := 0, unix_mode := 0, has_data_descriptor := 0, crc32 := 0,
    compressed_length := 0, uncompressed_length := 0, offset := 0, gpbf := 0,
    version_made_by := 0, external_file_attributes := 0, is_text := 0 }

/-- The central directory record `FindEntry` reads for the slot `ent`: the 46 bytes in
front of the name. -/
def entry_cdr (archive : ZipArchive) (hash_table : HashTable) (ent : Nat) :
    CentralDirectoryRecord :=
  CentralDirectoryRecord.read archive.central_directory.base_ptr
    (((hash_table ent).name_offset : Int) - sizeof_CentralDirectoryRecord).toNat

/-- The local file header `FindEntry` reads for the slot `ent`, when the read succeeds. -/
def entry_lfh (archive : ZipArchive) (hash_table : HashTable) (ent : Nat) :
    Option LocalFileHeader :=
  match archive.mapped_zip.ReadAtOffset sizeof_LocalFileHeader
      ((entry_cdr archive hash_table ent).local_file_header_offset : Int) with
  | .ok (some lfh_buf) => some (LocalFileHeader.read lfh_buf 0)
  | _ => none

/-- The name bytes `FindEntry` reads behind the local file header of the slot `ent`,
when the read succeeds. -/
def entry_lfh_name (archive : ZipArchive) (hash_table : HashTable) (ent : Nat) :
    Option (List Nat) :=
  match archive.mapped_zip.ReadAtOffset (hash_table ent).name_length
      ((entry_cdr archive hash_table ent).local_file_header_offset + sizeof_LocalFileHeader) with
  | .ok (some name_buf) => some (view name_buf 0 (hash_table ent).name_length)
  | _ => none

/-- The bytes at index `i` of the scan buffer are the end-of-central-directory magic
(the test of the scan loop of `MapCentralDirectory0`). -/
def eocd_magic_at (scan_buffer : Mem) (i : Nat) : Prop :=
  get_u8 scan_buffer i = 0x50 ∧ get_u32 scan_buffer i = EocdRecord.kSignature

/-- A block of memory of 4294967295 bytes, zero but for an end-of-central-directory
record at its end that announces one record in a central directory of 46 bytes at
offset 100. -/
def huge_zip : MappedZipFile :=
  { has_fd := false, fd := -1, fd_offset := 0,
    base_ptr := some (fun off =>
      if 4294967273 ≤ off then (eocd_bytes 1 46 100).getD (off - 4294967273) 0 else 0),
    data_length := 4294967295, file := fun _ => 0, file_size := -1, map_ok := false }

/-- The archive object for `huge_zip` before it is opened. -/
def huge_archive : ZipArchive :=
  { mapped_zip := huge_zip, directory_offset := 0,
    central_directory := { base_ptr := fun _ => 0, length := 0 }, num_entries := 0,
    hash_table_size := 0, hash_table := none }

/-- An `InflateEntryToWriter` that fails; it is not called for stored entries. -/
def no_inflate {σ : Type} (_ : MappedZipFile) (_ : ZipEntry) (w : σ) (_ : Bool) :
    Except Fault (Int × σ × Option Nat) :=
  .ok (kZlibError, w, none)

/-- A checksum function that is constantly 0. -/
def crc_zero (_ : Nat) (_ : List Nat) : Nat := 0

/-- The entry `a` of `zip1` as `FindEntry` describes it: 3 stored bytes at offset 31. -/
def zip1_entry_a : ZipEntry :=
  { method := 0, mod_time := 0, unix_mode := 511, has_data_descriptor := 0, crc32 := 0,
    compressed_length := 3, uncompressed_length := 3, offset := 31, gpbf := 0,
    version_made_by := 20, external_file_attributes := 0, is_text := 0 }

/-- The archive `zip1` once opened with the hash function `hash_sum`: a table of 4
slots with `a` in slot 1 and `bc` in slot 2. -/
def zip1_archive : ZipArchive :=
  { mapped_zip := memory_zip zip1_bytes, directory_offset := 68,
    central_directory := { base_ptr := fun k => mem_of_list zip1_bytes (68 + k), length := 95 },
    num_entries := 2, hash_table_size := 4,
    hash_table := some (fun j =>
      if j = 2 then { name_offset := 93, name_length := 2 }
      else if j = 1 then { name_offset := 46, name_length := 1 }
      else { name_offset := 0, name_length := 0 }) }

/-- The test of the loop of `Next` on slot `i`: the slot is in use and its name starts
with the prefix and ends with the suffix. -/
def slot_matches (hash_table : HashTable) (base_ptr : Mem) (prefix_ suffix : List Nat)
    (i : Nat) : Bool :=
  decide ((hash_table i).name_offset ≠ 0)
    && (prefix_.isPrefixOf ((hash_table i).ToStringView base_ptr)
        && suffix.isSuffixOf ((hash_table i).ToStringView base_ptr))

/-- Up to `n` successive calls of `Next` on the cookie, each with a non-null `name`
that holds the empty string before the call; the calls stop after the first that does
not return 0. For every call: the result, the name and the cursor afterwards. -/
def Next_trace : Nat → Option IterationHandle → ZipEntry →
    List (Int × Option (List Nat) × Option Nat)
  | 0, _, _ => []
  | n + 1, cookie, data =>
    match Next cookie data (some []) with
    | .error _ => []
    | .ok (r, cookie', data', name) =>
      if r = 0 then
        (r, name, cookie'.map IterationHandle.position) :: Next_trace n cookie' data'
      else [(r, name, cookie'.map IterationHandle.position)]

/-- An archive whose local file header gives the crc32 7 for the entry `a`, where the
central directory gives 0. -/
def zip3_bytes : List Nat :=
  lfh_bytes [97] [104, 105, 33] 7 ++ cdr_bytes [97] 3 0 0 ++ eocd_bytes 1 47 34

/-- The archive `zip3` once opened with the hash function `hash_sum`: a table of 2
slots with `a` in slot 1. -/
def zip3_archive : ZipArchive :=
  { mapped_zip := memory_zip zip3_bytes, directory_offset := 34,
    central_directory := { base_ptr := fun k => mem_of_list zip3_bytes (34 + k), length := 47 },
    num_entries := 1, hash_table_size := 2,
    hash_table := some (fun j =>
      if j = 1 then { name_offset := 46, name_length := 1 }
      else { name_offset := 0, name_length := 0 }) }

/-- An empty archive: an end-of-central-directory record that announces no record. -/
def empty_zip_bytes : List Nat := eocd_bytes 0 0 0

/-! ## Lemmas on the registry helpers -/

theorem find_handle_some {l : List soinfo} {h : Nat} {r : soinfo}
    (hf : find_handle l h = some r) : r ∈ l ∧ r.handle = h := by
  induction l with
  | nil => simp [find_handle] at hf
  | cons a t ih =>
    unfold find_handle at hf
    split at hf
    · rename_i ha
      cases hf
      exact ⟨List.mem_cons_self _ _, ha⟩
    · exact ⟨List.mem_cons_of_mem _ (ih hf).1, (ih hf).2⟩

theorem find_handle_none {l : List soinfo} {h : Nat} :
    find_handle l h = none ↔ ∀ r ∈ l, r.handle ≠ h := by
  induction l with
  | nil => simp [find_handle]
  | cons a t ih =>
    unfold find_handle
    by_cases ha : a.handle = h
    · simp [ha]
    · simp [ha, ih]

theorem find_handle_of_mem {l : List soinfo} {r : soinfo}
    (hn : (l.map soinfo.handle).Nodup) (hr : r ∈ l) : find_handle l r.handle = some r := by
  induction l with
  | nil => cases hr
  | cons a t ih =>
    simp only [List.map_cons, List.nodup_cons, List.mem_map, not_exists, not_and] at hn
    unfold find_handle
    rcases List.mem_cons.1 hr with rfl | hr
    · simp
    · have : a.handle ≠ r.handle := fun e => hn.1 r hr e.symm
      simp [this, ih hn.2 hr]

theorem find_name_some {l : List soinfo} {n : String} {r : soinfo}
    (hf : find_name l n = some r) : r ∈ l ∧ r.name = n := by
  induction l with
  | nil => simp [find_name] at hf
  | cons a t ih =>
    unfold find_name at hf
    split at hf
    · rename_i ha
      cases hf
      exact ⟨List.mem_cons_self _ _, ha⟩
    · exact ⟨List.mem_cons_of_mem _ (ih hf).1, (ih hf).2⟩

theorem find_name_append (l : List soinfo) (r : soinfo) (n : String) :
    find_name (l ++ [r]) n
      = match find_name l n with
        | some x => some x
        | none => if r.name = n then some r else none := by
  induction l with
  | nil => simp [find_name]
  | cons a t ih =>
    simp only [List.cons_append, find_name]
    by_cases ha : a.name = n
    · simp [ha]
    · simp [ha, ih]

theorem find_handle_append (l : List soinfo) (r : soinfo) (h : Nat) :
    find_handle (l ++ [r]) h
      = match find_handle l h with
        | some x => some x
        | none => if r.handle = h then some r else none := by
  induction l with
  | nil => simp [find_handle]
  | cons a t ih =>
    simp only [List.cons_append, find_handle]
    by_cases ha : a.handle = h
    · simp [ha]
    · simp [ha, ih]

theorem modify_handle_map_handle (f : soinfo → soinfo) (hf : ∀ r, (f r).handle = r.handle)
    (l : List soinfo) (h : Nat) :
    (modify_handle f l h).map soinfo.handle = l.map soinfo.handle := by
  induction l with
  | nil => rfl
  | cons a t ih =>
    unfold modify_handle
    split
    · simp [hf]
    · simp [ih]

theorem modify_handle_map_name (f : soinfo → soinfo) (hf : ∀ r, (f r).name = r.name)
    (l : List soinfo) (h : Nat) :
    (modify_handle f l h).map soinfo.name = l.map soinfo.name := by
  induction l with
  | nil => rfl
  | cons a t ih =>
    unfold modify_handle
    split
    · simp [hf]
    · simp [ih]

theorem find_handle_modify_same (f : soinfo → soinfo) (hf : ∀ r, (f r).handle = r.handle)
    {l : List soinfo} {h : Nat} {r : soinfo} (hr : find_handle l h = some r) :
    find_handle (modify_handle f l h) h = some (f r) := by
  induction l with
  | nil => simp [find_handle] at hr
  | cons a t ih =>
    unfold find_handle at hr
    unfold modify_handle
    by_cases ha : a.handle = h
    · simp only [ha, if_true] at hr ⊢
      cases hr
      simp [find_handle, hf, ha]
    · simp only [ha, if_false] at hr ⊢
      simp [find_handle, ha, ih hr]

theorem find_handle_modify_other (f : soinfo → soinfo) (hf : ∀ r, (f r).handle = r.handle)
    (l : List soinfo) {h h' : Nat} (hne : h' ≠ h) :
    find_handle (modify_handle f l h) h' = find_handle l h' := by
  induction l with
  | nil => rfl
  | cons a t ih =>
    unfold modify_handle
    by_cases ha : a.handle = h
    · have : a.handle ≠ h' := fun e => hne (e.symm.trans ha)
      simp [ha, find_handle, hf, hne.symm]
    · simp only [ha, if_false]
      unfold find_handle
      simp [ih]

theorem modify_handle_eq_map (f : soinfo → soinfo) {l : List soinfo} (h : Nat)
    (hn : (l.map soinfo.handle).Nodup) :
    modify_handle f l h = l.map (fun r => if r.handle = h then f r else r) := by
  induction l with
  | nil => rfl
  | cons a t ih =>
    simp only [List.map_cons, List.nodup_cons, List.mem_map, not_exists, not_and] at hn
    unfold modify_handle
    by_cases ha : a.handle = h
    · simp only [ha, if_true, List.map_cons, List.cons.injEq, true_and]
      symm
      calc t.map (fun r => if r.handle = h then f r else r)
          = t.map id := List.map_congr_left (fun r hr => by
              have : r.handle ≠ h := fun e => hn.1 r hr (e.trans ha.symm)
              simp [this])
        _ = t := List.map_id t
    · simp [ha, ih hn.2]

theorem erase_handle_eq_filter {l : List soinfo} (h : Nat)
    (hn : (l.map soinfo.handle).Nodup) :
    erase_handle l h = l.filter (fun r => decide (r.handle ≠ h)) := by
  induction l with
  | nil => rfl
  | cons a t ih =>
    simp only [List.map_cons, List.nodup_cons, List.mem_map, not_exists, not_and] at hn
    unfold erase_handle
    by_cases ha : a.handle = h
    · simp only [ha, if_true]
      rw [List.filter_cons_of_neg (by simp [ha])]
      symm
      rw [List.filter_eq_self]
      intro r hr
      have : r.handle ≠ h := fun e => hn.1 r hr (e.trans ha.symm)
      simp [this]
    · simp only [ha, if_false]
      rw [List.filter_cons_of_pos (by simp [ha]), ih hn.2]

/-! ## `get_library_code_region` -/

theorem code_region_foldl_not_code (w : Nat) (s : soinfo) (l : List Elf_Phdr) (out : Nat × Nat)
    (hl : ∀ ph ∈ l, is_code_segment ph = false) :
    l.foldl (linker.code_region_step w s) out = out := by
  induction l generalizing out with
  | nil => rfl
  | cons a t ih =>
    have ha : is_code_segment a = false := hl a (List.mem_cons_self _ _)
    have hstep : linker.code_region_step w s out a = out := by
      unfold linker.code_region_step
      unfold is_code_segment at ha
      simp only [decide_eq_false_iff_not] at ha
      rw [if_neg ha]
    rw [List.foldl_cons, hstep]
    exact ih out (fun ph hph => hl ph (List.mem_cons_of_mem _ hph))

theorem code_region_foldl_last (w : Nat) (s : soinfo) (l : List Elf_Phdr) (out : Nat × Nat)
    (ph : Elf_Phdr) (hl : (l.filter is_code_segment).getLast? = some ph) :
    l.foldl (linker.code_region_step w s) out = ((s.base + ph.p_vaddr) % 2 ^ w, ph.p_memsz) := by
  induction l generalizing out with
  | nil => simp at hl
  | cons a t ih =>
    rw [List.foldl_cons]
    by_cases hrest : t.filter is_code_segment = []
    · have ht : ∀ x ∈ t, is_code_segment x = false := by
        intro x hx
        by_contra hc
        have : x ∈ t.filter is_code_segment := List.mem_filter.2 ⟨hx, by simpa using hc⟩
        rw [hrest] at this
        cases this
      rw [code_region_foldl_not_code w s t _ ht]
      by_cases ha : is_code_segment a = true
      · rw [List.filter_cons_of_pos ha, hrest] at hl
        simp only [List.getLast?_singleton, Option.some.injEq] at hl
        subst hl
        unfold linker.code_region_step
        unfold is_code_segment at ha
        simp only [decide_eq_true_eq] at ha
        rw [if_pos ha]
      · rw [List.filter_cons_of_neg ha, hrest] at hl
        simp at hl
    · apply ih
      by_cases ha : is_code_segment a = true
      · rw [List.filter_cons_of_pos ha] at hl
        obtain ⟨b, t', hbt⟩ := List.exists_cons_of_ne_nil hrest
        rw [hbt] at hl ⊢
        rw [List.getLast?_cons_cons] at hl
        exact hl
      · rw [List.filter_cons_of_neg ha] at hl
        exact hl

/-- C1 (as the code behaves): for a live handle whose record has an executable
loadable segment, `get_library_code_region` sets `base` to the record's base address
plus the `p_vaddr` of the LAST program header with `p_type = PT_LOAD` and `PF_X` set
(the sum in `size_t` arithmetic of `w` bits, which is the plain sum when it fits), and
`size` to that header's `p_memsz`. -/
theorem get_library_code_region_last (w : Nat) (st : LinkerState) (handle : Nat) (s : soinfo)
    (base size : Nat) (ph : Elf_Phdr)
    (hlive : soinfo_from_handle st handle = some s)
    (hlast : (s.phdr.filter is_code_segment).getLast? = some ph) :
    linker.get_library_code_region w st handle base size
        = .ok ((s.base + ph.p_vaddr) % 2 ^ w, ph.p_memsz)
      ∧ (s.base + ph.p_vaddr < 2 ^ w →
          linker.get_library_code_region w st handle base size
            = .ok (s.base + ph.p_vaddr, ph.p_memsz)) := by
  have h1 : linker.get_library_code_region w st handle base size
      = .ok ((s.base + ph.p_vaddr) % 2 ^ w, ph.p_memsz) := by
    unfold linker.get_library_code_region
    rw [hlive]
    simp only
    rw [code_region_foldl_last w s s.phdr (base, size) ph hlast]
  refine ⟨h1, fun hlt => ?_⟩
  rw [h1, Nat.mod_eq_of_lt hlt]

/-- Witness of C1 at the record `rec0`: the result is the second executable segment. -/
theorem get_library_code_region_last_witness :
    linker.get_library_code_region 64 st0 7 0 0 = .ok ((4096 + 8192) % 2 ^ 64, 200)
      ∧ (4096 + 8192 < 2 ^ 64 →
          linker.get_library_code_region 64 st0 7 0 0 = .ok (4096 + 8192, 200)) :=
  get_library_code_region_last 64 st0 7 rec0 0 0 (ph_x 8192 200) (by decide) (by decide)

/-- C1 fails as stated: `rec0` has two executable loadable segments, the first one is
`ph_x 0 100` (index 0), yet the call yields the bounds of the one at index 1 and not
`(rec0.base + 0, 100)`. -/
theorem get_library_code_region_not_first :
    soinfo_from_handle st0 7 = some rec0
      ∧ rec0.phdr.find? is_code_segment = some (ph_x 0 100)
      ∧ linker.get_library_code_region 64 st0 7 0 0 = .ok (12288, 200)
      ∧ linker.get_library_code_region 64 st0 7 0 0
          ≠ .ok (rec0.base + (ph_x 0 100).p_vaddr, (ph_x 0 100).p_memsz) := by
  decide

/-! ## `unload_library` -/

theorem unload_library_not_one (st : LinkerState) (handle : Nat) (r : soinfo)
    (hlive : soinfo_from_handle st handle = some r) (hcount : r.ref_count ≠ 1) :
    linker.unload_library st handle = (1, st) := by
  unfold linker.unload_library
  rw [hlive]
  simp [hcount]

theorem unload_library_dead (st : LinkerState) (handle : Nat)
    (hdead : soinfo_from_handle st handle = none) :
    linker.unload_library st handle = (1, st) := by
  unfold linker.unload_library
  rw [hdead]

/-- C2 (as the code behaves): for a live handle whose record's reference count is
greater than one, `unload_library` leaves the count as it is (no decrement), neither
unmaps nor erases the record, and returns the non-zero status 1. -/
theorem unload_library_referenced_keeps_count (st : LinkerState) (handle : Nat) (r : soinfo)
    (hlive : soinfo_from_handle st handle = some r) (hcount : 1 < r.ref_count) :
    (linker.unload_library st handle).1 = 1
      ∧ soinfo_from_handle (linker.unload_library st handle).2 handle = some r
      ∧ ((soinfo_from_handle (linker.unload_library st handle).2 handle).map soinfo.ref_count
          = some r.ref_count) := by
  rw [unload_library_not_one st handle r hlive (by omega)]
  simp [hlive]

/-- Witness of C2 at `st0`, whose record has two references. -/
theorem unload_library_referenced_keeps_count_witness :
    (linker.unload_library st0 7).1 = 1
      ∧ soinfo_from_handle (linker.unload_library st0 7).2 7 = some rec0
      ∧ ((soinfo_from_handle (linker.unload_library st0 7).2 7).map soinfo.ref_count
          = some rec0.ref_count) :=
  unload_library_referenced_keeps_count st0 7 rec0 (by decide) (by decide)

/-- C2 fails as stated: the record of `st0` has reference count 2 and still has
reference count 2, not 1, after `unload_library`. -/
theorem unload_library_does_not_decrement :
    (soinfo_from_handle st0 7).map soinfo.ref_count = some 2
      ∧ (soinfo_from_handle (linker.unload_library st0 7).2 7).map soinfo.ref_count = some 2
      ∧ (soinfo_from_handle (linker.unload_library st0 7).2 7).map soinfo.ref_count
          ≠ some (2 - 1) := by
  decide

/-- C4 (as the code behaves): `unload_library` on a handle that designates no live
record returns 1 and leaves the linker state as it is; 1 is also what it returns for
a live record that is still referenced, so the returned value does not tell the two
cases apart. -/
theorem unload_library_invalid_handle (st st' : LinkerState) (handle handle' : Nat)
    (r : soinfo)
    (hdead : soinfo_from_handle st handle = none)
    (hlive : soinfo_from_handle st' handle' = some r) (hcount : 1 < r.ref_count) :
    linker.unload_library st handle = (1, st)
      ∧ (linker.unload_library st handle).1 = (linker.unload_library st' handle').1 := by
  rw [unload_library_dead st handle hdead,
    unload_library_not_one st' handle' r hlive (by omega)]
  exact ⟨rfl, rfl⟩

/-- Witness of C4: handle 99 is unknown in `st0`, handle 7 is live with two references. -/
theorem unload_library_invalid_handle_witness :
    linker.unload_library st0 99 = (1, st0)
      ∧ (linker.unload_library st0 99).1 = (linker.unload_library st0 7).1 :=
  unload_library_invalid_handle st0 st0 99 7 rec0 (by decide) (by decide) (by decide)

/-- C4 fails as stated: the value returned for the unknown handle 99 and the value
returned for the live, still referenced handle 7 are the same number, 1. -/
theorem unload_library_status_not_distinguishable :
    soinfo_from_handle st0 99 = none
      ∧ (soinfo_from_handle st0 7).map soinfo.ref_count = some 2
      ∧ (linker.unload_library st0 99).1 = 1
      ∧ (linker.unload_library st0 7).1 = 1
      ∧ ¬ (linker.unload_library st0 99).1 ≠ (linker.unload_library st0 7).1 := by
  decide

/-- C5 (evaluation at the failing input): handle 2 was returned by a load after
`init` and freed by the matching unload (`st_freed`); `get_library_base`,
`get_library_code_region` and `relocate` on it dereference the null record pointer,
where `unload_library` checks for it and returns. -/
theorem invalid_handle_is_dereferenced :
    (linker.load_library st_init "libfoo.so" []).1 = 2
      ∧ (linker.unload_library (linker.load_library st_init "libfoo.so" []).2 2).1 = 0
      ∧ soinfo_from_handle st_freed 2 = none
      ∧ linker.get_library_base st_freed 2 = .error Fault.null_deref
      ∧ linker.get_library_code_region 64 st_freed 2 0 0 = .error Fault.null_deref
      ∧ linker.relocate st_freed 2 [("foo", 1)] = .error Fault.null_deref
      ∧ linker.unload_library st_freed 2 = (1, st_freed) := by
  decide

/-- C6: `unload_library` on a live handle whose record has more than one reference
returns the non-zero status 1 and changes nothing: the linker state, hence the
registered records, their base addresses and their override tables, and the record
the handle resolves to, are the same before and after the call. -/
theorem unload_library_still_referenced_frame (st : LinkerState) (handle : Nat) (r : soinfo)
    (hlive : soinfo_from_handle st handle = some r) (hcount : 1 < r.ref_count) :
    (linker.unload_library st handle).1 = 1
      ∧ (linker.unload_library st handle).1 ≠ 0
      ∧ (linker.unload_library st handle).2 = st
      ∧ (linker.unload_library st handle).2.solist.map
            (fun x => (x.handle, x.name, x.base, x.symbols))
          = st.solist.map (fun x => (x.handle, x.name, x.base, x.symbols))
      ∧ ∀ h, soinfo_from_handle (linker.unload_library st handle).2 h
          = soinfo_from_handle st h := by
  rw [unload_library_not_one st handle r hlive (by omega)]
  simp

/-- Witness of C6 at `st0`. -/
theorem unload_library_still_referenced_frame_witness :
    (linker.unload_library st0 7).1 = 1
      ∧ (linker.unload_library st0 7).1 ≠ 0
      ∧ (linker.unload_library st0 7).2 = st0
      ∧ (linker.unload_library st0 7).2.solist.map
            (fun x => (x.handle, x.name, x.base, x.symbols))
          = st0.solist.map (fun x => (x.handle, x.name, x.base, x.symbols))
      ∧ ∀ h, soinfo_from_handle (linker.unload_library st0 7).2 h
          = soinfo_from_handle st0 h :=
  unload_library_still_referenced_frame st0 7 rec0 (by decide) (by decide)

/-! ## `load_library` -/

theorem find_name_map (g : soinfo → soinfo) (hg : ∀ r, (g r).name = r.name)
    (l : List soinfo) (n : String) :
    find_name (l.map g) n = (find_name l n).map g := by
  induction l with
  | nil => rfl
  | cons a t ih =>
    simp only [List.map_cons, find_name, hg]
    by_cases ha : a.name = n
    · simp [ha]
    · simp [ha, ih]

theorem modify_handle_append_new (f : soinfo → soinfo) (l : List soinfo) (a : soinfo)
    (hl : ∀ r ∈ l, r.handle ≠ a.handle) :
    modify_handle f (l ++ [a]) a.handle = l ++ [f a] := by
  induction l with
  | nil => simp [modify_handle]
  | cons b t ih =>
    have hb : b.handle ≠ a.handle := hl b (List.mem_cons_self _ _)
    have e : modify_handle f (b :: (t ++ [a])) a.handle
        = b :: modify_handle f (t ++ [a]) a.handle := by
      simp [modify_handle, hb]
    rw [List.cons_append, e, ih (fun r hr => hl r (List.mem_cons_of_mem _ hr)), List.cons_append]

theorem load_library_present (st : LinkerState) (name : String) (symbols : SymbolMap)
    (r : soinfo) (hr : find_name st.solist name = some r) :
    linker.load_library st name symbols
      = (r.handle,
         { st with solist := modify_handle soinfo.inc_ref st.solist r.handle }) := by
  unfold linker.load_library soinfo.load_library
  rw [hr]
  rfl

theorem load_library_absent (st : LinkerState) (name : String) (symbols : SymbolMap)
    (hok : handles_ok st) (hr : find_name st.solist name = none) :
    linker.load_library st name symbols
      = (st.next_handle,
         { st with
           solist := st.solist ++ [{ name := name, handle := st.next_handle, base := 0,
                                     phdr := [], deps := [], ref_count := 1,
                                     symbols := symbols }],
           next_handle := st.next_handle + 1 }) := by
  unfold linker.load_library soinfo.load_library
  rw [hr]
  simp only [increment_ref_count]
  have hnew := modify_handle_append_new soinfo.inc_ref
    st.solist { name := name, handle := st.next_handle, base := 0, phdr := [], deps := [],
                ref_count := 0, symbols := symbols }
    (fun r hr => Nat.ne_of_lt (hok.2 r hr))
  simp only at hnew
  rw [hnew]
  rfl

theorem load_library_handles_ok (st : LinkerState) (name : String) (symbols : SymbolMap)
    (hok : handles_ok st) : handles_ok (linker.load_library st name symbols).2 := by
  cases hr : find_name st.solist name with
  | some r =>
    rw [load_library_present st name symbols r hr]
    refine ⟨?_, ?_⟩
    · simp only
      rw [modify_handle_map_handle soinfo.inc_ref (fun _ => rfl)]
      exact hok.1
    · intro x hx
      simp only at hx ⊢
      have hx' : x.handle ∈ (modify_handle soinfo.inc_ref
          st.solist r.handle).map soinfo.handle := List.mem_map_of_mem _ hx
      rw [modify_handle_map_handle soinfo.inc_ref (fun _ => rfl)] at hx'
      obtain ⟨y, hy, hxy⟩ := List.mem_map.1 hx'
      rw [← hxy]
      exact hok.2 y hy
  | none =>
    rw [load_library_absent st name symbols hok hr]
    refine ⟨?_, ?_⟩
    · simp only [List.map_append, List.map_cons, List.map_nil]
      rw [List.nodup_append]
      refine ⟨hok.1, List.nodup_singleton _, ?_⟩
      intro a ha hb
      obtain ⟨y, hy, hya⟩ := List.mem_map.1 ha
      have := hok.2 y hy
      simp only [List.mem_singleton] at hb
      omega
    · intro x hx
      simp only [List.mem_append, List.mem_singleton] at hx
      simp only
      rcases hx with hx | hx
      · exact Nat.lt_succ_of_lt (hok.2 x hx)
      · rw [hx]
        exact Nat.lt_succ_self _

theorem load_library_present_lookup (st : LinkerState) (name : String) (symbols : SymbolMap)
    (r : soinfo) (hn : (st.solist.map soinfo.handle).Nodup)
    (hr : find_name st.solist name = some r) :
    find_name (linker.load_library st name symbols).2.solist name
        = some r.inc_ref
      ∧ find_handle (linker.load_library st name symbols).2.solist r.handle
        = some r.inc_ref := by
  rw [load_library_present st name symbols r hr]
  simp only
  refine ⟨?_, ?_⟩
  · rw [modify_handle_eq_map soinfo.inc_ref _ hn,
      find_name_map _ (fun x => by split <;> rfl), hr]
    simp
  · exact find_handle_modify_same soinfo.inc_ref (fun _ => rfl)
      (find_handle_of_mem hn (find_name_some hr).1)

theorem load_times_present (name : String) (symbols : SymbolMap) (n : Nat) :
    ∀ (st : LinkerState) (r : soinfo), handles_ok st → find_name st.solist name = some r →
      handles_ok (load_times name symbols n st)
        ∧ find_name (load_times name symbols n st).solist name
            = some { r with ref_count := r.ref_count + n }
        ∧ find_handle (load_times name symbols n st).solist r.handle
            = some { r with ref_count := r.ref_count + n } := by
  induction n with
  | zero =>
    intro st r hok hr
    exact ⟨hok, hr, find_handle_of_mem hok.1 (find_name_some hr).1⟩
  | succ n ih =>
    intro st r hok hr
    have h1 := load_library_present_lookup st name symbols r hok.1 hr
    have h2 := ih (linker.load_library st name symbols).2 r.inc_ref
      (load_library_handles_ok st name symbols hok) h1.1
    simp only [load_times]
    have e : r.ref_count + 1 + n = r.ref_count + (n + 1) := by omega
    simp only [soinfo.inc_ref, e] at h2
    exact h2

theorem unload_library_last (st : LinkerState) (handle : Nat) (r : soinfo)
    (hlive : soinfo_from_handle st handle = some r) (hcount : r.ref_count = 1)
    (hdeps : r.deps = []) :
    linker.unload_library st handle
      = (0, { st with solist := erase_handle st.solist handle }) := by
  have hfind : find_handle st.solist handle = some r := hlive
  unfold linker.unload_library
  rw [hlive]
  simp only [hcount, ne_eq, not_true_eq_false, if_false]
  unfold dlclose
  rw [hlive]
  simp only [hcount, le_refl, if_true, soinfo_unload, hfind, hdeps, List.foldl_nil]

theorem find_handle_erase_same {l : List soinfo} (h : Nat)
    (hn : (l.map soinfo.handle).Nodup) : find_handle (erase_handle l h) h = none := by
  rw [erase_handle_eq_filter h hn, find_handle_none]
  intro r hr
  simpa using (List.mem_filter.1 hr).2

theorem unload_times_fixed (st : LinkerState) (handle : Nat)
    (hfix : linker.unload_library st handle = (1, st)) (k : Nat) :
    unload_times handle k st = st := by
  induction k with
  | zero => rfl
  | succ k ih =>
    simp only [unload_times, hfix]
    exact ih

/-- C3 (as the code behaves): after `n ≥ 1` calls `load_library(name, ...)` for a name
that was not registered, every call has returned the same handle and the record's
reference count is `n`. For `n = 1` the unload returns 0 and frees the record: the
handle resolves to no record afterwards. For `n ≥ 2` every unload returns 1 and
changes nothing, so after any number `k` of unloads the handle still resolves to
the record with count `n`: the record is never freed. -/
theorem load_unload_sequence (st : LinkerState) (name : String) (symbols : SymbolMap)
    (n k : Nat) (hok : handles_ok st) (habsent : find_name st.solist name = none)
    (hn : 1 ≤ n) :
    (∀ i, i < n →
        (linker.load_library (load_times name symbols i st) name symbols).1 = st.next_handle)
      ∧ (∃ r, soinfo_from_handle (load_times name symbols n st) st.next_handle = some r
          ∧ r.name = name ∧ r.ref_count = n)
      ∧ (n = 1 →
          (linker.unload_library (load_times name symbols n st) st.next_handle).1 = 0
          ∧ soinfo_from_handle
              (linker.unload_library (load_times name symbols n st) st.next_handle).2
              st.next_handle = none)
      ∧ (2 ≤ n →
          linker.unload_library (load_times name symbols n st) st.next_handle
              = (1, load_times name symbols n st)
          ∧ unload_times st.next_handle k (load_times name symbols n st)
              = load_times name symbols n st
          ∧ ∃ r, soinfo_from_handle
                (unload_times st.next_handle k (load_times name symbols n st))
                st.next_handle = some r ∧ r.ref_count = n) := by
  -- the state after the first load
  have h1 := load_library_absent st name symbols hok habsent
  have hok1 := load_library_handles_ok st name symbols hok
  have hname1 : find_name (linker.load_library st name symbols).2.solist name
      = some { name := name, handle := st.next_handle, base := 0, phdr := [], deps := [],
               ref_count := 1, symbols := symbols } := by
    rw [h1]
    simp only
    rw [find_name_append, habsent]
    simp
  -- the state after `m + 1` loads
  have hafter : ∀ m, handles_ok (load_times name symbols (m + 1) st)
      ∧ find_name (load_times name symbols (m + 1) st).solist name
          = some { name := name, handle := st.next_handle, base := 0, phdr := [], deps := [],
                   ref_count := 1 + m, symbols := symbols }
      ∧ find_handle (load_times name symbols (m + 1) st).solist st.next_handle
          = some { name := name, handle := st.next_handle, base := 0, phdr := [], deps := [],
                   ref_count := 1 + m, symbols := symbols } := by
    intro m
    have := load_times_present name symbols m _ _ hok1 hname1
    simpa only [load_times] using this
  obtain ⟨m, rfl⟩ : ∃ m, n = m + 1 := ⟨n - 1, by omega⟩
  refine ⟨?_, ?_, ?_, ?_⟩
  · intro i hi
    cases i with
    | zero => simp only [load_times, h1]
    | succ j =>
      rw [load_library_present _ name symbols _ (hafter j).2.1]
  · exact ⟨_, (hafter m).2.2, rfl, by simp only; omega⟩
  · intro hm
    have hm0 : m = 0 := by omega
    subst hm0
    have hlast := unload_library_last (load_times name symbols 1 st) st.next_handle _
      (hafter 0).2.2 rfl rfl
    rw [hlast]
    exact ⟨rfl, find_handle_erase_same _ (hafter 0).1.1⟩
  · intro hm
    have hfix := unload_library_not_one (load_times name symbols (m + 1) st) st.next_handle _
      (hafter m).2.2 (by simp only; omega)
    refine ⟨hfix, unload_times_fixed _ _ hfix k, ?_⟩
    rw [unload_times_fixed _ _ hfix k]
    exact ⟨_, (hafter m).2.2, by simp only; omega⟩

/-- Witness of C3: two loads of `libfoo.so` after `init`, then three unloads. -/
theorem load_unload_sequence_witness :
    (∀ i, i < 2 →
        (linker.load_library (load_times "libfoo.so" [] i st_init) "libfoo.so" []).1
          = st_init.next_handle)
      ∧ (∃ r, soinfo_from_handle (load_times "libfoo.so" [] 2 st_init) st_init.next_handle
            = some r
          ∧ r.name = "libfoo.so" ∧ r.ref_count = 2)
      ∧ (2 = 1 →
          (linker.unload_library (load_times "libfoo.so" [] 2 st_init) st_init.next_handle).1
            = 0
          ∧ soinfo_from_handle
              (linker.unload_library (load_times "libfoo.so" [] 2 st_init)
                st_init.next_handle).2
              st_init.next_handle = none)
      ∧ (2 ≤ 2 →
          linker.unload_library (load_times "libfoo.so" [] 2 st_init) st_init.next_handle
              = (1, load_times "libfoo.so" [] 2 st_init)
          ∧ unload_times st_init.next_handle 3 (load_times "libfoo.so" [] 2 st_init)
              = load_times "libfoo.so" [] 2 st_init
          ∧ ∃ r, soinfo_from_handle
                (unload_times st_init.next_handle 3 (load_times "libfoo.so" [] 2 st_init))
                st_init.next_handle = some r ∧ r.ref_count = 2) :=
  load_unload_sequence st_init "libfoo.so" [] 2 3
    ⟨by decide, by decide⟩ (by decide) (by decide)

/-- C3 fails as stated for `n = 2`: after two loads of `libfoo.so` the handle is 2 and
the count is 2; the first unload returns 1, and so does the second, after which the
handle still resolves to the record (count 2) instead of being freed. -/
theorem second_unload_does_not_free :
    (linker.load_library st_init "libfoo.so" []).1 = 2
      ∧ (linker.load_library (load_times "libfoo.so" [] 1 st_init) "libfoo.so" []).1 = 2
      ∧ (soinfo_from_handle (load_times "libfoo.so" [] 2 st_init) 2).map soinfo.ref_count
          = some 2
      ∧ (linker.unload_library (load_times "libfoo.so" [] 2 st_init) 2).1 = 1
      ∧ (linker.unload_library
            (unload_times 2 1 (load_times "libfoo.so" [] 2 st_init)) 2).1 = 1
      ∧ (soinfo_from_handle
            (unload_times 2 2 (load_times "libfoo.so" [] 2 st_init)) 2).map soinfo.ref_count
          = some 2
      ∧ soinfo_from_handle (unload_times 2 2 (load_times "libfoo.so" [] 2 st_init)) 2
          ≠ none := by
  decide

/-- C7: a load of a name that is already registered returns the handle of the
registered record, raises that record's reference count by exactly one and leaves
every other field and every other record as it was; no record is added (the lists
of names and of handles are unchanged). In particular a load that follows an earlier
load of the same name returns the handle the earlier load returned. -/
theorem load_library_existing_name (st : LinkerState) (name : String)
    (symbols symbols' : SymbolMap) (hok : handles_ok st) :
    (∀ r, find_name st.solist name = some r →
        (linker.load_library st name symbols).1 = r.handle
        ∧ soinfo_from_handle (linker.load_library st name symbols).2 r.handle
            = some { r with ref_count := r.ref_count + 1 }
        ∧ (linker.load_library st name symbols).2.solist.map soinfo.name
            = st.solist.map soinfo.name
        ∧ (linker.load_library st name symbols).2.solist.map soinfo.handle
            = st.solist.map soinfo.handle
        ∧ ∀ h, h ≠ r.handle →
            soinfo_from_handle (linker.load_library st name symbols).2 h
              = soinfo_from_handle st h)
      ∧ (linker.load_library (linker.load_library st name symbols').2 name symbols).1
          = (linker.load_library st name symbols').1 := by
  have hA : ∀ (st : LinkerState), handles_ok st → ∀ r, find_name st.solist name = some r →
      (linker.load_library st name symbols).1 = r.handle
        ∧ soinfo_from_handle (linker.load_library st name symbols).2 r.handle
            = some { r with ref_count := r.ref_count + 1 }
        ∧ (linker.load_library st name symbols).2.solist.map soinfo.name
            = st.solist.map soinfo.name
        ∧ (linker.load_library st name symbols).2.solist.map soinfo.handle
            = st.solist.map soinfo.handle
        ∧ ∀ h, h ≠ r.handle →
            soinfo_from_handle (linker.load_library st name symbols).2 h
              = soinfo_from_handle st h := by
    intro st hok r hr
    refine ⟨?_, (load_library_present_lookup st name symbols r hok.1 hr).2, ?_, ?_, ?_⟩
    · rw [load_library_present st name symbols r hr]
    · rw [load_library_present st name symbols r hr]
      exact modify_handle_map_name soinfo.inc_ref (fun _ => rfl) _ _
    · rw [load_library_present st name symbols r hr]
      exact modify_handle_map_handle soinfo.inc_ref (fun _ => rfl) _ _
    · intro h hne
      rw [load_library_present st name symbols r hr]
      exact find_handle_modify_other soinfo.inc_ref (fun _ => rfl) _ hne
  refine ⟨hA st hok, ?_⟩
  cases hr : find_name st.solist name with
  | some r =>
    have h1 := load_library_present_lookup st name symbols' r hok.1 hr
    rw [(hA _ (load_library_handles_ok st name symbols' hok) _ h1.1).1,
      load_library_present st name symbols' r hr]
    rfl
  | none =>
    have h1 : find_name (linker.load_library st name symbols').2.solist name
        = some { name := name, handle := st.next_handle, base := 0, phdr := [], deps := [],
                 ref_count := 1, symbols := symbols' } := by
      rw [load_library_absent st name symbols' hok hr]
      simp only
      rw [find_name_append, hr]
      simp
    rw [(hA _ (load_library_handles_ok st name symbols' hok) _ h1).1,
      load_library_absent st name symbols' hok hr]

/-- Witness of C7 at `st0`, where `libfoo.so` is registered with handle 7. -/
theorem load_library_existing_name_witness :
    (∀ r, find_name st0.solist "libfoo.so" = some r →
        (linker.load_library st0 "libfoo.so" [("bar", 2)]).1 = r.handle
        ∧ soinfo_from_handle (linker.load_library st0 "libfoo.so" [("bar", 2)]).2 r.handle
            = some { r with ref_count := r.ref_count + 1 }
        ∧ (linker.load_library st0 "libfoo.so" [("bar", 2)]).2.solist.map soinfo.name
            = st0.solist.map soinfo.name
        ∧ (linker.load_library st0 "libfoo.so" [("bar", 2)]).2.solist.map soinfo.handle
            = st0.solist.map soinfo.handle
        ∧ ∀ h, h ≠ r.handle →
            soinfo_from_handle (linker.load_library st0 "libfoo.so" [("bar", 2)]).2 h
              = soinfo_from_handle st0 h)
      ∧ (linker.load_library (linker.load_library st0 "libfoo.so" []).2 "libfoo.so"
            [("bar", 2)]).1
          = (linker.load_library st0 "libfoo.so" []).1 :=
  load_library_existing_name st0 "libfoo.so" [("bar", 2)] [] ⟨by decide, by decide⟩

/-! ## The state after `init` -/

theorem init_state (env : Option String) (dl_symbols : SymbolMap) (st0 st : LinkerState)
    (hinit : linker.init env dl_symbols st0 = .ok st) :
    ∃ v : Int, st = (linker.load_library
      (solist_init { st0 with g_ld_debug_verbosity := v }) "libdl.so" dl_symbols).2 := by
  unfold linker.init at hinit
  cases env with
  | none =>
    simp only [Except.ok.injEq] at hinit
    exact ⟨st0.g_ld_debug_verbosity, hinit.symm⟩
  | some verbosity =>
    simp only at hinit
    cases hs : stoi verbosity with
    | error e => rw [hs] at hinit; cases hinit
    | ok v =>
      rw [hs] at hinit
      simp only [Except.ok.injEq] at hinit
      exact ⟨v, hinit.symm⟩

theorem load_libdl_fresh (dl_symbols : SymbolMap) (st0 : LinkerState) :
    linker.load_library (solist_init st0) "libdl.so" dl_symbols
      = (1, { g_ld_debug_verbosity := st0.g_ld_debug_verbosity,
              solist := [{ name := "libdl.so", handle := 1, base := 0, phdr := [],
                           deps := [], ref_count := 1, symbols := dl_symbols }],
              next_handle := 2 }) := by
  have hok : handles_ok (solist_init st0) := by
    refine ⟨?_, ?_⟩
    · simp [solist_init]
    · intro r hr
      simp [solist_init] at hr
  rw [load_library_absent (solist_init st0) "libdl.so" dl_symbols hok rfl]
  rfl

/-! ## `relocate` -/

theorem lookup_append (k : String) (a b : SymbolMap) :
    SymbolMap.find (a ++ b) k
      = match SymbolMap.find a k with
        | some v => some v
        | none => SymbolMap.find b k := by
  unfold SymbolMap.find
  induction a with
  | nil => rfl
  | cons p t ih =>
    obtain ⟨key, val⟩ := p
    simp only [List.cons_append, List.lookup]
    cases hk : (k == key) with
    | true => simp
    | false => simpa using ih

theorem modify_handle_filter_other (f : soinfo → soinfo) (hf : ∀ r, (f r).handle = r.handle)
    (l : List soinfo) (h : Nat) :
    (modify_handle f l h).filter (fun r => decide (r.handle ≠ h))
      = l.filter (fun r => decide (r.handle ≠ h)) := by
  induction l with
  | nil => rfl
  | cons a t ih =>
    unfold modify_handle
    by_cases ha : a.handle = h
    · simp only [ha, if_true]
      rw [List.filter_cons_of_neg (by simp [hf, ha]), List.filter_cons_of_neg (by simp [ha])]
    · simp only [ha, if_false]
      rw [List.filter_cons_of_pos (by simp [ha]), List.filter_cons_of_pos (by simp [ha]), ih]

/-- C9 (as the code behaves): `relocate(handle, symbols)` on a live record returns
no value (its return type is `void`, here `Unit`) and leaves the record with an
override table that maps every name bound in `symbols` to the address `symbols`
gives and every other name to what it was mapped to before; the record is otherwise
unchanged, and so are the records of all other handles. -/
theorem relocate_extends_override_table (st : LinkerState) (handle : Nat) (s : soinfo)
    (symbols : SymbolMap) (hlive : soinfo_from_handle st handle = some s) :
    ∃ st', linker.relocate st handle symbols = .ok ((), st')
      ∧ (∃ s', soinfo_from_handle st' handle = some s'
          ∧ s' = { s with symbols := s'.symbols }
          ∧ (∀ name addr, symbols.find name = some addr → s'.symbols.find name = some addr)
          ∧ (∀ name, symbols.find name = none → s'.symbols.find name = s.symbols.find name))
      ∧ (∀ h, h ≠ handle → soinfo_from_handle st' h = soinfo_from_handle st h)
      ∧ st'.solist.filter (fun r => decide (r.handle ≠ handle))
          = st.solist.filter (fun r => decide (r.handle ≠ handle))
      ∧ st'.solist.map soinfo.handle = st.solist.map soinfo.handle := by
  have hh : s.handle = handle := (find_handle_some hlive).2
  have hrel : linker.relocate st handle symbols
      = .ok ((), LinkerState.mk st.g_ld_debug_verbosity
          (modify_handle (fun r => r.add_symbols symbols) st.solist handle) st.next_handle) := by
    unfold linker.relocate
    rw [hlive]
    simp only [hh]
  refine ⟨_, hrel, ?_, ?_, ?_, ?_⟩
  · refine ⟨s.add_symbols symbols,
      find_handle_modify_same (fun r => r.add_symbols symbols) (fun _ => rfl) hlive,
      rfl, ?_, ?_⟩
    · intro name addr hfind
      simp only [soinfo.add_symbols]
      rw [lookup_append, hfind]
    · intro name hfind
      simp only [soinfo.add_symbols]
      rw [lookup_append, hfind]
  · intro h hne
    exact find_handle_modify_other (fun r => r.add_symbols symbols) (fun _ => rfl) _ hne
  · exact modify_handle_filter_other (fun r => r.add_symbols symbols) (fun _ => rfl) _ _
  · exact modify_handle_map_handle (fun r => r.add_symbols symbols) (fun _ => rfl) _ _

/-- Witness of C9 at `st0`: `foo` is rebound and `bar` is added to the table of
handle 7. -/
theorem relocate_extends_override_table_witness :
    ∃ st', linker.relocate st0 7 [("foo", 9), ("bar", 2)] = .ok ((), st')
      ∧ (∃ s', soinfo_from_handle st' 7 = some s'
          ∧ s' = { rec0 with symbols := s'.symbols }
          ∧ (∀ name addr, SymbolMap.find [("foo", 9), ("bar", 2)] name = some addr →
              s'.symbols.find name = some addr)
          ∧ (∀ name, SymbolMap.find [("foo", 9), ("bar", 2)] name = none →
              s'.symbols.find name = rec0.symbols.find name))
      ∧ (∀ h, h ≠ 7 → soinfo_from_handle st' h = soinfo_from_handle st0 h)
      ∧ st'.solist.filter (fun r => decide (r.handle ≠ 7))
          = st0.solist.filter (fun r => decide (r.handle ≠ 7))
      ∧ st'.solist.map soinfo.handle = st0.solist.map soinfo.handle :=
  relocate_extends_override_table st0 7 rec0 [("foo", 9), ("bar", 2)] (by decide)

/-- C9 fails as stated: the call on the live handle 7 hands back the unit value and
nothing else, whether it changes the override table or, with no symbols, changes
nothing; no status reaches the caller. -/
theorem relocate_reports_no_status :
    soinfo_from_handle st0 7 = some rec0
      ∧ (linker.relocate st0 7 [("bar", 2)]).map Prod.fst = .ok ()
      ∧ (linker.relocate st0 7 []).map Prod.fst = .ok ()
      ∧ (linker.relocate st0 7 [("bar", 2)]).map Prod.snd ≠ .ok st0
      ∧ (linker.relocate st0 7 []).map Prod.snd = .ok st0
      ∧ (linker.relocate st0 7 [("bar", 2)]).map Prod.fst
          = (linker.relocate st0 7 []).map Prod.fst := by
  decide

/-! ## `init` -/

/-- C10: when `init()` returns, the registry is the result of one `load_library`
call for `"libdl.so"` with the table `get_dl_symbols()` on an empty registry; it
holds a record named `"libdl.so"` that has no backing image, whose override table is
exactly that table and whose reference count is at least 1 (it is 1). -/
theorem init_registers_libdl (env : Option String) (dl_symbols : SymbolMap)
    (st0 st : LinkerState) (hinit : linker.init env dl_symbols st0 = .ok st) :
    (∃ empty : LinkerState, empty.solist = []
        ∧ st = (linker.load_library empty "libdl.so" dl_symbols).2)
      ∧ ∃ r, r ∈ st.solist ∧ find_name st.solist "libdl.so" = some r
          ∧ soinfo_from_handle st r.handle = some r
          ∧ r.name = "libdl.so" ∧ r.symbols = dl_symbols ∧ r.phdr = []
          ∧ 1 ≤ r.ref_count ∧ r.ref_count = 1 := by
  obtain ⟨v, rfl⟩ := init_state env dl_symbols st0 st hinit
  refine ⟨⟨solist_init { st0 with g_ld_debug_verbosity := v }, rfl, rfl⟩, ?_⟩
  rw [load_libdl_fresh]
  refine ⟨{ name := "libdl.so", handle := 1, base := 0, phdr := [], deps := [],
            ref_count := 1, symbols := dl_symbols }, ?_, ?_, ?_, rfl, rfl, rfl, le_refl _, rfl⟩
  · simp
  · simp [find_name]
  · simp [soinfo_from_handle, find_handle]

/-- Witness of C10: `init` with the verbosity variable set to `"2"`. -/
theorem init_registers_libdl_witness :
    (∃ empty : LinkerState, empty.solist = []
        ∧ st_init2 = (linker.load_library empty "libdl.so" [("dlopen", 4660)]).2)
      ∧ ∃ r, r ∈ st_init2.solist ∧ find_name st_init2.solist "libdl.so" = some r
          ∧ soinfo_from_handle st_init2 r.handle = some r
          ∧ r.name = "libdl.so" ∧ r.symbols = [("dlopen", 4660)] ∧ r.phdr = []
          ∧ 1 ≤ r.ref_count ∧ r.ref_count = 1 :=
  init_registers_libdl (some "2") [("dlopen", 4660)] st_boot st_init2 (by decide)

set_option maxRecDepth 100000

/-! ## Lemmas on the archive reader -/

theorem digitChar_facts (d : Nat) (hd : d < 10) :
    (Nat.digitChar d).isDigit = true ∧ (Nat.digitChar d).toNat - 48 = d
      ∧ isspace (Nat.digitChar d) = false ∧ Nat.digitChar d ≠ '-' ∧ Nat.digitChar d ≠ '+' := by
  have h : d = 0 ∨ d = 1 ∨ d = 2 ∨ d = 3 ∨ d = 4 ∨ d = 5 ∨ d = 6 ∨ d = 7 ∨ d = 8 ∨ d = 9 := by
    omega
  rcases h with h | h | h | h | h | h | h | h | h | h <;> subst h <;> decide

theorem digits_value_foldl (ds : List Char) (acc : Nat) :
    ds.foldl (fun a c => 10 * a + (c.toNat - 48)) acc
      = acc * 10 ^ ds.length + digits_value ds := by
  unfold digits_value
  induction ds generalizing acc with
  | nil => simp
  | cons c t ih =>
    simp only [List.foldl_cons, List.length_cons]
    rw [ih (10 * acc + (c.toNat - 48)), ih (10 * 0 + (c.toNat - 48))]
    ring

theorem digits_value_cons (c : Char) (ds : List Char) :
    digits_value (c :: ds) = (c.toNat - 48) * 10 ^ ds.length + digits_value ds := by
  have := digits_value_foldl ds (10 * 0 + (c.toNat - 48))
  simp only [digits_value, List.foldl_cons] at this ⊢
  rw [this]
  ring

theorem toDigitsCore_facts (fuel : Nat) :
    ∀ (n : Nat) (ds : List Char), n < fuel → (∀ c ∈ ds, c.isDigit = true) →
      (∀ c ∈ Nat.toDigitsCore 10 fuel n ds, c.isDigit = true)
      ∧ digits_value (Nat.toDigitsCore 10 fuel n ds) = n * 10 ^ ds.length + digits_value ds
      ∧ ∃ c t, Nat.toDigitsCore 10 fuel n ds = c :: t := by
  induction fuel with
  | zero => intro n ds hn; omega
  | succ f ih =>
    intro n ds hn hds
    have hd := digitChar_facts (n % 10) (Nat.mod_lt _ (by decide))
    have hds' : ∀ c ∈ Nat.digitChar (n % 10) :: ds, c.isDigit = true := by
      intro c hc
      rcases List.mem_cons.1 hc with rfl | hc
      · exact hd.1
      · exact hds c hc
    unfold Nat.toDigitsCore
    by_cases h0 : n / 10 = 0
    · simp only [h0, if_true]
      refine ⟨hds', ?_, _, _, rfl⟩
      rw [digits_value_cons, hd.2.1]
      have : n % 10 = n := Nat.mod_eq_of_lt (by omega)
      rw [this]
    · simp only [h0, if_false]
      obtain ⟨h1, h2, h3⟩ := ih (n / 10) (Nat.digitChar (n % 10) :: ds) (by omega) hds'
      refine ⟨h1, ?_, h3⟩
      rw [h2, digits_value_cons, hd.2.1, List.length_cons, pow_succ]
      have hdm := Nat.div_add_mod n 10
      have e : n * 10 ^ ds.length = (10 * (n / 10) + n % 10) * 10 ^ ds.length := by
        rw [hdm]
      rw [e]
      ring

theorem takeWhile_all {α : Type} (p : α → Bool) (l : List α) (h : ∀ x ∈ l, p x = true) :
    l.takeWhile p = l := by
  induction l with
  | nil => rfl
  | cons a t ih =>
    simp only [List.takeWhile_cons, h a (List.mem_cons_self _ _), if_true]
    rw [ih (fun x hx => h x (List.mem_cons_of_mem _ hx))]

theorem isDigit_facts (c : Char) (hc : c.isDigit = true) :
    isspace c = false ∧ c ≠ '-' ∧ c ≠ '+' := by
  refine ⟨?_, ?_, ?_⟩
  · unfold Char.isDigit at hc
    unfold isspace
    simp only [Bool.and_eq_true, decide_eq_true_eq, ge_iff_le] at hc
    have h1 : (48 : Nat) ≤ c.toNat := hc.1
    simp
    omega
  · intro h; subst h; revert hc; decide
  · intro h; subst h; revert hc; decide

theorem stoi_digits (ds : List Char) (hne : ds ≠ []) (hds : ∀ c ∈ ds, c.isDigit = true)
    (hr : digits_value ds ≤ 2147483647) :
    stoi (String.mk ds) = .ok (digits_value ds : Int) := by
  obtain ⟨c, t, rfl⟩ := List.exists_cons_of_ne_nil hne
  obtain ⟨hsp, hm, hp⟩ := isDigit_facts c (hds c (List.mem_cons_self _ _))
  have hdrop : (c :: t).dropWhile isspace = c :: t := by
    simp [List.dropWhile_cons, hsp]
  have htake := takeWhile_all Char.isDigit (c :: t) hds
  unfold stoi
  simp only [String.toList, hdrop, List.head?_cons, Option.some.injEq, hm, hp, or_self,
    if_false, htake]
  simp
  omega

theorem stoi_minus_digits (ds : List Char) (hne : ds ≠ []) (hds : ∀ c ∈ ds, c.isDigit = true)
    (hr : digits_value ds ≤ 2147483648) :
    stoi (String.mk ('-' :: ds)) = .ok (-(digits_value ds : Int)) := by
  have hsp : isspace '-' = false := by decide
  have hdrop : ('-' :: ds).dropWhile isspace = '-' :: ds := by
    simp [List.dropWhile_cons, hsp]
  have htake := takeWhile_all Char.isDigit ds hds
  unfold stoi
  simp only [String.toList, hdrop, List.head?_cons, true_or, if_true, List.tail_cons, htake]
  simp [hne]
  omega

theorem stoi_toString (v : Int) (hlo : -2147483648 ≤ v) (hhi : v ≤ 2147483647) :
    stoi (toString v) = .ok v := by
  cases v with
  | ofNat n =>
    obtain ⟨h1, h2, c, t, h3⟩ := toDigitsCore_facts (n + 1) n [] (Nat.lt_succ_self n)
      (fun c hc => by cases hc)
    simp only [List.length_nil, pow_zero, mul_one, digits_value, List.foldl_nil, add_zero] at h2
    have hs : toString (Int.ofNat n) = String.mk (Nat.toDigitsCore 10 (n + 1) n []) := rfl
    rw [hs]
    have := stoi_digits (Nat.toDigitsCore 10 (n + 1) n []) (by rw [h3]; simp) h1
      (by unfold digits_value; rw [h2]; simp at hhi; omega)
    rw [this]
    unfold digits_value
    rw [h2]
    rfl
  | negSucc m =>
    obtain ⟨h1, h2, c, t, h3⟩ := toDigitsCore_facts (m + 1 + 1) (m + 1) []
      (Nat.lt_succ_self _) (fun c hc => by cases hc)
    simp only [List.length_nil, pow_zero, mul_one, digits_value, List.foldl_nil, add_zero] at h2
    have hs : toString (Int.negSucc m)
        = String.mk ('-' :: Nat.toDigitsCore 10 (m + 1 + 1) (m + 1) []) := rfl
    rw [hs]
    have := stoi_minus_digits (Nat.toDigitsCore 10 (m + 1 + 1) (m + 1) []) (by rw [h3]; simp) h1
      (by unfold digits_value; rw [h2]; rw [Int.negSucc_eq] at hlo; omega)
    rw [this]
    unfold digits_value
    rw [h2]
    rfl

theorem size_mask_pow (k : Nat) (hk : k < 32) : size_mask (2 ^ k) = 2 ^ k - 1 := by
  unfold size_mask
  have h1 : 2 ^ k < 2 ^ 32 := Nat.pow_lt_pow_right (by decide) hk
  have h2 : 0 < 2 ^ k := Nat.two_pow_pos k
  have e : 2 ^ k + 4294967295 = (2 ^ k - 1) + 4294967296 := by omega
  rw [e, Nat.add_mod_right, Nat.mod_eq_of_lt]
  norm_num at h1
  omega

theorem hash_home_lt (ComputeHash : List Nat → Nat) (k : Nat) (hk : k < 32) (name : List Nat) :
    hash_home ComputeHash (2 ^ k) name < 2 ^ k := by
  unfold hash_home
  rw [size_mask_pow k hk, Nat.and_pow_two_sub_one_eq_mod]
  exact Nat.mod_lt _ (Nat.two_pow_pos k)

theorem probe_next (k : Nat) (hk : k < 32) (ent : Nat) (hent : ent < 2 ^ k) :
    ((ent + 1) % 4294967296) &&& size_mask (2 ^ k) = (ent + 1) % 2 ^ k := by
  have h1 : 2 ^ k < 2 ^ 32 := Nat.pow_lt_pow_right (by decide) hk
  norm_num at h1
  have e : (ent + 1) % 4294967296 = ent + 1 := Nat.mod_eq_of_lt (by omega)
  rw [size_mask_pow k hk, Nat.and_pow_two_sub_one_eq_mod, e]

theorem EntryToIndex_loop_skip (t : HashTable) (k : Nat) (hk : k < 32) (name : List Nat)
    (start : Mem) (d : Nat) :
    ∀ (fuel ent : Nat), ent < 2 ^ k → d < fuel →
      (∀ d', d' < d → (t ((ent + d') % 2 ^ k)).name_offset ≠ 0
        ∧ (t ((ent + d') % 2 ^ k)).ToStringView start ≠ name) →
      EntryToIndex_loop t (2 ^ k) name start fuel ent
        = EntryToIndex_loop t (2 ^ k) name start (fuel - d) ((ent + d) % 2 ^ k) := by
  induction d with
  | zero =>
    intro fuel ent hent _ _
    rw [Nat.add_zero, Nat.mod_eq_of_lt hent, Nat.sub_zero]
  | succ d ih =>
    intro fuel ent hent hfuel hskip
    obtain ⟨f, rfl⟩ : ∃ f, fuel = f + 1 := ⟨fuel - 1, by omega⟩
    have h0 := hskip 0 (Nat.succ_pos d)
    rw [Nat.add_zero, Nat.mod_eq_of_lt hent] at h0
    rw [EntryToIndex_loop, if_pos h0.1, if_neg h0.2, probe_next k hk ent hent]
    have hlt : (ent + 1) % 2 ^ k < 2 ^ k := Nat.mod_lt _ (Nat.two_pow_pos k)
    rw [ih f ((ent + 1) % 2 ^ k) hlt (by omega)]
    · have e1 : ((ent + 1) % 2 ^ k + d) % 2 ^ k = (ent + (d + 1)) % 2 ^ k := by
        rw [Nat.mod_add_mod]; congr 1; omega
      have e2 : f + 1 - (d + 1) = f - d := by omega
      rw [e1, e2]
    · intro d' hd'
      have e1 : ((ent + 1) % 2 ^ k + d') % 2 ^ k = (ent + (d' + 1)) % 2 ^ k := by
        rw [Nat.mod_add_mod]; congr 1; omega
      rw [e1]
      exact hskip (d' + 1) (by omega)

theorem AddToHash_loop_skip (t : HashTable) (k : Nat) (hk : k < 32) (name_off name_len : Nat)
    (start : Mem) (d : Nat) :
    ∀ (fuel ent : Nat), ent < 2 ^ k → d < fuel →
      (∀ d', d' < d → (t ((ent + d') % 2 ^ k)).name_offset ≠ 0
        ∧ (t ((ent + d') % 2 ^ k)).ToStringView start ≠ view start name_off name_len) →
      AddToHash_loop t (2 ^ k) name_off name_len start fuel ent
        = AddToHash_loop t (2 ^ k) name_off name_len start (fuel - d) ((ent + d) % 2 ^ k) := by
  induction d with
  | zero =>
    intro fuel ent hent _ _
    rw [Nat.add_zero, Nat.mod_eq_of_lt hent, Nat.sub_zero]
  | succ d ih =>
    intro fuel ent hent hfuel hskip
    obtain ⟨f, rfl⟩ : ∃ f, fuel = f + 1 := ⟨fuel - 1, by omega⟩
    have h0 := hskip 0 (Nat.succ_pos d)
    rw [Nat.add_zero, Nat.mod_eq_of_lt hent] at h0
    rw [AddToHash_loop, if_pos h0.1, if_neg h0.2, probe_next k hk ent hent]
    have hlt : (ent + 1) % 2 ^ k < 2 ^ k := Nat.mod_lt _ (Nat.two_pow_pos k)
    rw [ih f ((ent + 1) % 2 ^ k) hlt (by omega)]
    · have e1 : ((ent + 1) % 2 ^ k + d) % 2 ^ k = (ent + (d + 1)) % 2 ^ k := by
        rw [Nat.mod_add_mod]; congr 1; omega
      have e2 : f + 1 - (d + 1) = f - d := by omega
      rw [e1, e2]
    · intro d' hd'
      have e1 : ((ent + 1) % 2 ^ k + d') % 2 ^ k = (ent + (d' + 1)) % 2 ^ k := by
        rw [Nat.mod_add_mod]; congr 1; omega
      rw [e1]
      exact hskip (d' + 1) (by omega)

theorem countP_range_all (p : Nat → Bool) (n : Nat) (h : ∀ j, j < n → p j = true) :
    (List.range n).countP p = n := by
  have := (List.countP_eq_length (l := List.range n) (p := p)).2
    (fun a ha => h a (List.mem_range.1 ha))
  rw [this, List.length_range]

theorem countP_range_update (p q : Nat → Bool) (e : Nat) (hq : ∀ j, j ≠ e → q j = p j)
    (n : Nat) :
    (List.range n).countP q ≤ (List.range n).countP p + (if e < n then 1 else 0) := by
  induction n with
  | zero => simp
  | succ n ih =>
    rw [List.range_succ, List.countP_append, List.countP_append]
    by_cases hne : n = e
    · subst hne
      have hsame : (List.range n).countP q = (List.range n).countP p := by
        apply List.countP_congr
        intro x hx
        rw [hq x (Nat.ne_of_lt (List.mem_range.1 hx))]
      rw [hsame]
      simp only [Nat.lt_succ_self, if_true, List.countP_singleton]
      split <;> split <;> omega
    · have hn : q n = p n := hq n hne
      simp only [List.countP_singleton, hn]
      have : (if e < n + 1 then 1 else 0) = (if e < n then (1 : Nat) else 0) := by
        by_cases h1 : e < n
        · simp [h1, Nat.lt_succ_of_lt h1]
        · have : ¬ e < n + 1 := by omega
          simp [h1, this]
      rw [this]
      omega

theorem exists_empty_slot (t : HashTable) (size : Nat) (m : Nat)
    (hcount : (List.range size).countP (fun j => decide ((t j).name_offset ≠ 0)) ≤ m)
    (hm : m < size) : ∃ j, j < size ∧ (t j).name_offset = 0 := by
  by_contra hcon
  have hall : ∀ j, j < size → (fun j => decide ((t j).name_offset ≠ 0)) j = true := by
    intro j hj
    simp only [decide_eq_true_eq]
    intro h0
    exact hcon ⟨j, hj, h0⟩
  have := countP_range_all _ size hall
  omega

theorem probe_reaches (size h e : Nat) (hh : h < size) (he : e < size) :
    ∃ d, d < size ∧ (h + d) % size = e := by
  refine ⟨(e + size - h) % size, Nat.mod_lt _ (by omega), ?_⟩
  rw [Nat.add_mod_mod]
  have : h + (e + size - h) = e + size := by omega
  rw [this, Nat.add_mod_right, Nat.mod_eq_of_lt he]

/-- The first probe distance at which the slot is empty, with every slot before in use. -/
theorem first_empty (t : HashTable) (size h : Nat) (hh : h < size)
    (hex : ∃ j, j < size ∧ (t j).name_offset = 0) :
    ∃ d, d < size ∧ (t ((h + d) % size)).name_offset = 0
      ∧ ∀ d', d' < d → (t ((h + d') % size)).name_offset ≠ 0 := by
  classical
  obtain ⟨j, hj, hj0⟩ := hex
  obtain ⟨d, hd, hde⟩ := probe_reaches size h j hh hj
  have hP : ∃ d, (t ((h + d) % size)).name_offset = 0 := ⟨d, by rw [hde]; exact hj0⟩
  refine ⟨Nat.find hP, ?_, Nat.find_spec hP, fun d' hd' => Nat.find_min hP hd'⟩
  exact lt_of_le_of_lt (Nat.find_min' hP (by rw [hde]; exact hj0)) hd

theorem inv_slot_view {ComputeHash : List Nat → Nat} {start : Mem} {size : Nat} {t : HashTable}
    {S : List (Nat × Nat)} (hinv : hash_table_inv ComputeHash start size t S)
    {j : Nat} (hj : j < size) (hne : (t j).name_offset ≠ 0) :
    (t j).ToStringView start ∈ S.map (name_at start) := by
  obtain ⟨n, hn, hslot⟩ := hinv.2.1 j hj hne
  rw [hslot]
  exact List.mem_map.2 ⟨n, hn, rfl⟩

theorem EntryToIndex_found (ComputeHash : List Nat → Nat) (start : Mem) (k : Nat) (hk : k < 32)
    (t : HashTable) (S : List (Nat × Nat))
    (hinv : hash_table_inv ComputeHash start (2 ^ k) t S) (n : Nat × Nat) (hn : n ∈ S) :
    ∃ ent : Nat, ent < 2 ^ k
      ∧ EntryToIndex ComputeHash t (2 ^ k) (name_at start n) start = some (ent : Int)
      ∧ t ent = { name_offset := n.1, name_length := n.2 } := by
  obtain ⟨d, hd, hslot, hbefore⟩ := hinv.2.2.1 n hn
  have hhome := hash_home_lt ComputeHash k hk (name_at start n)
  refine ⟨(hash_home ComputeHash (2 ^ k) (name_at start n) + d) % 2 ^ k,
    Nat.mod_lt _ (Nat.two_pow_pos k), ?_, hslot⟩
  unfold EntryToIndex
  have hskip := EntryToIndex_loop_skip t k hk (name_at start n) start d (2 ^ k)
    (hash_home ComputeHash (2 ^ k) (name_at start n)) hhome hd hbefore
  unfold hash_home at hskip ⊢
  rw [hskip]
  obtain ⟨f, hf⟩ : ∃ f, 2 ^ k - d = f + 1 := ⟨2 ^ k - d - 1, by omega⟩
  unfold hash_home at hslot
  rw [hf, EntryToIndex_loop, hslot]
  simp only [ZipStringOffset.ToStringView]
  rw [if_pos (hinv.1 n hn), if_pos (show view start n.1 n.2 = name_at start n from rfl)]

theorem AddToHash_duplicate (ComputeHash : List Nat → Nat) (start : Mem) (k : Nat) (hk : k < 32)
    (t : HashTable) (S : List (Nat × Nat))
    (hinv : hash_table_inv ComputeHash start (2 ^ k) t S) (n : Nat × Nat) (hn : n ∈ S)
    (name_off name_len : Nat) (hsame : view start name_off name_len = name_at start n) :
    AddToHash ComputeHash t (2 ^ k) name_off name_len start = some (kDuplicateEntry, t) := by
  obtain ⟨d, hd, hslot, hbefore⟩ := hinv.2.2.1 n hn
  have hhome := hash_home_lt ComputeHash k hk (name_at start n)
  unfold AddToHash
  rw [hsame]
  have hskip := AddToHash_loop_skip t k hk name_off name_len start d (2 ^ k)
    (hash_home ComputeHash (2 ^ k) (name_at start n)) hhome hd (by rw [hsame]; exact hbefore)
  unfold hash_home at hskip hslot
  rw [hskip]
  obtain ⟨f, hf⟩ : ∃ f, 2 ^ k - d = f + 1 := ⟨2 ^ k - d - 1, by omega⟩
  rw [hf, AddToHash_loop, hslot]
  simp only [ZipStringOffset.ToStringView]
  rw [if_pos (hinv.1 n hn), if_pos (by rw [hsame]; rfl)]

/-- For a name the table does not hold: the probe distance of the first empty slot,
before which every slot is in use and holds another name. -/
theorem absent_probe (ComputeHash : List Nat → Nat) (start : Mem) (k : Nat) (hk : k < 32)
    (t : HashTable) (S : List (Nat × Nat))
    (hinv : hash_table_inv ComputeHash start (2 ^ k) t S) (hroom : S.length < 2 ^ k)
    (name : List Nat) (habs : name ∉ S.map (name_at start)) :
    ∃ d, d < 2 ^ k
      ∧ (t ((hash_home ComputeHash (2 ^ k) name + d) % 2 ^ k)).name_offset = 0
      ∧ ∀ d', d' < d →
          (t ((hash_home ComputeHash (2 ^ k) name + d') % 2 ^ k)).name_offset ≠ 0
          ∧ (t ((hash_home ComputeHash (2 ^ k) name + d') % 2 ^ k)).ToStringView start ≠ name := by
  have hhome := hash_home_lt ComputeHash k hk name
  obtain ⟨d, hd, hempty, hbefore⟩ := first_empty t (2 ^ k) _ hhome
    (exists_empty_slot t (2 ^ k) S.length hinv.2.2.2 hroom)
  refine ⟨d, hd, hempty, fun d' hd' => ⟨hbefore d' hd', ?_⟩⟩
  intro heq
  apply habs
  rw [← heq]
  exact inv_slot_view hinv (Nat.mod_lt _ (Nat.two_pow_pos k)) (hbefore d' hd')

theorem EntryToIndex_absent (ComputeHash : List Nat → Nat) (start : Mem) (k : Nat) (hk : k < 32)
    (t : HashTable) (S : List (Nat × Nat))
    (hinv : hash_table_inv ComputeHash start (2 ^ k) t S) (hroom : S.length < 2 ^ k)
    (name : List Nat) (habs : name ∉ S.map (name_at start)) :
    EntryToIndex ComputeHash t (2 ^ k) name start = some kEntryNotFound := by
  obtain ⟨d, hd, hempty, hbefore⟩ := absent_probe ComputeHash start k hk t S hinv hroom name habs
  have hhome := hash_home_lt ComputeHash k hk name
  unfold EntryToIndex
  have hskip := EntryToIndex_loop_skip t k hk name start d (2 ^ k)
    (hash_home ComputeHash (2 ^ k) name) hhome hd hbefore
  unfold hash_home at hskip hempty
  rw [hskip]
  obtain ⟨f, hf⟩ : ∃ f, 2 ^ k - d = f + 1 := ⟨2 ^ k - d - 1, by omega⟩
  rw [hf, EntryToIndex_loop, if_neg (by simp [hempty])]

theorem AddToHash_absent (ComputeHash : List Nat → Nat) (start : Mem) (k : Nat) (hk : k < 32)
    (t : HashTable) (S : List (Nat × Nat))
    (hinv : hash_table_inv ComputeHash start (2 ^ k) t S) (hroom : S.length < 2 ^ k)
    (name_off name_len : Nat)
    (habs : view start name_off name_len ∉ S.map (name_at start)) :
    ∃ t', AddToHash ComputeHash t (2 ^ k) name_off name_len start = some (0, t')
      ∧ (name_off ≠ 0 → name_off < 4294967296 → name_len < 65536 →
          hash_table_inv ComputeHash start (2 ^ k) t' (S ++ [(name_off, name_len)])) := by
  obtain ⟨d, hd, hempty, hbefore⟩ := absent_probe ComputeHash start k hk t S hinv hroom
    (view start name_off name_len) habs
  have hhome := hash_home_lt ComputeHash k hk (view start name_off name_len)
  have hskip := AddToHash_loop_skip t k hk name_off name_len start d (2 ^ k)
    (hash_home ComputeHash (2 ^ k) (view start name_off name_len)) hhome hd hbefore
  obtain ⟨f, hf⟩ : ∃ f, 2 ^ k - d = f + 1 := ⟨2 ^ k - d - 1, by omega⟩
  generalize he : (hash_home ComputeHash (2 ^ k) (view start name_off name_len) + d) % 2 ^ k = e
    at hskip hempty
  have helt : e < 2 ^ k := by rw [← he]; exact Nat.mod_lt _ (Nat.two_pow_pos k)
  refine ⟨fun j => if j = e then { name_offset := name_off % 4294967296,
                                   name_length := name_len % 65536 } else t j, ?_, ?_⟩
  · unfold AddToHash
    unfold hash_home at hskip
    rw [hskip, hf, AddToHash_loop, if_neg (by simp [hempty])]
  · intro h0 h32 h16
    rw [Nat.mod_eq_of_lt h32, Nat.mod_eq_of_lt h16]
    refine ⟨?_, ?_, ?_, ?_⟩
    · intro n hn
      rcases List.mem_append.1 hn with hn | hn
      · exact hinv.1 n hn
      · rw [List.mem_singleton.1 hn]; exact h0
    · intro j hj hne
      by_cases hje : j = e
      · exact ⟨(name_off, name_len), by simp, by simp [hje]⟩
      · simp only [hje, if_false] at hne ⊢
        obtain ⟨n, hn, hslot⟩ := hinv.2.1 j hj hne
        exact ⟨n, List.mem_append_left _ hn, hslot⟩
    · intro n hn
      rcases List.mem_append.1 hn with hn | hn
      · obtain ⟨dn, hdn, hslot, hbef⟩ := hinv.2.2.1 n hn
        have hne_e : ∀ d', d' ≤ dn →
            (hash_home ComputeHash (2 ^ k) (name_at start n) + d') % 2 ^ k ≠ e := by
          intro d' hd' heq
          rcases Nat.lt_or_eq_of_le hd' with hlt | heq'
          · exact (hbef d' hlt).1 (by rw [heq]; exact hempty)
          · rw [heq'] at heq
            rw [heq] at hslot
            rw [hslot] at hempty
            exact hinv.1 n hn hempty
        refine ⟨dn, hdn, ?_, ?_⟩
        · beta_reduce
          rw [if_neg (hne_e dn (le_refl _))]; exact hslot
        · intro d' hd'
          beta_reduce
          rw [if_neg (hne_e d' (Nat.le_of_lt hd'))]
          exact hbef d' hd'
      · rw [List.mem_singleton.1 hn]
        refine ⟨d, hd, ?_, ?_⟩
        · simp only [name_at]
          rw [he, if_pos rfl]
        · intro d' hd'
          have hne : (hash_home ComputeHash (2 ^ k) (view start name_off name_len) + d') % 2 ^ k
              ≠ e := by
            intro heq
            exact (hbefore d' hd').1 (by rw [heq]; exact hempty)
          simp only [name_at]
          rw [if_neg hne]
          exact hbefore d' hd'
    · refine le_trans (countP_range_update (fun j => decide ((t j).name_offset ≠ 0)) _ e
        (fun j hj => by simp [hj]) (2 ^ k)) ?_
      have := hinv.2.2.2
      rw [List.length_append, List.length_singleton]
      split <;> omega

theorem hash_table_inv_zero (ComputeHash : List Nat → Nat) (start : Mem) (size : Nat) :
    hash_table_inv ComputeHash start size zero_table [] := by
  unfold hash_table_inv
  refine ⟨fun n hn => (by cases hn), fun j _ hne => absurd rfl hne,
    fun n hn => (by cases hn), ?_⟩
  simp [zero_table]

theorem add_names_inv (ComputeHash : List Nat → Nat) (start : Mem) (k : Nat) (hk : k < 32)
    (names : List (Nat × Nat)) :
    ∀ (t : HashTable) (S : List (Nat × Nat)),
      hash_table_inv ComputeHash start (2 ^ k) t S → names_ok start (S ++ names) →
      S.length + names.length < 2 ^ k →
      ∃ t', add_names ComputeHash (2 ^ k) start names t
            = some (List.replicate names.length 0, t')
        ∧ hash_table_inv ComputeHash start (2 ^ k) t' (S ++ names) := by
  induction names with
  | nil =>
    intro t S hinv _ _
    exact ⟨t, rfl, by rw [List.append_nil]; exact hinv⟩
  | cons n rest ih =>
    intro t S hinv hok hroom
    simp only [List.length_cons] at hroom
    have hn : n.1 ≠ 0 ∧ n.1 < 4294967296 ∧ n.2 < 65536 :=
      hok.1 n (List.mem_append_right _ (List.mem_cons_self _ _))
    have habs : view start n.1 n.2 ∉ S.map (name_at start) := by
      have hnd := hok.2
      rw [List.map_append, List.map_cons] at hnd
      have := (List.nodup_append.1 hnd).2.2
      intro hmem
      exact this hmem (List.mem_cons_self _ _)
    obtain ⟨t1, hadd, hinv1⟩ := AddToHash_absent ComputeHash start k hk t S hinv (by omega)
      n.1 n.2 habs
    have hinv1' := hinv1 hn.1 hn.2.1 hn.2.2
    have hassoc : S ++ [(n.1, n.2)] ++ rest = S ++ n :: rest := by simp
    obtain ⟨t2, hrest, hinv2⟩ := ih t1 (S ++ [(n.1, n.2)]) hinv1' (by rw [hassoc]; exact hok)
      (by simp only [List.length_append, List.length_singleton]; omega)
    refine ⟨t2, ?_, by rw [← hassoc]; exact hinv2⟩
    simp only [add_names, hadd, hrest, List.length_cons, List.replicate_succ]
theorem smear_step (k a w : Nat) (ha : a < 2 ^ k)
    (hq : ∀ i, i < k → k ≤ i + w → a.testBit i = true) :
    (a ||| a >>> w) < 2 ^ k
      ∧ ∀ i, i < k → k ≤ i + 2 * w → (a ||| a >>> w).testBit i = true := by
  have hle : a >>> w ≤ a := by
    rw [Nat.shiftRight_eq_div_pow]
    exact Nat.div_le_self _ _
  refine ⟨Nat.or_lt_two_pow ha (lt_of_le_of_lt hle ha), ?_⟩
  intro i hi hik
  rw [Nat.testBit_or, Nat.testBit_shiftRight]
  by_cases h : k ≤ i + w
  · rw [hq i hi h]; rfl
  · rw [hq (w + i) (by omega) (by omega)]; simp

theorem top_bit (x : Nat) (hx : 0 < x) : x.testBit (x.size - 1) = true := by
  have h1 : 2 ^ (x.size - 1) ≤ x := by
    apply Nat.lt_size.1
    have : 0 < x.size := Nat.size_pos.2 hx
    omega
  obtain ⟨i, hi, hbit⟩ := Nat.ge_two_pow_implies_high_bit_true h1
  have hlt : i < x.size := by
    by_contra hcon
    have : x < 2 ^ i :=
      lt_of_lt_of_le (Nat.lt_size_self x) (Nat.pow_le_pow_right (by decide) (by omega))
    rw [Nat.testBit_lt_two_pow this] at hbit
    cases hbit
  have : i = x.size - 1 := by omega
  rw [← this]; exact hbit

theorem RoundUpPower2_spec (val : Nat) (h1 : 1 ≤ val) (h2 : val ≤ 2147483648) :
    ∃ k, k < 32 ∧ RoundUpPower2 val = 2 ^ k ∧ val ≤ 2 ^ k := by
  have hv0 : (val + 4294967295) % 4294967296 = val - 1 := by omega
  have hk : (val - 1).size ≤ 31 := Nat.size_le.2 (by norm_num; omega)
  have hlt : val - 1 < 2 ^ (val - 1).size := Nat.lt_size_self _
  have hq0 : ∀ i, i < (val - 1).size → (val - 1).size ≤ i + 1 → (val - 1).testBit i = true := by
    intro i hi hik
    have hpos : 0 < val - 1 := by
      by_contra hcon
      have : val - 1 = 0 := by omega
      rw [this] at hi
      simp at hi
    have : i = (val - 1).size - 1 := by omega
    rw [this]
    exact top_bit _ hpos
  obtain ⟨a1, q1⟩ := smear_step _ _ 1 hlt hq0
  obtain ⟨a2, q2⟩ := smear_step _ _ 2 a1 q1
  obtain ⟨a3, q3⟩ := smear_step _ _ 4 a2 q2
  obtain ⟨a4, q4⟩ := smear_step _ _ 8 a3 q3
  obtain ⟨a5, q5⟩ := smear_step _ _ 16 a4 q4
  refine ⟨(val - 1).size, by omega, ?_, by omega⟩
  unfold RoundUpPower2
  simp only [hv0]
  generalize hv5 : ((val - 1 ||| (val - 1) >>> 1 ||| (val - 1 ||| (val - 1) >>> 1) >>> 2
    ||| (val - 1 ||| (val - 1) >>> 1 ||| (val - 1 ||| (val - 1) >>> 1) >>> 2) >>> 4
    ||| (val - 1 ||| (val - 1) >>> 1 ||| (val - 1 ||| (val - 1) >>> 1) >>> 2
    ||| (val - 1 ||| (val - 1) >>> 1 ||| (val - 1 ||| (val - 1) >>> 1) >>> 2) >>> 4) >>> 8
    ||| (val - 1 ||| (val - 1) >>> 1 ||| (val - 1 ||| (val - 1) >>> 1) >>> 2
    ||| (val - 1 ||| (val - 1) >>> 1 ||| (val - 1 ||| (val - 1) >>> 1) >>> 2) >>> 4
    ||| (val - 1 ||| (val - 1) >>> 1 ||| (val - 1 ||| (val - 1) >>> 1) >>> 2
    ||| (val - 1 ||| (val - 1) >>> 1 ||| (val - 1 ||| (val - 1) >>> 1) >>> 2) >>> 4) >>> 8)
      >>> 16)) = v5 at a5 q5 ⊢
  have hv : v5 = 2 ^ (val - 1).size - 1 := by
    apply Nat.eq_of_testBit_eq
    intro i
    rw [Nat.testBit_two_pow_sub_one]
    by_cases hi : i < (val - 1).size
    · rw [q5 i hi (by omega)]; simp [hi]
    · have : v5 < 2 ^ i :=
        lt_of_lt_of_le a5 (Nat.pow_le_pow_right (by decide) (by omega))
      rw [Nat.testBit_lt_two_pow this]; simp [hi]
  have hpos : 0 < 2 ^ (val - 1).size := Nat.two_pow_pos _
  have hsmall : 2 ^ (val - 1).size < 4294967296 := by
    have : 2 ^ (val - 1).size ≤ 2 ^ 31 := Nat.pow_le_pow_right (by decide) hk
    norm_num at this ⊢
    omega
  rw [hv]
  have : 2 ^ (val - 1).size - 1 + 1 = 2 ^ (val - 1).size := by omega
  rw [this, Nat.mod_eq_of_lt hsmall]

theorem get_u8_lt (m : Mem) (off : Nat) : get_u8 m off < 256 := Nat.mod_lt _ (by decide)

theorem get_u16_lt (m : Mem) (off : Nat) : get_u16 m off < 65536 := by
  unfold get_u16
  have h1 := get_u8_lt m off
  have h2 := get_u8_lt m (off + 1)
  omega

theorem get_u32_lt (m : Mem) (off : Nat) : get_u32 m off < 4294967296 := by
  unfold get_u32
  have h1 := get_u16_lt m off
  have h2 := get_u16_lt m (off + 2)
  omega

theorem names_upto_succ (cd_ptr : Mem) (m : Nat) :
    (List.range (m + 1)).map (cd_record_name cd_ptr)
      = (List.range m).map (cd_record_name cd_ptr) ++ [cd_record_name cd_ptr m] := by
  rw [List.range_succ, List.map_append, List.map_singleton]

theorem ParseZipArchive_loop_duplicate (ComputeHash : List Nat → Nat)
    (IsValidEntryName : List Nat → Bool) (directory_offset : Int) (k : Nat) (hk : k < 32)
    (cd_ptr : Mem) (cd_length : Nat) (hcd : cd_length < 4294967296) (i j : Nat) (hij : i < j)
    (hj : j < 2 ^ k)
    (hok : ∀ m, m ≤ j →
      cd_record_ok IsValidEntryName directory_offset cd_ptr cd_length (cd_record_ptr cd_ptr m))
    (hsame : name_at cd_ptr (cd_record_name cd_ptr i) = name_at cd_ptr (cd_record_name cd_ptr j))
    (rem : Nat) :
    ∀ (m : Nat) (t : HashTable), m ≤ j → j < m + rem →
      hash_table_inv ComputeHash cd_ptr (2 ^ k) t ((List.range m).map (cd_record_name cd_ptr)) →
      (((List.range m).map (cd_record_name cd_ptr)).map (name_at cd_ptr)).Nodup →
      ∃ t', ParseZipArchive_loop ComputeHash IsValidEntryName directory_offset (2 ^ k) cd_ptr
        cd_length rem (cd_record_ptr cd_ptr m) t = some (kDuplicateEntry, t') := by
  induction rem with
  | zero => intro m t hm hrem; omega
  | succ rem ih =>
    intro m t hm hrem hinv hnd
    obtain ⟨h1, h2, h3, h4, h5⟩ := hok m hm
    unfold sizeof_CentralDirectoryRecord at h1 h4 h5
    rw [ParseZipArchive_loop]
    simp only [sizeof_CentralDirectoryRecord]
    rw [if_neg (by omega), if_neg (by simp [h2]), if_neg (by omega), if_neg (by omega),
      if_neg (by simp [h5])]
    by_cases hmem : view cd_ptr (cd_record_ptr cd_ptr m + 46)
        (CentralDirectoryRecord.read cd_ptr (cd_record_ptr cd_ptr m)).file_name_length
        ∈ ((List.range m).map (cd_record_name cd_ptr)).map (name_at cd_ptr)
    · obtain ⟨n, hn, hnv⟩ := List.mem_map.1 hmem
      rw [AddToHash_duplicate ComputeHash cd_ptr k hk t _ hinv n hn _ _ hnv.symm]
      exact ⟨t, by simp [kDuplicateEntry]⟩
    · have hmj : m < j := by
        rcases Nat.lt_or_eq_of_le hm with h | h
        · exact h
        · exfalso
          apply hmem
          subst h
          refine List.mem_map.2 ⟨cd_record_name cd_ptr i,
            List.mem_map.2 ⟨i, List.mem_range.2 hij, rfl⟩, ?_⟩
          rw [hsame]
          rfl
      obtain ⟨t1, hadd, hinv1⟩ := AddToHash_absent ComputeHash cd_ptr k hk t _ hinv
        (by simp only [List.length_map, List.length_range]; omega) _ _ hmem
      have hinv1' := hinv1 (by omega) (by omega) (get_u16_lt _ _)
      rw [hadd]
      simp only [ne_eq, not_true_eq_false, if_false]
      have hnext := (hok (m + 1) (by omega)).1
      have hptr : cd_record_ptr cd_ptr (m + 1)
          = cd_record_ptr cd_ptr m
            + (46 + (CentralDirectoryRecord.read cd_ptr (cd_record_ptr cd_ptr m)).file_name_length
              + (CentralDirectoryRecord.read cd_ptr (cd_record_ptr cd_ptr m)).extra_field_length
              + (CentralDirectoryRecord.read cd_ptr (cd_record_ptr cd_ptr m)).comment_length) := rfl
      rw [← hptr, if_neg (by omega)]
      apply ih (m + 1) t1 (by omega) (by omega)
      · rw [names_upto_succ]
        exact hinv1'
      · rw [names_upto_succ, List.map_append, List.map_singleton]
        rw [List.nodup_append]
        refine ⟨hnd, List.nodup_singleton _, ?_⟩
        intro a ha hb
        rw [List.mem_singleton] at hb
        subst hb
        exact hmem ha

theorem ParseZipArchive_duplicate (ComputeHash : List Nat → Nat)
    (IsValidEntryName : List Nat → Bool) (archive : ZipArchive) (i j : Nat)
    (hn : archive.num_entries < 65536)
    (hcd : archive.central_directory.length < 4294967296) (hij : i < j)
    (hj : j < archive.num_entries)
    (hok : ∀ m, m ≤ j →
      cd_record_ok IsValidEntryName archive.directory_offset archive.central_directory.base_ptr
        archive.central_directory.length (cd_record_ptr archive.central_directory.base_ptr m))
    (hsame : name_at archive.central_directory.base_ptr
        (cd_record_name archive.central_directory.base_ptr i)
      = name_at archive.central_directory.base_ptr
        (cd_record_name archive.central_directory.base_ptr j)) :
    ∃ archive', ParseZipArchive ComputeHash IsValidEntryName true archive
      = .ok (some (kDuplicateEntry, archive')) := by
  obtain ⟨k, hk, hsize, hle⟩ := RoundUpPower2_spec (1 + archive.num_entries * 4 / 3)
    (by omega) (by omega)
  have hmod : archive.num_entries % 65536 = archive.num_entries := Nat.mod_eq_of_lt hn
  obtain ⟨t', hloop⟩ := ParseZipArchive_loop_duplicate ComputeHash IsValidEntryName
    archive.directory_offset k hk archive.central_directory.base_ptr
    archive.central_directory.length hcd i j hij (by omega) hok hsame archive.num_entries
    0 zero_table (Nat.zero_le _) (by omega)
    (hash_table_inv_zero ComputeHash _ _) (by simp)
  unfold ParseZipArchive
  simp only [hmod, hsize, not_true_eq_false, if_false]
  have hptr0 : cd_record_ptr archive.central_directory.base_ptr 0 = 0 := rfl
  rw [hptr0] at hloop
  rw [hloop]
  refine ⟨{ archive with hash_table_size := 2 ^ k, hash_table := some t' }, ?_⟩
  simp [kDuplicateEntry]

theorem name_stored_iff (ComputeHash : List Nat → Nat) (start : Mem) (k : Nat)
    (t : HashTable) (S : List (Nat × Nat))
    (hinv : hash_table_inv ComputeHash start (2 ^ k) t S) (name : List Nat) :
    name_stored t (2 ^ k) start name ↔ name ∈ S.map (name_at start) := by
  constructor
  · rintro ⟨j, hj, hne, hv⟩
    rw [← hv]
    exact inv_slot_view hinv hj hne
  · intro hmem
    obtain ⟨n, hn, hnv⟩ := List.mem_map.1 hmem
    obtain ⟨d, _, hslot, _⟩ := hinv.2.2.1 n hn
    refine ⟨(hash_home ComputeHash (2 ^ k) (name_at start n) + d) % 2 ^ k,
      Nat.mod_lt _ (Nat.two_pow_pos k), ?_, ?_⟩
    · rw [hslot]; exact hinv.1 n hn
    · rw [hslot, ← hnv]; rfl

/-- C12: names that are pairwise distinct and stored at non-zero offsets of the
central directory, inserted with `AddToHash` into a zero-initialised table whose size
is a power of two greater than their number: every `AddToHash` returns 0, and after
that `EntryToIndex` returns for each inserted name the index of a slot in use that
holds exactly that name, and `kEntryNotFound` for every name that was not inserted. -/
theorem hash_table_round_trip (ComputeHash : List Nat → Nat) (start : Mem) (k : Nat)
    (names : List (Nat × Nat)) (hk : k < 32) (hlen : names.length < 2 ^ k)
    (hok : names_ok start names) :
    ∃ t, add_names ComputeHash (2 ^ k) start names zero_table
          = some (List.replicate names.length 0, t)
      ∧ (∀ n ∈ names, ∃ ent : Nat, ent < 2 ^ k
          ∧ EntryToIndex ComputeHash t (2 ^ k) (name_at start n) start = some (ent : Int)
          ∧ (t ent).name_offset ≠ 0
          ∧ t ent = { name_offset := n.1, name_length := n.2 }
          ∧ (t ent).ToStringView start = name_at start n)
      ∧ (∀ name, name ∉ names.map (name_at start) →
          EntryToIndex ComputeHash t (2 ^ k) name start = some kEntryNotFound) := by
  obtain ⟨t, hadd, hinv⟩ := add_names_inv ComputeHash start k hk names zero_table []
    (hash_table_inv_zero ComputeHash start _) (by simpa using hok) (by simpa using hlen)
  rw [List.nil_append] at hinv
  refine ⟨t, hadd, ?_, ?_⟩
  · intro n hn
    obtain ⟨ent, hent, hfind, hslot⟩ := EntryToIndex_found ComputeHash start k hk t names hinv n hn
    refine ⟨ent, hent, hfind, ?_, hslot, ?_⟩
    · rw [hslot]; exact hinv.1 n hn
    · rw [hslot]; rfl
  · intro name hname
    exact EntryToIndex_absent ComputeHash start k hk t names hinv hlen name hname

/-- Witness of C12: the names `a` and `bc` of the central directory `zip1_cd` in a
table of 4 slots, with a hash function under which they collide. -/
theorem hash_table_round_trip_witness :
    ∃ t, add_names hash_const (2 ^ 2) (mem_of_list zip1_cd) [(46, 1), (93, 2)] zero_table
          = some (List.replicate [(46, 1), (93, 2)].length 0, t)
      ∧ (∀ n ∈ [(46, 1), (93, 2)], ∃ ent : Nat, ent < 2 ^ 2
          ∧ EntryToIndex hash_const t (2 ^ 2) (name_at (mem_of_list zip1_cd) n)
              (mem_of_list zip1_cd) = some (ent : Int)
          ∧ (t ent).name_offset ≠ 0
          ∧ t ent = { name_offset := n.1, name_length := n.2 }
          ∧ (t ent).ToStringView (mem_of_list zip1_cd) = name_at (mem_of_list zip1_cd) n)
      ∧ (∀ name, name ∉ [(46, 1), (93, 2)].map (name_at (mem_of_list zip1_cd)) →
          EntryToIndex hash_const t (2 ^ 2) name (mem_of_list zip1_cd) = some kEntryNotFound) :=
  hash_table_round_trip hash_const (mem_of_list zip1_cd) 2 [(46, 1), (93, 2)] (by decide)
    (by decide) ⟨by decide, by decide⟩

/-- C16 (as the code behaves): in a table built by `AddToHash` from distinct names,
with a slot to spare, `AddToHash` returns `kDuplicateEntry` and leaves the table as it
is when a name equal to the new one is stored in the table, and returns 0 when none
is; and `ParseZipArchive` returns `kDuplicateEntry` for a central directory in which
two of the `num_entries` records it walks, `i < j < num_entries`, carry the same file
name, when the hash table is allocated and the records up to `j` pass the checks made
before `AddToHash`. -/
theorem duplicate_entries_rejected (ComputeHash : List Nat → Nat) (start : Mem) (k : Nat)
    (names : List (Nat × Nat)) (IsValidEntryName : List Nat → Bool) (archive : ZipArchive)
    (i j : Nat) (hk : k < 32) (hlen : names.length < 2 ^ k) (hok : names_ok start names)
    (hn : archive.num_entries < 65536)
    (hcd : archive.central_directory.length < 4294967296) (hij : i < j)
    (hj : j < archive.num_entries)
    (hrec : ∀ m, m ≤ j →
      cd_record_ok IsValidEntryName archive.directory_offset archive.central_directory.base_ptr
        archive.central_directory.length (cd_record_ptr archive.central_directory.base_ptr m))
    (hsame : name_at archive.central_directory.base_ptr
        (cd_record_name archive.central_directory.base_ptr i)
      = name_at archive.central_directory.base_ptr
        (cd_record_name archive.central_directory.base_ptr j)) :
    (∃ t, add_names ComputeHash (2 ^ k) start names zero_table
            = some (List.replicate names.length 0, t)
        ∧ ∀ name_off name_len,
            (name_stored t (2 ^ k) start (view start name_off name_len) →
              AddToHash ComputeHash t (2 ^ k) name_off name_len start
                = some (kDuplicateEntry, t))
            ∧ (¬ name_stored t (2 ^ k) start (view start name_off name_len) →
              ∃ t', AddToHash ComputeHash t (2 ^ k) name_off name_len start = some (0, t')))
      ∧ ∃ archive', ParseZipArchive ComputeHash IsValidEntryName true archive
          = .ok (some (kDuplicateEntry, archive')) := by
  refine ⟨?_, ParseZipArchive_duplicate ComputeHash IsValidEntryName archive i j hn hcd hij hj
    hrec hsame⟩
  obtain ⟨t, hadd, hinv⟩ := add_names_inv ComputeHash start k hk names zero_table []
    (hash_table_inv_zero ComputeHash start _) (by simpa using hok) (by simpa using hlen)
  rw [List.nil_append] at hinv
  refine ⟨t, hadd, fun name_off name_len => ⟨?_, ?_⟩⟩
  · intro hst
    obtain ⟨n, hn', hnv⟩ := List.mem_map.1
      ((name_stored_iff ComputeHash start k t names hinv _).1 hst)
    exact AddToHash_duplicate ComputeHash start k hk t names hinv n hn' _ _ hnv.symm
  · intro hst
    obtain ⟨t', hadd', _⟩ := AddToHash_absent ComputeHash start k hk t names hinv hlen
      name_off name_len (fun h => hst ((name_stored_iff ComputeHash start k t names hinv _).2 h))
    exact ⟨t', hadd'⟩

/-- Witness of C16: the table of the names `a` and `bc`, and the central directory of
`zip2`, whose two records are both named `a`. -/
theorem duplicate_entries_rejected_witness :
    (∃ t, add_names hash_sum (2 ^ 2) (mem_of_list zip1_cd) [(46, 1), (93, 2)] zero_table
            = some (List.replicate [(46, 1), (93, 2)].length 0, t)
        ∧ ∀ name_off name_len,
            (name_stored t (2 ^ 2) (mem_of_list zip1_cd)
                (view (mem_of_list zip1_cd) name_off name_len) →
              AddToHash hash_sum t (2 ^ 2) name_off name_len (mem_of_list zip1_cd)
                = some (kDuplicateEntry, t))
            ∧ (¬ name_stored t (2 ^ 2) (mem_of_list zip1_cd)
                (view (mem_of_list zip1_cd) name_off name_len) →
              ∃ t', AddToHash hash_sum t (2 ^ 2) name_off name_len (mem_of_list zip1_cd)
                = some (0, t')))
      ∧ ∃ archive', ParseZipArchive hash_sum no_nul true (mapped_archive zip2_bytes 34 94 2)
          = .ok (some (kDuplicateEntry, archive')) :=
  duplicate_entries_rejected hash_sum (mem_of_list zip1_cd) 2 [(46, 1), (93, 2)] no_nul
    (mapped_archive zip2_bytes 34 94 2) 0 1 (by decide) (by decide) ⟨by decide, by decide⟩
    (by decide) (by decide) (by decide) (by decide)
    (fun m hm => by
      have h : m = 0 ∨ m = 1 := by omega
      rcases h with rfl | rfl
      · exact ⟨by decide, by decide, by decide, by decide, by decide⟩
      · exact ⟨by decide, by decide, by decide, by decide, by decide⟩)
    (by decide)

theorem entry_lfh_some (archive : ZipArchive) (hash_table : HashTable) (ent : Nat)
    (lfh : LocalFileHeader) (h : entry_lfh archive hash_table ent = some lfh) :
    ∃ lfh_buf, archive.mapped_zip.ReadAtOffset sizeof_LocalFileHeader
        ((entry_cdr archive hash_table ent).local_file_header_offset : Int) = .ok (some lfh_buf)
      ∧ LocalFileHeader.read lfh_buf 0 = lfh := by
  unfold entry_lfh at h
  split at h
  · rename_i lfh_buf hread
    exact ⟨lfh_buf, hread, by simpa using h⟩
  · cases h

theorem entry_lfh_name_some (archive : ZipArchive) (hash_table : HashTable) (ent : Nat)
    (name : List Nat) (h : entry_lfh_name archive hash_table ent = some name) :
    ∃ name_buf, archive.mapped_zip.ReadAtOffset (hash_table ent).name_length
        ((entry_cdr archive hash_table ent).local_file_header_offset + sizeof_LocalFileHeader)
          = .ok (some name_buf)
      ∧ view name_buf 0 (hash_table ent).name_length = name := by
  unfold entry_lfh_name at h
  split at h
  · rename_i name_buf hread
    exact ⟨name_buf, hread, by simpa using h⟩
  · cases h

/-- C16 fails as stated: the central directory of `zip2` lists the name `a` twice, but
with `num_entries = 1` `ParseZipArchive` walks its first record only and returns 0, and
with `num_entries = 2` and a name check that rejects the name it returns
`kInvalidEntryName`. -/
theorem ParseZipArchive_duplicate_not_reported :
    name_at (mapped_archive zip2_bytes 34 94 1).central_directory.base_ptr
          (cd_record_name (mapped_archive zip2_bytes 34 94 1).central_directory.base_ptr 0) = [97]
      ∧ name_at (mapped_archive zip2_bytes 34 94 1).central_directory.base_ptr
          (cd_record_name (mapped_archive zip2_bytes 34 94 1).central_directory.base_ptr 1) = [97]
      ∧ (ParseZipArchive hash_sum no_nul true (mapped_archive zip2_bytes 34 94 1)).map
          (Option.map Prod.fst) = .ok (some 0)
      ∧ (ParseZipArchive hash_sum (fun _ => false) true (mapped_archive zip2_bytes 34 94 2)).map
          (Option.map Prod.fst) = .ok (some kInvalidEntryName) := by
  decide

theorem FindEntry_data_zero (cd_offset local_header_offset : Int) (lfh : LocalFileHeader)
    (data3 data' : ZipEntry)
    (h : FindEntry_data cd_offset local_header_offset lfh data3 = (0, data')) :
    data' = { data3 with offset := local_header_offset + sizeof_LocalFileHeader
                + lfh.file_name_length + lfh.extra_field_length }
      ∧ data'.offset + data3.compressed_length ≤ cd_offset
      ∧ (data3.method = kCompressStored → data'.offset + data3.uncompressed_length ≤ cd_offset) := by
  unfold FindEntry_data at h
  dsimp only at h
  split at h
  · simp [kInvalidOffset] at h
  · split at h
    · simp [kInvalidOffset] at h
    · split at h
      · simp [kInvalidOffset] at h
      · rename_i h1 h2 h3
        simp only [Prod.mk.injEq, true_and] at h
        subst h
        refine ⟨rfl, ?_, ?_⟩
        · simp only; omega
        · intro hm
          simp only
          have : ¬ cd_offset < local_header_offset + ↑sizeof_LocalFileHeader
              + ↑lfh.file_name_length + ↑lfh.extra_field_length + ↑data3.uncompressed_length :=
            fun hc => h3 ⟨hm, hc⟩
          omega

theorem FindEntry_name_zero (mapped_zip : MappedZipFile) (cd_offset local_header_offset : Int)
    (nameLen : Nat) (entry_name : List Nat) (lfh : LocalFileHeader) (data3 data' : ZipEntry)
    (h : FindEntry_name mapped_zip cd_offset local_header_offset nameLen entry_name lfh data3
      = .ok (0, data')) :
    lfh.file_name_length = nameLen
      ∧ (∃ name_buf, mapped_zip.ReadAtOffset nameLen (local_header_offset + sizeof_LocalFileHeader)
            = .ok (some name_buf) ∧ entry_name = view name_buf 0 nameLen)
      ∧ FindEntry_data cd_offset local_header_offset lfh data3 = (0, data') := by
  unfold FindEntry_name at h
  dsimp only at h
  split at h
  · simp [kInconsistentInformation] at h
  · rename_i h1
    split at h
    · simp [kInvalidOffset] at h
    · split at h
      · cases h
      · simp [kIoError] at h
      · rename_i name_buf hread
        split at h
        · simp [kInconsistentInformation] at h
        · rename_i h3
          exact ⟨by simpa using h1, ⟨name_buf, hread, by simpa using h3⟩,
            by simpa using h⟩

theorem FindEntry_lfh_zero (mapped_zip : MappedZipFile) (cd_offset : Int) (nameLen : Nat)
    (entry_name : List Nat) (cdr : CentralDirectoryRecord) (lfh : LocalFileHeader)
    (data1 data' : ZipEntry)
    (h : FindEntry_lfh mapped_zip cd_offset nameLen entry_name cdr lfh data1
      = .ok (0, data')) :
    lfh.lfh_signature = LocalFileHeader.kSignature
      ∧ (lfh.gpb_flags &&& kGPBDDFlagMask = 0 →
          data1.compressed_length = lfh.compressed_size
          ∧ data1.uncompressed_length = lfh.uncompressed_size ∧ data1.crc32 = lfh.crc32)
      ∧ ∃ data3 : ZipEntry, data3.method = data1.method
          ∧ data3.compressed_length = data1.compressed_length
          ∧ data3.uncompressed_length = data1.uncompressed_length
          ∧ data3.crc32 = data1.crc32
          ∧ FindEntry_name mapped_zip cd_offset cdr.local_file_header_offset nameLen entry_name
              lfh data3 = .ok (0, data') := by
  unfold FindEntry_lfh at h
  dsimp only at h
  split at h
  · simp [kInvalidOffset] at h
  · rename_i h1
    split at h
    · simp [kInconsistentInformation] at h
    · rename_i h2
      refine ⟨by simpa using h1, ?_, _, (by rfl), (by rfl), (by rfl), (by rfl), h⟩
      intro hflag
      by_contra hcon
      apply h2
      refine ⟨hflag, ?_⟩
      by_contra hcon2
      apply hcon
      simp only [not_or, not_not] at hcon2
      exact hcon2

theorem FindEntry_zero (archive : ZipArchive) (ent : Nat) (data data' : ZipEntry)
    (h : FindEntry archive ent data = .ok (0, data')) :
    ∃ hash_table lfh, archive.hash_table = some hash_table
      ∧ ¬ ((((hash_table ent).name_offset : Int) - sizeof_CentralDirectoryRecord < 0)
          ∨ (archive.central_directory.length : Int)
              < ((hash_table ent).name_offset : Int) - sizeof_CentralDirectoryRecord)
      ∧ entry_lfh archive hash_table ent = some lfh
      ∧ FindEntry_lfh archive.mapped_zip archive.directory_offset
          (hash_table ent).name_length
          ((hash_table ent).ToStringView archive.central_directory.base_ptr)
          (entry_cdr archive hash_table ent) lfh
          { data with
            method := (entry_cdr archive hash_table ent).compression_method,
            mod_time := (((entry_cdr archive hash_table ent).last_mod_date <<< 16)
              ||| (entry_cdr archive hash_table ent).last_mod_time) % 4294967296,
            crc32 := (entry_cdr archive hash_table ent).crc32,
            compressed_length := (entry_cdr archive hash_table ent).compressed_size,
            uncompressed_length := (entry_cdr archive hash_table ent).uncompressed_size }
          = .ok (0, data') := by
  unfold FindEntry at h
  cases htab : archive.hash_table with
  | none => rw [htab] at h; cases h
  | some hash_table =>
    rw [htab] at h
    dsimp only at h
    split at h
    · simp [kInvalidOffset] at h
    · rename_i hptr
      split at h
      · simp [kInvalidOffset] at h
      · split at h
        · cases h
        · simp [kIoError] at h
        · rename_i lfh_buf hread
          refine ⟨hash_table, LocalFileHeader.read lfh_buf 0, rfl, hptr, ?_, h⟩
          unfold entry_lfh entry_cdr
          rw [hread]

/-- C13: whenever `FindEntry` for a hash-table slot returns 0, the data of the entry
lies in front of the central directory: `offset` is the local header offset plus
`sizeof(LocalFileHeader)`, the file-name length and the extra-field length of the
local file header, `offset + compressed_length` is at most `directory_offset`, and so
is `offset + uncompressed_length` when the method is stored. -/
theorem FindEntry_data_before_directory (archive : ZipArchive) (ent : Nat)
    (data data' : ZipEntry) (h : FindEntry archive ent data = .ok (0, data')) :
    ∃ hash_table lfh, archive.hash_table = some hash_table
      ∧ entry_lfh archive hash_table ent = some lfh
      ∧ data'.offset = ((entry_cdr archive hash_table ent).local_file_header_offset : Int)
          + sizeof_LocalFileHeader + lfh.file_name_length + lfh.extra_field_length
      ∧ data'.offset + data'.compressed_length ≤ archive.directory_offset
      ∧ (data'.method = kCompressStored →
          data'.offset + data'.uncompressed_length ≤ archive.directory_offset) := by
  obtain ⟨hash_table, lfh, htab, _, hlfh, h1⟩ := FindEntry_zero archive ent data data' h
  obtain ⟨_, _, data3, hm, hc, hu, _, h2⟩ := FindEntry_lfh_zero _ _ _ _ _ _ _ _ h1
  obtain ⟨_, _, h3⟩ := FindEntry_name_zero _ _ _ _ _ _ _ _ h2
  obtain ⟨hd, h4, h5⟩ := FindEntry_data_zero _ _ _ _ _ h3
  refine ⟨hash_table, lfh, htab, hlfh, ?_, ?_, ?_⟩
  · rw [hd]
  · have : data'.compressed_length = data3.compressed_length := by rw [hd]
    rw [this]; exact h4
  · have e1 : data'.uncompressed_length = data3.uncompressed_length := by rw [hd]
    have e2 : data'.method = data3.method := by rw [hd]
    rw [e1, e2]; exact h5

theorem FindEntry_reaches_lfh (archive : ZipArchive) (ent : Nat) (data : ZipEntry)
    (hash_table : HashTable) (lfh : LocalFileHeader)
    (htab : archive.hash_table = some hash_table)
    (hptr : ¬ ((((hash_table ent).name_offset : Int) - sizeof_CentralDirectoryRecord < 0)
      ∨ (archive.central_directory.length : Int)
          < ((hash_table ent).name_offset : Int) - sizeof_CentralDirectoryRecord))
    (hoff : ¬ archive.directory_offset
      ≤ ((entry_cdr archive hash_table ent).local_file_header_offset : Int) + sizeof_LocalFileHeader)
    (hlfh : entry_lfh archive hash_table ent = some lfh) :
    FindEntry archive ent data
      = FindEntry_lfh archive.mapped_zip archive.directory_offset
          (hash_table ent).name_length
          ((hash_table ent).ToStringView archive.central_directory.base_ptr)
          (entry_cdr archive hash_table ent) lfh
          { data with
            method := (entry_cdr archive hash_table ent).compression_method,
            mod_time := (((entry_cdr archive hash_table ent).last_mod_date <<< 16)
              ||| (entry_cdr archive hash_table ent).last_mod_time) % 4294967296,
            crc32 := (entry_cdr archive hash_table ent).crc32,
            compressed_length := (entry_cdr archive hash_table ent).compressed_size,
            uncompressed_length := (entry_cdr archive hash_table ent).uncompressed_size } := by
  obtain ⟨lfh_buf, hread, hl⟩ := entry_lfh_some archive hash_table ent lfh hlfh
  unfold entry_cdr at hread hoff
  unfold FindEntry entry_cdr
  rw [htab]
  dsimp only
  rw [if_neg hptr, if_neg hoff, hread, ← hl]

/-- C15: `FindEntry` returns 0 for a slot only if the local file header agrees with
the central directory: its file-name length is the name length of the slot, the name
bytes behind it are the name bytes in the central directory, and, when bit 3 of its
flags is clear, its compressed size, uncompressed size and crc32 are those of the
central directory record. Once the local file header is read and carries its
signature, each such mismatch that the checks reach yields `kInconsistentInformation`. -/
theorem FindEntry_consistent (archive : ZipArchive) (ent : Nat) (data : ZipEntry) :
    (∀ data', FindEntry archive ent data = .ok (0, data') →
      ∃ hash_table lfh, archive.hash_table = some hash_table
        ∧ entry_lfh archive hash_table ent = some lfh
        ∧ lfh.file_name_length = (hash_table ent).name_length
        ∧ entry_lfh_name archive hash_table ent
            = some ((hash_table ent).ToStringView archive.central_directory.base_ptr)
        ∧ (lfh.gpb_flags &&& kGPBDDFlagMask = 0 →
            lfh.compressed_size = (entry_cdr archive hash_table ent).compressed_size
            ∧ lfh.uncompressed_size = (entry_cdr archive hash_table ent).uncompressed_size
            ∧ lfh.crc32 = (entry_cdr archive hash_table ent).crc32))
    ∧ (∀ hash_table lfh, archive.hash_table = some hash_table →
        ¬ ((((hash_table ent).name_offset : Int) - sizeof_CentralDirectoryRecord < 0)
          ∨ (archive.central_directory.length : Int)
              < ((hash_table ent).name_offset : Int) - sizeof_CentralDirectoryRecord) →
        ¬ archive.directory_offset
          ≤ ((entry_cdr archive hash_table ent).local_file_header_offset : Int)
              + sizeof_LocalFileHeader →
        entry_lfh archive hash_table ent = some lfh →
        lfh.lfh_signature = LocalFileHeader.kSignature →
        (lfh.gpb_flags &&& kGPBDDFlagMask = 0 →
          (lfh.compressed_size ≠ (entry_cdr archive hash_table ent).compressed_size
            ∨ lfh.uncompressed_size ≠ (entry_cdr archive hash_table ent).uncompressed_size
            ∨ lfh.crc32 ≠ (entry_cdr archive hash_table ent).crc32) →
          ∃ d, FindEntry archive ent data = .ok (kInconsistentInformation, d))
        ∧ (¬ (lfh.gpb_flags &&& kGPBDDFlagMask = 0
              ∧ (lfh.compressed_size ≠ (entry_cdr archive hash_table ent).compressed_size
                ∨ lfh.uncompressed_size ≠ (entry_cdr archive hash_table ent).uncompressed_size
                ∨ lfh.crc32 ≠ (entry_cdr archive hash_table ent).crc32)) →
            (lfh.file_name_length ≠ (hash_table ent).name_length →
              ∃ d, FindEntry archive ent data = .ok (kInconsistentInformation, d))
            ∧ (lfh.file_name_length = (hash_table ent).name_length →
              ¬ archive.directory_offset
                < ((entry_cdr archive hash_table ent).local_file_header_offset : Int)
                    + sizeof_LocalFileHeader + lfh.file_name_length →
              ∀ name, entry_lfh_name archive hash_table ent = some name →
                name ≠ (hash_table ent).ToStringView archive.central_directory.base_ptr →
                ∃ d, FindEntry archive ent data = .ok (kInconsistentInformation, d)))) := by
  constructor
  · intro data' h
    obtain ⟨hash_table, lfh, htab, _, hlfh, h1⟩ := FindEntry_zero archive ent data data' h
    obtain ⟨_, hsz, data3, _, _, _, _, h2⟩ := FindEntry_lfh_zero _ _ _ _ _ _ _ _ h1
    obtain ⟨hlen, ⟨name_buf, hread, hname⟩, _⟩ := FindEntry_name_zero _ _ _ _ _ _ _ _ h2
    refine ⟨hash_table, lfh, htab, hlfh, hlen, ?_, ?_⟩
    · unfold entry_lfh_name
      rw [hread, hname]
    · intro hflag
      obtain ⟨a, b, c⟩ := hsz hflag
      exact ⟨a.symm, b.symm, c.symm⟩
  · intro hash_table lfh htab hptr hoff hlfh hsig
    have hrun := FindEntry_reaches_lfh archive ent data hash_table lfh htab hptr hoff hlfh
    refine ⟨?_, ?_⟩
    · intro hflag hmis
      rw [hrun]
      unfold FindEntry_lfh
      rw [if_neg (by simp [hsig])]
      dsimp only
      rw [if_pos]
      · exact ⟨_, rfl⟩
      · refine ⟨hflag, ?_⟩
        rcases hmis with h | h | h
        · exact Or.inl (fun e => h e.symm)
        · exact Or.inr (Or.inl (fun e => h e.symm))
        · exact Or.inr (Or.inr (fun e => h e.symm))
    · intro hnomis
      have hstep : ∃ data3,
          FindEntry archive ent data
            = FindEntry_name archive.mapped_zip archive.directory_offset
                (entry_cdr archive hash_table ent).local_file_header_offset
                (hash_table ent).name_length
                ((hash_table ent).ToStringView archive.central_directory.base_ptr) lfh data3 := by
        rw [hrun]
        unfold FindEntry_lfh
        rw [if_neg (by simp [hsig])]
        dsimp only
        rw [if_neg]
        · exact ⟨_, rfl⟩
        · rintro ⟨hflag, hmis⟩
          apply hnomis
          refine ⟨hflag, ?_⟩
          rcases hmis with h | h | h
          · exact Or.inl (fun e => h e.symm)
          · exact Or.inr (Or.inl (fun e => h e.symm))
          · exact Or.inr (Or.inr (fun e => h e.symm))
      obtain ⟨data3, hstep⟩ := hstep
      refine ⟨?_, ?_⟩
      · intro hlen
        rw [hstep]
        unfold FindEntry_name
        rw [if_pos hlen]
        exact ⟨_, rfl⟩
      · intro hlen hnoff name hname hne
        obtain ⟨name_buf, hread, hn⟩ := entry_lfh_name_some archive hash_table ent name hname
        rw [hstep]
        unfold FindEntry_name
        rw [if_neg (by simp [hlen])]
        dsimp only
        rw [if_neg hnoff, hread]
        dsimp only
        rw [if_pos]
        · exact ⟨_, rfl⟩
        · rw [hn]
          exact fun e => hne e.symm

theorem eocd_scan_none (scan_buffer : Mem) (n : Nat) :
    eocd_scan scan_buffer n = none ↔ ∀ j, j ≤ n → ¬ eocd_magic_at scan_buffer j := by
  induction n with
  | zero =>
    unfold eocd_scan
    constructor
    · intro h j hj hm
      have : j = 0 := by omega
      subst this
      unfold eocd_magic_at at hm
      rw [if_pos hm] at h
      cases h
    · intro h
      rw [if_neg]
      exact fun hm => h 0 (le_refl _) hm
  | succ n ih =>
    unfold eocd_scan
    constructor
    · intro h j hj hm
      by_cases hc : eocd_magic_at scan_buffer (n + 1)
      · unfold eocd_magic_at at hc
        rw [if_pos hc] at h
        cases h
      · unfold eocd_magic_at at hc
        rw [if_neg hc] at h
        rcases Nat.lt_or_eq_of_le hj with hlt | heq
        · exact ih.1 h j (by omega) hm
        · subst heq; exact hc hm
    · intro h
      have hc : ¬ eocd_magic_at scan_buffer (n + 1) := h (n + 1) (le_refl _)
      unfold eocd_magic_at at hc
      rw [if_neg hc]
      exact ih.2 (fun j hj => h j (by omega))

theorem eocd_scan_some (scan_buffer : Mem) (n i : Nat) :
    eocd_scan scan_buffer n = some i ↔
      i ≤ n ∧ eocd_magic_at scan_buffer i
        ∧ ∀ j, i < j → j ≤ n → ¬ eocd_magic_at scan_buffer j := by
  induction n with
  | zero =>
    unfold eocd_scan
    constructor
    · intro h
      by_cases hc : eocd_magic_at scan_buffer 0
      · have hc' := hc
        unfold eocd_magic_at at hc'
        rw [if_pos hc'] at h
        simp only [Option.some.injEq] at h
        subst h
        exact ⟨le_refl _, hc, fun j h1 h2 => by omega⟩
      · unfold eocd_magic_at at hc
        rw [if_neg hc] at h
        cases h
    · rintro ⟨h1, h2, _⟩
      have : i = 0 := by omega
      subst this
      unfold eocd_magic_at at h2
      rw [if_pos h2]
  | succ n ih =>
    unfold eocd_scan
    constructor
    · intro h
      by_cases hc : eocd_magic_at scan_buffer (n + 1)
      · have hc' := hc
        unfold eocd_magic_at at hc'
        rw [if_pos hc'] at h
        simp only [Option.some.injEq] at h
        subst h
        exact ⟨le_refl _, hc, fun j h1 h2 => by omega⟩
      · have hc' := hc
        unfold eocd_magic_at at hc'
        rw [if_neg hc'] at h
        obtain ⟨h1, h2, h3⟩ := ih.1 h
        refine ⟨by omega, h2, fun j hj1 hj2 => ?_⟩
        rcases Nat.lt_or_eq_of_le hj2 with hlt | heq
        · exact h3 j hj1 (by omega)
        · subst heq; exact hc
    · rintro ⟨h1, h2, h3⟩
      by_cases hc : eocd_magic_at scan_buffer (n + 1)
      · have : i = n + 1 := by
          by_contra hne
          exact h3 (n + 1) (by omega) (le_refl _) hc
        subst this
        unfold eocd_magic_at at hc
        rw [if_pos hc]
      · have hc' := hc
        unfold eocd_magic_at at hc'
        rw [if_neg hc']
        have hne : i ≠ n + 1 := fun e => hc (e ▸ h2)
        exact ih.2 ⟨by omega, h2, fun j hj1 hj2 => h3 j hj1 (by omega)⟩

theorem MapCentralDirectory0_found (archive : ZipArchive) (file_length : Int)
    (read_amount : Nat) (scan_buffer : Mem) (i : Nat)
    (hread : archive.mapped_zip.ReadAtOffset read_amount (file_length - read_amount)
      = .ok (some scan_buffer))
    (hcheck : read_amount ≤ 2147483647) (hi : i + sizeof_EocdRecord ≤ read_amount)
    (hmagic : eocd_magic_at scan_buffer i)
    (hlast : ∀ j, i < j → j + sizeof_EocdRecord ≤ read_amount → ¬ eocd_magic_at scan_buffer j) :
    MapCentralDirectory0 archive file_length read_amount
      = (if file_length - read_amount + i + sizeof_EocdRecord
              + (EocdRecord.read scan_buffer i).comment_length ≠ file_length then
          .ok (kInvalidFile, archive)
        else if file_length - read_amount + i
            < ((EocdRecord.read scan_buffer i).cd_start_offset : Int)
              + (EocdRecord.read scan_buffer i).cd_size then .ok (kInvalidOffset, archive)
        else if (EocdRecord.read scan_buffer i).num_records = 0 then .ok (kEmptyArchive, archive)
        else
          match archive.InitializeCentralDirectory (EocdRecord.read scan_buffer i).cd_start_offset
              (EocdRecord.read scan_buffer i).cd_size with
          | (false, archive') => .ok (kMmapFailed, archive')
          | (true, archive') =>
            .ok (0, { archive' with
              num_entries := (EocdRecord.read scan_buffer i).num_records,
              directory_offset := (EocdRecord.read scan_buffer i).cd_start_offset })) := by
  unfold sizeof_EocdRecord at hi hlast
  have hscan : eocd_scan scan_buffer (read_amount - 22) = some i :=
    (eocd_scan_some scan_buffer (read_amount - 22) i).2
      ⟨by omega, hmagic, fun j h1 h2 => hlast j h1 (by omega)⟩
  unfold MapCentralDirectory0
  dsimp only
  rw [hread]
  dsimp only
  rw [if_neg (by omega), if_neg (by unfold sizeof_EocdRecord; omega)]
  simp only [sizeof_EocdRecord]
  rw [hscan]
  try rfl

theorem MapCentralDirectory0_not_found (archive : ZipArchive) (file_length : Int)
    (read_amount : Nat) (scan_buffer : Mem)
    (hread : archive.mapped_zip.ReadAtOffset read_amount (file_length - read_amount)
      = .ok (some scan_buffer))
    (hcheck : read_amount ≤ 2147483647)
    (hnone : ∀ j, j + sizeof_EocdRecord ≤ read_amount → ¬ eocd_magic_at scan_buffer j) :
    MapCentralDirectory0 archive file_length read_amount = .ok (kInvalidFile, archive) := by
  unfold sizeof_EocdRecord at hnone
  unfold MapCentralDirectory0
  dsimp only
  rw [hread]
  dsimp only
  rw [if_neg (by omega)]
  by_cases hsmall : read_amount < sizeof_EocdRecord
  · rw [if_pos hsmall]
  · rw [if_neg hsmall]
    unfold sizeof_EocdRecord at hsmall ⊢
    have hscan : eocd_scan scan_buffer (read_amount - 22) = none :=
      (eocd_scan_none scan_buffer (read_amount - 22)).2 (fun j hj => hnone j (by omega))
    rw [hscan]

theorem MapCentralDirectory0_zero (archive archive' : ZipArchive) (file_length : Int)
    (read_amount : Nat)
    (h : MapCentralDirectory0 archive file_length read_amount = .ok (0, archive')) :
    ∃ scan_buffer i,
      archive.mapped_zip.ReadAtOffset read_amount (file_length - read_amount)
        = .ok (some scan_buffer)
      ∧ i + sizeof_EocdRecord ≤ read_amount ∧ eocd_magic_at scan_buffer i
      ∧ (∀ j, i < j → j + sizeof_EocdRecord ≤ read_amount → ¬ eocd_magic_at scan_buffer j)
      ∧ file_length - read_amount + i + sizeof_EocdRecord
          + (EocdRecord.read scan_buffer i).comment_length = file_length
      ∧ ((EocdRecord.read scan_buffer i).cd_start_offset : Int)
          + (EocdRecord.read scan_buffer i).cd_size ≤ file_length - read_amount + i
      ∧ (EocdRecord.read scan_buffer i).num_records ≠ 0 := by
  rcases hread : archive.mapped_zip.ReadAtOffset read_amount (file_length - read_amount)
    with e | _ | scan_buffer
  · unfold MapCentralDirectory0 at h
    dsimp only at h
    rw [hread] at h
    cases h
  · unfold MapCentralDirectory0 at h
    dsimp only at h
    rw [hread] at h
    simp [kIoError] at h
  · by_cases hcheck : read_amount ≤ 2147483647
    · by_cases hex : ∃ j, j + sizeof_EocdRecord ≤ read_amount ∧ eocd_magic_at scan_buffer j
      · obtain ⟨j0, hj0, hm0⟩ := hex
        unfold sizeof_EocdRecord at hj0
        cases hscan : eocd_scan scan_buffer (read_amount - 22) with
        | none =>
          exact absurd hm0 ((eocd_scan_none scan_buffer _).1 hscan j0 (by omega))
        | some i =>
          obtain ⟨h1, h2, h3⟩ := (eocd_scan_some scan_buffer _ i).1 hscan
          have hlast : ∀ j, i < j → j + sizeof_EocdRecord ≤ read_amount →
              ¬ eocd_magic_at scan_buffer j := by
            intro j hj1 hj2
            unfold sizeof_EocdRecord at hj2
            exact h3 j hj1 (by omega)
          have hi : i + sizeof_EocdRecord ≤ read_amount := by
            unfold sizeof_EocdRecord; omega
          rw [MapCentralDirectory0_found archive file_length read_amount scan_buffer i hread
            hcheck hi h2 hlast] at h
          refine ⟨scan_buffer, i, rfl, hi, h2, hlast, ?_⟩
          split at h
          · simp [kInvalidFile] at h
          · rename_i hlen
            split at h
            · simp [kInvalidOffset] at h
            · rename_i hov
              split at h
              · simp [kEmptyArchive] at h
              · rename_i hnum
                exact ⟨by simpa using hlen, by omega, hnum⟩
      · rw [MapCentralDirectory0_not_found archive file_length read_amount scan_buffer hread
          hcheck (fun j hj hm => hex ⟨j, hj, hm⟩)] at h
        simp [kInvalidFile] at h
    · unfold MapCentralDirectory0 at h
      dsimp only at h
      rw [hread] at h
      dsimp only at h
      rw [if_pos (by omega)] at h
      cases h

/-- C17 (evaluation at the failing input): the entry `a` of `zip1` has 3 bytes;
`ExtractToMemory` into a region of 10 bytes returns 0 with 3 bytes written, the other
7 bytes of the region untouched. -/
theorem ExtractToMemory_accepts_larger_region :
    FindEntry zip1_archive 1 zero_entry = .ok (0, zip1_entry_a)
      ∧ zip1_entry_a.uncompressed_length = 3
      ∧ (ExtractToMemory crc_zero no_inflate zip1_archive zip1_entry_a (fun _ => 255) 10).map
          (Option.map (fun r => (r.1, r.2.size, r.2.bytes_written, view r.2.buf 0 10)))
        = .ok (some (0, 10, 3, [104, 105, 33, 255, 255, 255, 255, 255, 255, 255]))
      ∧ (3 : Nat) ≠ 10 := by
  decide

theorem Next_scan_spec (hash_table : HashTable) (base_ptr : Mem) (prefix_ suffix : List Nat)
    (fuel : Nat) :
    ∀ pos, (Next_scan hash_table base_ptr prefix_ suffix fuel pos = none
          ∧ (List.range' pos fuel).filter (slot_matches hash_table base_ptr prefix_ suffix) = [])
      ∨ ∃ i, Next_scan hash_table base_ptr prefix_ suffix fuel pos = some i
          ∧ pos ≤ i ∧ i < pos + fuel
          ∧ slot_matches hash_table base_ptr prefix_ suffix i = true
          ∧ (List.range' pos fuel).filter (slot_matches hash_table base_ptr prefix_ suffix)
              = i :: (List.range' (i + 1) (pos + fuel - (i + 1))).filter
                  (slot_matches hash_table base_ptr prefix_ suffix) := by
  induction fuel with
  | zero => intro pos; left; exact ⟨rfl, rfl⟩
  | succ fuel ih =>
    intro pos
    unfold Next_scan
    rw [List.range'_succ]
    by_cases hm : slot_matches hash_table base_ptr prefix_ suffix pos = true
    · right
      have hm' := hm
      unfold slot_matches at hm'
      simp only [Bool.and_eq_true, decide_eq_true_eq] at hm'
      rw [if_pos hm']
      refine ⟨pos, rfl, le_refl _, by omega, hm, ?_⟩
      rw [List.filter_cons_of_pos hm]
      have : pos + (fuel + 1) - (pos + 1) = fuel := by omega
      rw [this]
    · have hm' := hm
      unfold slot_matches at hm'
      simp only [Bool.and_eq_true, decide_eq_true_eq] at hm'
      rw [if_neg hm', List.filter_cons_of_neg hm]
      rcases ih (pos + 1) with ⟨h1, h2⟩ | ⟨i, h1, h2, h3, h4, h5⟩
      · left; exact ⟨h1, h2⟩
      · right
        refine ⟨i, h1, by omega, by omega, h4, ?_⟩
        rw [h5]
        have : pos + 1 + fuel - (i + 1) = pos + (fuel + 1) - (i + 1) := by omega
        rw [this]

theorem Next_trace_from (archive : ZipArchive) (hash_table : HashTable)
    (prefix_ suffix : List Nat) (htab : archive.hash_table = some hash_table)
    (hsize : archive.hash_table_size < 4294967296)
    (hvalid : ∀ i, i < archive.hash_table_size → (hash_table i).name_offset ≠ 0 →
      ∀ d, ∃ d', FindEntry archive i d = .ok (0, d'))
    (n : Nat) :
    ∀ (pos : Nat) (data : ZipEntry), archive.hash_table_size - pos ≤ n →
      pos ≤ archive.hash_table_size →
      Next_trace
          (((List.range' pos (archive.hash_table_size - pos)).filter
            (slot_matches hash_table archive.central_directory.base_ptr prefix_ suffix)).length + 1)
          (some { archive := some archive, prefix_ := prefix_, suffix := suffix, position := pos })
          data
        = ((List.range' pos (archive.hash_table_size - pos)).filter
            (slot_matches hash_table archive.central_directory.base_ptr prefix_ suffix)).map
            (fun i => ((0 : Int),
              some ((hash_table i).ToStringView archive.central_directory.base_ptr),
              some (i + 1)))
          ++ [(kIterationEnd, some [], some 0)] := by
  induction n with
  | zero =>
    intro pos data hn hpos
    have h0 : archive.hash_table_size - pos = 0 := by omega
    rw [h0]
    simp only [List.range'_zero, List.filter_nil, List.length_nil, List.map_nil, List.nil_append,
      Nat.zero_add]
    unfold Next_trace Next
    simp only [htab, h0, Next_scan]
    rfl
  | succ n ih =>
    intro pos data hn hpos
    rcases Next_scan_spec hash_table archive.central_directory.base_ptr prefix_ suffix
        (archive.hash_table_size - pos) pos with ⟨h1, h2⟩ | ⟨i, h1, h2, h3, h4, h5⟩
    · rw [h2]
      simp only [List.length_nil, List.map_nil, List.nil_append, Nat.zero_add]
      unfold Next_trace Next
      simp only [htab, h1]
      rfl
    · rw [h5]
      have hilt : i < archive.hash_table_size := by omega
      have hne : (hash_table i).name_offset ≠ 0 := by
        unfold slot_matches at h4
        simp only [Bool.and_eq_true, decide_eq_true_eq] at h4
        exact h4.1
      obtain ⟨d', hd'⟩ := hvalid i hilt hne data
      have hrest : pos + (archive.hash_table_size - pos) - (i + 1)
          = archive.hash_table_size - (i + 1) := by omega
      rw [hrest]
      simp only [List.length_cons, List.map_cons, List.cons_append]
      rw [Next_trace]
      unfold Next
      simp only [htab, h1, hd']
      have hmod : (i + 1) % 4294967296 = i + 1 := Nat.mod_eq_of_lt (by omega)
      simp only [hmod, Option.isSome_some, and_self, if_true, Option.map_some']
      rw [ih (i + 1) d' (by omega) (by omega)]

/-- C19: on an archive every slot in use of which `FindEntry` accepts, after
`StartIteration` with prefix `p` and suffix `s` the successive calls of `Next` return
0 for exactly the slots in use whose name starts with `p` and ends with `s`, each
once and in increasing slot order (the cursor is one past the slot), and the call
after the last of them returns `kIterationEnd` and sets the cursor to 0. -/
theorem iteration_exact (archive : ZipArchive) (hash_table : HashTable)
    (p s : List Nat) (data : ZipEntry) (htab : archive.hash_table = some hash_table)
    (hsize : archive.hash_table_size < 4294967296) (hp : p.length ≤ 65535)
    (hs : s.length ≤ 65535)
    (hvalid : ∀ i, i < archive.hash_table_size → (hash_table i).name_offset ≠ 0 →
      ∀ d, ∃ d', FindEntry archive i d = .ok (0, d')) :
    ∃ cookie, StartIteration (some archive) none p s = (0, some cookie)
      ∧ Next_trace
          (((List.range archive.hash_table_size).filter
            (slot_matches hash_table archive.central_directory.base_ptr p s)).length + 1)
          (some cookie) data
        = ((List.range archive.hash_table_size).filter
            (slot_matches hash_table archive.central_directory.base_ptr p s)).map
            (fun i => ((0 : Int),
              some ((hash_table i).ToStringView archive.central_directory.base_ptr),
              some (i + 1)))
          ++ [(kIterationEnd, some [], some 0)]
      ∧ ((List.range archive.hash_table_size).filter
            (slot_matches hash_table archive.central_directory.base_ptr p s)).Pairwise (· < ·)
      ∧ ∀ i, i ∈ (List.range archive.hash_table_size).filter
            (slot_matches hash_table archive.central_directory.base_ptr p s)
          ↔ i < archive.hash_table_size ∧ (hash_table i).name_offset ≠ 0
            ∧ p.isPrefixOf ((hash_table i).ToStringView archive.central_directory.base_ptr) = true
            ∧ s.isSuffixOf ((hash_table i).ToStringView archive.central_directory.base_ptr) = true := by
  refine ⟨{ archive := some archive, prefix_ := p, suffix := s, position := 0 }, ?_, ?_, ?_, ?_⟩
  · unfold StartIteration
    simp only [htab, Option.isNone_some]
    rw [if_neg (by simp), if_neg (by omega)]
  · have := Next_trace_from archive hash_table p s htab hsize hvalid archive.hash_table_size 0
      data (by omega) (Nat.zero_le _)
    rw [Nat.sub_zero, ← List.range_eq_range'] at this
    exact this
  · exact List.Pairwise.filter _ (List.pairwise_lt_range _)
  · intro i
    rw [List.mem_filter, List.mem_range]
    unfold slot_matches
    simp only [Bool.and_eq_true, decide_eq_true_eq]

theorem zip1_archive_valid :
    ∀ i, i < zip1_archive.hash_table_size →
      ((fun j => if j = 2 then ({ name_offset := 93, name_length := 2 } : ZipStringOffset)
        else if j = 1 then { name_offset := 46, name_length := 1 }
        else { name_offset := 0, name_length := 0 }) i).name_offset ≠ 0 →
      ∀ d, ∃ d', FindEntry zip1_archive i d = .ok (0, d') := by
  intro i hi hne d
  have h4 : i < 4 := hi
  interval_cases i
  · exact absurd rfl hne
  · exact ⟨_, rfl⟩
  · exact ⟨_, rfl⟩
  · exact absurd rfl hne

/-- Witness of C19: the iteration over `zip1` with the prefix `b` yields the entry
`bc` of slot 2 and then ends. -/
theorem iteration_exact_witness :
    Next_trace 2 (StartIteration (some zip1_archive) none [98] []).2 zero_entry
        = [(0, some [98, 99], some 3), (kIterationEnd, some [], some 0)]
      ∧ ∃ cookie, StartIteration (some zip1_archive) none [98] [] = (0, some cookie) := by
  obtain ⟨cookie, h1, _⟩ := iteration_exact zip1_archive _ [98] [] zero_entry rfl (by decide)
    (by decide) (by decide) zip1_archive_valid
  exact ⟨by decide, cookie, h1⟩

/-- C11 (as the code behaves): `init()` sets the verbosity to the value of
`MCPELAUNCHER_LINKER_VERBOSITY` when the variable holds the decimal form of an integer
that fits `int`, and leaves it as it was when the variable is unset; in both cases the
registry is then initialised: it holds the one record of `libdl.so`. -/
theorem init_verbosity (v : Int) (dl_symbols : SymbolMap) (st0 : LinkerState)
    (hlo : -2147483648 ≤ v) (hhi : v ≤ 2147483647) :
    linker.init (some (toString v)) dl_symbols st0
        = .ok { g_ld_debug_verbosity := v,
                solist := [{ name := "libdl.so", handle := 1, base := 0, phdr := [],
                             deps := [], ref_count := 1, symbols := dl_symbols }],
                next_handle := 2 }
      ∧ linker.init none dl_symbols st0
        = .ok { g_ld_debug_verbosity := st0.g_ld_debug_verbosity,
                solist := [{ name := "libdl.so", handle := 1, base := 0, phdr := [],
                             deps := [], ref_count := 1, symbols := dl_symbols }],
                next_handle := 2 } := by
  refine ⟨?_, ?_⟩
  · unfold linker.init
    simp only [stoi_toString v hlo hhi]
    rw [load_libdl_fresh]
  · unfold linker.init
    simp only
    rw [load_libdl_fresh]

/-- Witness of C11: the variable set to `-3`, and the variable unset. -/
theorem init_verbosity_witness :
    linker.init (some (toString (-3 : Int))) [("dlopen", 4660)] st_boot
        = .ok { g_ld_debug_verbosity := -3,
                solist := [{ name := "libdl.so", handle := 1, base := 0, phdr := [],
                             deps := [], ref_count := 1, symbols := [("dlopen", 4660)] }],
                next_handle := 2 }
      ∧ linker.init none [("dlopen", 4660)] st_boot
        = .ok { g_ld_debug_verbosity := st_boot.g_ld_debug_verbosity,
                solist := [{ name := "libdl.so", handle := 1, base := 0, phdr := [],
                             deps := [], ref_count := 1, symbols := [("dlopen", 4660)] }],
                next_handle := 2 } :=
  init_verbosity (-3) [("dlopen", 4660)] st_boot (by decide) (by decide)

/-- C11 fails as stated: with the variable set to the integer 2147483648, which does
not fit `int`, `std::stoi` throws and `init` neither sets the verbosity nor
initialises the registry. -/
theorem init_verbosity_out_of_range :
    toString (2147483648 : Int) = "2147483648"
      ∧ linker.init (some "2147483648") [("dlopen", 4660)] st_boot
          = .error Fault.out_of_range := by
  decide

/-- Witness of C13: the entry `a` of `zip1`, in slot 1. -/
theorem FindEntry_data_before_directory_witness :
    ∃ hash_table lfh, zip1_archive.hash_table = some hash_table
      ∧ entry_lfh zip1_archive hash_table 1 = some lfh
      ∧ zip1_entry_a.offset
          = ((entry_cdr zip1_archive hash_table 1).local_file_header_offset : Int)
            + sizeof_LocalFileHeader + lfh.file_name_length + lfh.extra_field_length
      ∧ zip1_entry_a.offset + zip1_entry_a.compressed_length ≤ zip1_archive.directory_offset
      ∧ (zip1_entry_a.method = kCompressStored →
          zip1_entry_a.offset + zip1_entry_a.uncompressed_length
            ≤ zip1_archive.directory_offset) :=
  FindEntry_data_before_directory zip1_archive 1 zero_entry zip1_entry_a (by decide)

/-- Witness of C15: the local file header of `zip3` disagrees with the central
directory on the crc32 of the entry in slot 1. -/
theorem FindEntry_consistent_witness :
    ∃ d, FindEntry zip3_archive 1 zero_entry = .ok (kInconsistentInformation, d) :=
  ((FindEntry_consistent zip3_archive 1 zero_entry).2 _ _ rfl (by decide) (by decide) rfl
    (by decide)).1 (by decide) (by decide)

/-- C14: `MapCentralDirectory0` returns 0 only if the scan buffer holds, at the highest
index `i` that leaves room for a whole record and carries the magic number, an EOCD
record with `e + sizeof(EocdRecord) + comment_length = file_length` for its file
offset `e`, `cd_start_offset + cd_size ≤ e` and
`num_records ≠ 0`. Once the tail is read it returns `kInvalidFile` when no magic
number is found or the length equation fails, else `kInvalidOffset` when the
directory would overlap the record, else `kEmptyArchive` when `num_records = 0`. -/
theorem MapCentralDirectory0_checks (archive : ZipArchive) (file_length : Int)
    (read_amount : Nat) :
    (∀ archive', MapCentralDirectory0 archive file_length read_amount = .ok (0, archive') →
      ∃ scan_buffer i,
        archive.mapped_zip.ReadAtOffset read_amount (file_length - read_amount)
          = .ok (some scan_buffer)
        ∧ i + sizeof_EocdRecord ≤ read_amount ∧ eocd_magic_at scan_buffer i
        ∧ (∀ j, i < j → j + sizeof_EocdRecord ≤ read_amount → ¬ eocd_magic_at scan_buffer j)
        ∧ file_length - read_amount + i + sizeof_EocdRecord
            + (EocdRecord.read scan_buffer i).comment_length = file_length
        ∧ ((EocdRecord.read scan_buffer i).cd_start_offset : Int)
            + (EocdRecord.read scan_buffer i).cd_size ≤ file_length - read_amount + i
        ∧ (EocdRecord.read scan_buffer i).num_records ≠ 0)
    ∧ (∀ scan_buffer,
        archive.mapped_zip.ReadAtOffset read_amount (file_length - read_amount)
          = .ok (some scan_buffer) →
        read_amount ≤ 2147483647 →
        ((∀ j, j + sizeof_EocdRecord ≤ read_amount → ¬ eocd_magic_at scan_buffer j) →
          MapCentralDirectory0 archive file_length read_amount = .ok (kInvalidFile, archive))
        ∧ ∀ i, i + sizeof_EocdRecord ≤ read_amount → eocd_magic_at scan_buffer i →
            (∀ j, i < j → j + sizeof_EocdRecord ≤ read_amount → ¬ eocd_magic_at scan_buffer j) →
            (file_length - read_amount + i + sizeof_EocdRecord
                + (EocdRecord.read scan_buffer i).comment_length ≠ file_length →
              MapCentralDirectory0 archive file_length read_amount
                = .ok (kInvalidFile, archive))
            ∧ (file_length - read_amount + i + sizeof_EocdRecord
                + (EocdRecord.read scan_buffer i).comment_length = file_length →
              (file_length - read_amount + i
                  < ((EocdRecord.read scan_buffer i).cd_start_offset : Int)
                    + (EocdRecord.read scan_buffer i).cd_size →
                MapCentralDirectory0 archive file_length read_amount
                  = .ok (kInvalidOffset, archive))
              ∧ (¬ file_length - read_amount + i
                  < ((EocdRecord.read scan_buffer i).cd_start_offset : Int)
                    + (EocdRecord.read scan_buffer i).cd_size →
                (EocdRecord.read scan_buffer i).num_records = 0 →
                MapCentralDirectory0 archive file_length read_amount
                  = .ok (kEmptyArchive, archive)))) := by
  refine ⟨fun archive' h => MapCentralDirectory0_zero archive archive' file_length read_amount h,
    ?_⟩
  intro scan_buffer hread hcheck
  refine ⟨MapCentralDirectory0_not_found archive file_length read_amount scan_buffer hread hcheck,
    ?_⟩
  intro i hi hmagic hlast
  have hrun := MapCentralDirectory0_found archive file_length read_amount scan_buffer i hread
    hcheck hi hmagic hlast
  refine ⟨?_, ?_⟩
  · intro hlen
    rw [hrun, if_pos hlen]
  · intro hlen
    refine ⟨?_, ?_⟩
    · intro hov
      rw [hrun, if_neg (by simp [hlen]), if_pos hov]
    · intro hov hnum
      rw [hrun, if_neg (by simp [hlen]), if_neg hov, if_pos hnum]

/-- Witness of C14: the empty archive, whose end record announces no record. -/
theorem MapCentralDirectory0_checks_witness :
    MapCentralDirectory0 (new_archive empty_zip_bytes) 22 22
      = .ok (kEmptyArchive, new_archive empty_zip_bytes) :=
  ((((MapCentralDirectory0_checks (new_archive empty_zip_bytes) 22 22).2 _ rfl
    (by decide)).2 0 (by decide) ⟨by decide, by decide⟩
    (fun j h1 h2 => by unfold sizeof_EocdRecord at h2; omega)).2 (by decide)).2
    (by decide) (by decide)

/-- C20 (evaluation at the failing input): a zip file of exactly 0xffffffff bytes
with a well-formed end-of-central-directory record at its end; its size is not less
than 0xffffffff, yet `MapCentralDirectory` returns 0 and maps the central
directory. -/
theorem MapCentralDirectory_accepts_0xffffffff :
    huge_archive.mapped_zip.GetFileLength.1 = 0xffffffff
      ∧ ¬ huge_archive.mapped_zip.GetFileLength.1 < 0xffffffff
      ∧ (MapCentralDirectory huge_archive).map
          (fun r => (r.1, r.2.num_entries, r.2.directory_offset, r.2.central_directory.length))
        = .ok (0, 1, 100, 46) := by
  decide

theorem ParseZipArchive_loop_zero (ComputeHash : List Nat → Nat)
    (IsValidEntryName : List Nat → Bool) (directory_offset : Int) (hash_table_size : Nat)
    (cd_ptr : Mem) (cd_length : Nat) (rem : Nat) :
    ∀ (m : Nat) (t t' : HashTable),
      ParseZipArchive_loop ComputeHash IsValidEntryName directory_offset hash_table_size cd_ptr
        cd_length rem (cd_record_ptr cd_ptr m) t = some (0, t') →
      ∀ i, m ≤ i → i < m + rem →
        cd_record_ok IsValidEntryName directory_offset cd_ptr cd_length (cd_record_ptr cd_ptr i)
          ∧ cd_record_ptr cd_ptr (i + 1) ≤ cd_length := by
  induction rem with
  | zero => intro m t t' _ i h1 h2; omega
  | succ rem ih =>
    intro m t t' h i hmi hi
    rw [ParseZipArchive_loop] at h
    by_cases h1 : (cd_length : Int) - sizeof_CentralDirectoryRecord < (cd_record_ptr cd_ptr m : Nat)
    · rw [if_pos h1] at h
      simp [kInvalidFile] at h
    rw [if_neg h1] at h
    dsimp only at h
    by_cases h2 : (CentralDirectoryRecord.read cd_ptr (cd_record_ptr cd_ptr m)).record_signature
        ≠ CentralDirectoryRecord.kSignature
    · rw [if_pos h2] at h
      simp [kInvalidFile] at h
    rw [if_neg h2] at h
    by_cases h3 : directory_offset
        ≤ ((CentralDirectoryRecord.read cd_ptr (cd_record_ptr cd_ptr m)).local_file_header_offset
            : Int)
    · rw [if_pos h3] at h
      simp [kInvalidFile] at h
    rw [if_neg h3] at h
    by_cases h4 : cd_length < cd_record_ptr cd_ptr m + sizeof_CentralDirectoryRecord
        + (CentralDirectoryRecord.read cd_ptr (cd_record_ptr cd_ptr m)).file_name_length
    · rw [if_pos h4] at h
      simp [kInvalidEntryName] at h
    rw [if_neg h4] at h
    by_cases h5 : ¬ IsValidEntryName (view cd_ptr
        (cd_record_ptr cd_ptr m + sizeof_CentralDirectoryRecord)
        (CentralDirectoryRecord.read cd_ptr (cd_record_ptr cd_ptr m)).file_name_length) = true
    · rw [if_pos h5] at h
      simp [kInvalidEntryName] at h
    rw [if_neg h5] at h
    cases hadd : AddToHash ComputeHash t hash_table_size
        (cd_record_ptr cd_ptr m + sizeof_CentralDirectoryRecord)
        (CentralDirectoryRecord.read cd_ptr (cd_record_ptr cd_ptr m)).file_name_length cd_ptr with
    | none => rw [hadd] at h; cases h
    | some res =>
      obtain ⟨add_result, t1⟩ := res
      rw [hadd] at h
      dsimp only at h
      by_cases h6 : add_result ≠ 0
      · rw [if_pos h6] at h
        simp only [Option.some.injEq, Prod.mk.injEq] at h
        exact absurd h.1 h6
      rw [if_neg h6] at h
      have hptr : cd_record_ptr cd_ptr (m + 1)
          = cd_record_ptr cd_ptr m
            + (sizeof_CentralDirectoryRecord
              + (CentralDirectoryRecord.read cd_ptr (cd_record_ptr cd_ptr m)).file_name_length
              + (CentralDirectoryRecord.read cd_ptr (cd_record_ptr cd_ptr m)).extra_field_length
              + (CentralDirectoryRecord.read cd_ptr (cd_record_ptr cd_ptr m)).comment_length) := rfl
      rw [← hptr] at h
      by_cases h7 : cd_length < cd_record_ptr cd_ptr (m + 1)
      · rw [if_pos h7] at h
        simp [kInvalidFile] at h
      rw [if_neg h7] at h
      rcases Nat.eq_or_lt_of_le hmi with heq | hlt
      · subst heq
        refine ⟨⟨?_, not_not.1 h2, not_le.1 h3, not_lt.1 h4, not_not.1 h5⟩, not_lt.1 h7⟩
        have := not_lt.1 h1
        omega
      · exact ih (m + 1) t1 t' h i hlt (by omega)

/-- C22: `ParseZipArchive` returns 0 only if every one of the `num_entries` records it
walks lies inside the mapped central directory: for the record at offset `p`,
`p + sizeof(CentralDirectoryRecord) ≤ cd_length` and
`p + sizeof(CentralDirectoryRecord) + file_name_length ≤ cd_length`, the record carries
the central-directory signature and a local-header offset below `directory_offset`, and
the offset after its name, extra field and comment is at most `cd_length`. A central
directory shorter than one record with `num_entries ≥ 1` is rejected: with
`kInvalidFile` once the hash table is allocated. -/
theorem ParseZipArchive_records_inside (ComputeHash : List Nat → Nat)
    (IsValidEntryName : List Nat → Bool) (calloc_ok : Bool) (archive : ZipArchive)
    (hn : archive.num_entries < 65536) :
    ((ParseZipArchive ComputeHash IsValidEntryName calloc_ok archive).map (Option.map Prod.fst)
        = .ok (some 0) →
      ∀ i, i < archive.num_entries →
        cd_record_ptr archive.central_directory.base_ptr i + sizeof_CentralDirectoryRecord
            ≤ archive.central_directory.length
          ∧ cd_record_ptr archive.central_directory.base_ptr i + sizeof_CentralDirectoryRecord
              + (CentralDirectoryRecord.read archive.central_directory.base_ptr
                  (cd_record_ptr archive.central_directory.base_ptr i)).file_name_length
            ≤ archive.central_directory.length
          ∧ (CentralDirectoryRecord.read archive.central_directory.base_ptr
                (cd_record_ptr archive.central_directory.base_ptr i)).record_signature
              = CentralDirectoryRecord.kSignature
          ∧ ((CentralDirectoryRecord.read archive.central_directory.base_ptr
                (cd_record_ptr archive.central_directory.base_ptr i)).local_file_header_offset
                : Int) < archive.directory_offset
          ∧ cd_record_ptr archive.central_directory.base_ptr i
              + (sizeof_CentralDirectoryRecord
                + (CentralDirectoryRecord.read archive.central_directory.base_ptr
                    (cd_record_ptr archive.central_directory.base_ptr i)).file_name_length
                + (CentralDirectoryRecord.read archive.central_directory.base_ptr
                    (cd_record_ptr archive.central_directory.base_ptr i)).extra_field_length
                + (CentralDirectoryRecord.read archive.central_directory.base_ptr
                    (cd_record_ptr archive.central_directory.base_ptr i)).comment_length)
            ≤ archive.central_directory.length)
      ∧ (archive.central_directory.length < sizeof_CentralDirectoryRecord →
          1 ≤ archive.num_entries →
          ∃ r archive', ParseZipArchive ComputeHash IsValidEntryName calloc_ok archive
              = .ok (some (r, archive'))
            ∧ r ≠ 0 ∧ (calloc_ok = true → r = kInvalidFile)) := by
  have hmod : archive.num_entries % 65536 = archive.num_entries := Nat.mod_eq_of_lt hn
  refine ⟨?_, ?_⟩
  · intro h i hi
    unfold ParseZipArchive at h
    simp only [hmod] at h
    by_cases hc : ¬ calloc_ok = true
    · rw [if_pos hc] at h
      simp [Except.map, kAllocationFailed] at h
    rw [if_neg hc] at h
    cases hloop : ParseZipArchive_loop ComputeHash IsValidEntryName archive.directory_offset
        (RoundUpPower2 (1 + archive.num_entries * 4 / 3)) archive.central_directory.base_ptr
        archive.central_directory.length archive.num_entries 0 zero_table with
    | none => rw [hloop] at h; simp [Except.map] at h
    | some res =>
      obtain ⟨r, t⟩ := res
      rw [hloop] at h
      dsimp only at h
      by_cases hr : r ≠ 0
      · rw [if_pos hr] at h
        simp only [Except.map, Option.map_some', Except.ok.injEq, Option.some.injEq] at h
        exact absurd h hr
      have hr0 : r = 0 := not_not.1 hr
      subst hr0
      have hwalk := ParseZipArchive_loop_zero ComputeHash IsValidEntryName
        archive.directory_offset _ archive.central_directory.base_ptr
        archive.central_directory.length archive.num_entries 0 zero_table t hloop i
        (Nat.zero_le _) (by omega)
      obtain ⟨⟨h1, h2, h3, h4, _⟩, h6⟩ := hwalk
      exact ⟨h1, h4, h2, h3, h6⟩
  · intro hshort hone
    unfold ParseZipArchive
    simp only [hmod]
    by_cases hc : ¬ calloc_ok = true
    · rw [if_pos hc]
      exact ⟨_, _, rfl, by decide, fun h => absurd h hc⟩
    rw [if_neg hc]
    obtain ⟨n, hnn⟩ : ∃ n, archive.num_entries = n + 1 := ⟨archive.num_entries - 1, by omega⟩
    rw [hnn, ParseZipArchive_loop, if_pos (by omega)]
    exact ⟨_, _, rfl, by decide, fun _ => rfl⟩

/-- Witness of C22: the central directory of `zip1` is accepted and its second record
lies inside its 95 bytes; cut to 45 bytes it is rejected. -/
theorem ParseZipArchive_records_inside_witness :
    cd_record_ptr (mapped_archive zip1_bytes 68 95 2).central_directory.base_ptr 1
          + sizeof_CentralDirectoryRecord
        ≤ (mapped_archive zip1_bytes 68 95 2).central_directory.length
      ∧ ∃ r archive', ParseZipArchive hash_sum no_nul true (mapped_archive zip1_bytes 68 45 2)
          = .ok (some (r, archive')) ∧ r ≠ 0 ∧ ((true : Bool) = true → r = kInvalidFile) :=
  ⟨((ParseZipArchive_records_inside hash_sum no_nul true (mapped_archive zip1_bytes 68 95 2)
      (by decide)).1 (by decide) 1 (by decide)).1,
   (ParseZipArchive_records_inside hash_sum no_nul true (mapped_archive zip1_bytes 68 45 2)
      (by decide)).2 (by decide) (by decide)⟩

/-! ## The reference-count invariant -/

theorem in_edges_cons (a : soinfo) (l : List soinfo) (h : Nat) :
    in_edges (a :: l) h = a.deps.count h + in_edges l h := by
  unfold in_edges
  rw [List.map_cons, List.sum_cons]

theorem in_edges_append_one (l : List soinfo) (r : soinfo) (h : Nat) :
    in_edges (l ++ [r]) h = in_edges l h + r.deps.count h := by
  unfold in_edges
  rw [List.map_append, List.sum_append]
  simp

theorem in_edges_zero (l : List soinfo) (h : Nat) (hl : ∀ r ∈ l, ∀ d ∈ r.deps, d ≠ h) :
    in_edges l h = 0 := by
  induction l with
  | nil => rfl
  | cons a t ih =>
    rw [in_edges_cons, ih (fun r hr => hl r (List.mem_cons_of_mem _ hr)),
      List.count_eq_zero_of_not_mem]
    intro hm
    exact hl a (List.mem_cons_self _ _) h hm rfl

theorem in_edges_modify_same_deps (f : soinfo → soinfo) (hf : ∀ r, (f r).deps = r.deps)
    (l : List soinfo) (p h : Nat) :
    in_edges (modify_handle f l p) h = in_edges l h := by
  induction l with
  | nil => rfl
  | cons a t ih =>
    unfold modify_handle
    split
    · rw [in_edges_cons, in_edges_cons, hf]
    · rw [in_edges_cons, in_edges_cons, ih]

theorem in_edges_add_dep (l : List soinfo) (p d h : Nat) (r : soinfo)
    (hp : find_handle l p = some r) :
    in_edges (modify_handle (soinfo.add_dep d) l p) h
      = in_edges l h + (if d = h then 1 else 0) := by
  induction l with
  | nil => simp [find_handle] at hp
  | cons a t ih =>
    unfold find_handle at hp
    unfold modify_handle
    by_cases ha : a.handle = p
    · rw [if_pos ha, in_edges_cons, in_edges_cons]
      simp only [soinfo.add_dep, List.count_append, List.count_singleton]
      by_cases hd : d = h
      · simp [hd]; omega
      · have : ¬ (h == d) = true := by
          simp only [beq_iff_eq]
          exact fun e => hd e.symm
        simp [hd, this]
    · rw [if_neg ha] at hp ⊢
      rw [in_edges_cons, in_edges_cons, ih hp]
      omega

theorem in_edges_erase (l : List soinfo) (h0 x : Nat) (r : soinfo)
    (hr : find_handle l h0 = some r) :
    in_edges l x = in_edges (erase_handle l h0) x + r.deps.count x := by
  induction l with
  | nil => simp [find_handle] at hr
  | cons a t ih =>
    unfold find_handle at hr
    unfold erase_handle
    by_cases ha : a.handle = h0
    · rw [if_pos ha] at hr ⊢
      cases hr
      rw [in_edges_cons]
      omega
    · rw [if_neg ha] at hr ⊢
      rw [in_edges_cons, in_edges_cons, ih hr]
      omega

theorem mem_modify_handle (f : soinfo → soinfo) {l : List soinfo} (h : Nat)
    (hn : (l.map soinfo.handle).Nodup) (y : soinfo) :
    y ∈ modify_handle f l h ↔ ∃ y0 ∈ l, y = if y0.handle = h then f y0 else y0 := by
  rw [modify_handle_eq_map f h hn, List.mem_map]
  constructor
  · rintro ⟨y0, h1, h2⟩
    exact ⟨y0, h1, h2.symm⟩
  · rintro ⟨y0, h1, h2⟩
    exact ⟨y0, h1, h2.symm⟩

theorem mem_erase_handle {l : List soinfo} (h : Nat) (hn : (l.map soinfo.handle).Nodup)
    (x : soinfo) : x ∈ erase_handle l h ↔ x ∈ l ∧ x.handle ≠ h := by
  rw [erase_handle_eq_filter h hn, List.mem_filter]
  simp

theorem erase_handle_length (l : List soinfo) (h : Nat) (r : soinfo)
    (hr : find_handle l h = some r) : (erase_handle l h).length + 1 = l.length := by
  induction l with
  | nil => simp [find_handle] at hr
  | cons a t ih =>
    unfold find_handle at hr
    unfold erase_handle
    by_cases ha : a.handle = h
    · rw [if_pos ha]
      rfl
    · rw [if_neg ha] at hr ⊢
      simp only [List.length_cons]
      rw [ih hr]

theorem modify_handle_length (f : soinfo → soinfo) (l : List soinfo) (h : Nat) :
    (modify_handle f l h).length = l.length := by
  induction l with
  | nil => rfl
  | cons a t ih =>
    unfold modify_handle
    split
    · rfl
    · simp [ih]

theorem erase_handle_nodup {l : List soinfo} (h : Nat) (hn : (l.map soinfo.handle).Nodup) :
    ((erase_handle l h).map soinfo.handle).Nodup := by
  rw [erase_handle_eq_filter h hn]
  exact hn.sublist (List.Sublist.map _ (List.filter_sublist _))

theorem refs_inv_erase (l : List soinfo) (nh : Nat) (ext ext' M0 M' : List Nat) (h : Nat)
    (r : soinfo) (hr : find_handle l h = some r) (hinv : refs_inv l nh ext M0 [])
    (hrest : ∀ x, x ≠ h → ext'.count x + M'.count x = ext.count x + M0.count x)
    (hext' : ∀ x ∈ ext', x < nh) :
    refs_inv (erase_handle l h) nh ext' (r.deps ++ M') [] := by
  obtain ⟨h1, hn, hb, _, hd, heq, hu⟩ := hinv
  refine ⟨h1, erase_handle_nodup h hn, ?_, hext', ?_, ?_, ?_⟩
  · intro x hx
    exact hb x ((mem_erase_handle h hn x).1 hx).1
  · intro x hx
    exact hd x ((mem_erase_handle h hn x).1 hx).1
  · intro x hx
    obtain ⟨hxl, hxh⟩ := (mem_erase_handle h hn x).1 hx
    rw [heq x hxl, in_edges_erase l h x.handle r hr, List.count_append]
    have := hrest x.handle hxh
    omega
  · intro x hx
    exact hu x ((mem_erase_handle h hn x).1 hx).1

theorem refs_inv_dec (l : List soinfo) (nh : Nat) (ext M : List Nat) (h : Nat)
    (r : soinfo) (hr : find_handle l h = some r) (h2 : 2 ≤ r.ref_count)
    (hinv : refs_inv l nh ext (h :: M) []) :
    refs_inv (modify_handle soinfo.dec_ref l h) nh ext M [] := by
  obtain ⟨h1, hn, hb, he, hd, heq, hu⟩ := hinv
  have hmem : ∀ y ∈ modify_handle soinfo.dec_ref l h,
      ∃ y0 ∈ l, y = if y0.handle = h then soinfo.dec_ref y0 else y0 :=
    fun y hy => (mem_modify_handle soinfo.dec_ref h hn y).1 hy
  refine ⟨h1, ?_, ?_, he, ?_, ?_, ?_⟩
  · rw [modify_handle_map_handle soinfo.dec_ref (fun _ => rfl)]
    exact hn
  · intro y hy
    obtain ⟨y0, hy0, rfl⟩ := hmem y hy
    split <;> exact hb y0 hy0
  · intro y hy
    obtain ⟨y0, hy0, rfl⟩ := hmem y hy
    split <;> exact hd y0 hy0
  · intro y hy
    obtain ⟨y0, hy0, rfl⟩ := hmem y hy
    rw [in_edges_modify_same_deps soinfo.dec_ref (fun _ => rfl)]
    have hy0eq := heq y0 hy0
    by_cases hyh : y0.handle = h
    · rw [if_pos hyh]
      have : y0 = r := by
        have := find_handle_of_mem hn hy0
        rw [hyh, hr] at this
        exact (Option.some.inj this).symm
      subst this
      simp only [soinfo.dec_ref]
      rw [hyh, List.count_cons_self] at hy0eq
      rw [hyh]
      omega
    · rw [if_neg hyh]
      rw [List.count_cons_of_ne hyh] at hy0eq
      exact hy0eq
  · intro y hy
    obtain ⟨y0, hy0, rfl⟩ := hmem y hy
    right
    by_cases hyh : y0.handle = h
    · rw [if_pos hyh]
      have : y0 = r := by
        have := find_handle_of_mem hn hy0
        rw [hyh, hr] at this
        exact (Option.some.inj this).symm
      subst this
      simp only [soinfo.dec_ref]
      omega
    · rw [if_neg hyh]
      rcases hu y0 hy0 with hc | hc
      · cases hc
      · exact hc

theorem refs_inv_absent (l : List soinfo) (nh : Nat) (ext M : List Nat) (h : Nat)
    (hr : find_handle l h = none) (hinv : refs_inv l nh ext (h :: M) []) :
    refs_inv l nh ext M [] := by
  obtain ⟨h1, hn, hb, he, hd, heq, hu⟩ := hinv
  refine ⟨h1, hn, hb, he, hd, ?_, hu⟩
  intro x hx
  have hne : x.handle ≠ h := by
    intro e
    have := find_handle_of_mem hn hx
    rw [e, hr] at this
    cases this
  rw [heq x hx, List.count_cons_of_ne hne]

theorem foldl_release_inv (rel : List soinfo → Nat → List soinfo) (nh : Nat)
    (ext : List Nat) (fuel : Nat)
    (hrel : ∀ l h M, l.length < fuel → refs_inv l nh ext (h :: M) [] →
      refs_inv (rel l h) nh ext M [] ∧ (rel l h).length ≤ l.length) :
    ∀ (D : List Nat) (l : List soinfo) (M : List Nat), l.length < fuel →
      refs_inv l nh ext (D ++ M) [] →
      refs_inv (D.foldl rel l) nh ext M [] ∧ (D.foldl rel l).length ≤ l.length := by
  intro D
  induction D with
  | nil => intro l M _ h; exact ⟨h, le_refl _⟩
  | cons d D ih =>
    intro l M hl h
    rw [List.foldl_cons]
    obtain ⟨h1, h2⟩ := hrel l d (D ++ M) hl h
    obtain ⟨h3, h4⟩ := ih (rel l d) M (by omega) h1
    exact ⟨h3, by omega⟩

theorem soinfo_unload_inv (nh : Nat) (ext : List Nat) (fuel : Nat) :
    ∀ (l : List soinfo) (h : Nat) (M : List Nat), l.length < fuel →
      refs_inv l nh ext (h :: M) [] →
      refs_inv (soinfo_unload fuel l h) nh ext M []
        ∧ (soinfo_unload fuel l h).length ≤ l.length := by
  induction fuel with
  | zero => intro l h M hl; omega
  | succ fuel ih =>
    intro l h M hl hinv
    unfold soinfo_unload
    cases hr : find_handle l h with
    | none => exact ⟨refs_inv_absent l nh ext M h hr hinv, le_refl _⟩
    | some r =>
      dsimp only
      have hlen := erase_handle_length l h r hr
      by_cases hc : r.ref_count ≤ 1
      · rw [if_pos hc]
        have herase := refs_inv_erase l nh ext ext (h :: M) M h r hr hinv
          (fun x hx => by rw [List.count_cons_of_ne hx]) hinv.2.2.2.1
        obtain ⟨h3, h4⟩ := foldl_release_inv (fun acc d => soinfo_unload fuel acc d) nh ext fuel
          ih r.deps (erase_handle l h) M (by omega) herase
        exact ⟨h3, by omega⟩
      · rw [if_neg hc]
        exact ⟨refs_inv_dec l nh ext M h r hr (by omega) hinv,
          le_of_eq (modify_handle_length _ _ _)⟩

theorem find_handle_of_mem_handles {l : List soinfo} {h : Nat}
    (hm : h ∈ l.map soinfo.handle) : ∃ r, find_handle l h = some r := by
  cases hf : find_handle l h with
  | some r => exact ⟨r, rfl⟩
  | none =>
    obtain ⟨y, hy, hyh⟩ := List.mem_map.1 hm
    exact absurd hyh (find_handle_none.1 hf y hy)

theorem mem_add_dependency (l : List soinfo) (p d : Nat)
    (hn : (l.map soinfo.handle).Nodup) (y : soinfo)
    (hy : y ∈ modify_handle (soinfo.add_dep d) (modify_handle soinfo.inc_ref l d) p) :
    ∃ y0 ∈ l, y.handle = y0.handle
      ∧ y.ref_count = y0.ref_count + (if y0.handle = d then 1 else 0)
      ∧ ∀ e ∈ y.deps, e ∈ y0.deps ∨ e = d := by
  have hn1 : ((modify_handle soinfo.inc_ref l d).map soinfo.handle).Nodup := by
    rw [modify_handle_map_handle soinfo.inc_ref (fun _ => rfl)]
    exact hn
  obtain ⟨y1, hy1, hyeq⟩ := (mem_modify_handle (soinfo.add_dep d) p hn1 y).1 hy
  obtain ⟨y0, hy0, hy1eq⟩ := (mem_modify_handle soinfo.inc_ref d hn y1).1 hy1
  have f1 : y1.handle = y0.handle ∧ y1.deps = y0.deps
      ∧ y1.ref_count = y0.ref_count + (if y0.handle = d then 1 else 0) := by
    rw [hy1eq]
    by_cases h1 : y0.handle = d
    · rw [if_pos h1, if_pos h1]
      exact ⟨rfl, rfl, rfl⟩
    · rw [if_neg h1, if_neg h1]
      exact ⟨rfl, rfl, rfl⟩
  have f2 : y.handle = y1.handle ∧ y.ref_count = y1.ref_count
      ∧ ∀ e ∈ y.deps, e ∈ y1.deps ∨ e = d := by
    rw [hyeq]
    by_cases h2 : y1.handle = p
    · rw [if_pos h2]
      refine ⟨rfl, rfl, ?_⟩
      intro e he
      simp only [soinfo.add_dep, List.mem_append, List.mem_singleton] at he
      exact he
    · rw [if_neg h2]
      exact ⟨rfl, rfl, fun e he => Or.inl he⟩
  refine ⟨y0, hy0, f2.1.trans f1.1, f2.2.1.trans f1.2.2, ?_⟩
  intro e he
  rw [← f1.2.1]
  exact f2.2.2 e he

theorem add_dependency_handles (st : LinkerState) (p d : Nat) :
    (add_dependency st p d).solist.map soinfo.handle = st.solist.map soinfo.handle := by
  unfold add_dependency
  simp only
  rw [modify_handle_map_handle (soinfo.add_dep d) (fun _ => rfl),
    modify_handle_map_handle soinfo.inc_ref (fun _ => rfl)]

theorem refs_inv_add_dependency (st : LinkerState) (ext U : List Nat) (p d : Nat)
    (hp : p ∈ st.solist.map soinfo.handle) (hd : d ∈ st.solist.map soinfo.handle)
    (hinv : refs_inv st.solist st.next_handle ext [] (d :: U)) :
    refs_inv (add_dependency st p d).solist (add_dependency st p d).next_handle ext [] U := by
  obtain ⟨h1, hn, hb, he, hdp, heq, hu⟩ := hinv
  have hmem := mem_add_dependency st.solist p d hn
  obtain ⟨rp, hrp⟩ := find_handle_of_mem_handles hp
  obtain ⟨rd, hrd⟩ := find_handle_of_mem_handles hd
  have hp1 : ∃ r1, find_handle (modify_handle soinfo.inc_ref st.solist d) p = some r1 := by
    apply find_handle_of_mem_handles
    rw [modify_handle_map_handle soinfo.inc_ref (fun _ => rfl)]
    exact hp
  obtain ⟨r1, hr1⟩ := hp1
  have hedges : ∀ x, in_edges (add_dependency st p d).solist x
      = in_edges st.solist x + (if d = x then 1 else 0) := by
    intro x
    unfold add_dependency
    simp only
    rw [in_edges_add_dep _ p d x r1 hr1,
      in_edges_modify_same_deps soinfo.inc_ref (fun _ => rfl)]
  have hdlt : d < st.next_handle := by
    obtain ⟨y, hy, hyh⟩ := List.mem_map.1 hd
    rw [← hyh]
    exact (hb y hy).2
  refine ⟨h1, ?_, ?_, he, ?_, ?_, ?_⟩
  · rw [add_dependency_handles]
    exact hn
  · intro y hy
    obtain ⟨y0, hy0, e1, _, _⟩ := hmem y hy
    rw [e1]
    exact hb y0 hy0
  · intro y hy e hedep
    obtain ⟨y0, hy0, _, _, e3⟩ := hmem y hy
    rcases e3 e hedep with h | h
    · exact hdp y0 hy0 e h
    · rw [h]; exact hdlt
  · intro y hy
    obtain ⟨y0, hy0, e1, e2, _⟩ := hmem y hy
    rw [hedges, e2, e1, heq y0 hy0]
    by_cases hyd : y0.handle = d
    · rw [if_pos hyd, if_pos hyd.symm]
      omega
    · rw [if_neg hyd, if_neg (fun e => hyd e.symm)]
      omega
  · intro y hy
    obtain ⟨y0, hy0, e1, e2, _⟩ := hmem y hy
    by_cases hyd : y0.handle = d
    · right
      rw [e2, if_pos hyd]
      omega
    · rcases hu y0 hy0 with hc | hc
      · rcases List.mem_cons.1 hc with hc | hc
        · exact absurd hc hyd
        · left; rw [e1]; exact hc
      · right
        rw [e2]
        omega

theorem refs_inv_under_mono (l : List soinfo) (nh : Nat) (ext M U U' : List Nat)
    (hsub : ∀ x ∈ U, x ∈ U') (hinv : refs_inv l nh ext M U) : refs_inv l nh ext M U' := by
  obtain ⟨h1, hn, hb, he, hdp, heq, hu⟩ := hinv
  refine ⟨h1, hn, hb, he, hdp, heq, ?_⟩
  intro r hr
  rcases hu r hr with h | h
  · exact Or.inl (hsub _ h)
  · exact Or.inr h

theorem refs_inv_new_record (l : List soinfo) (nh : Nat) (ext U : List Nat) (r : soinfo)
    (hh : r.handle = nh) (hdeps : r.deps = []) (hc : r.ref_count = 0)
    (hinv : refs_inv l nh ext [] U) :
    refs_inv (l ++ [r]) (nh + 1) ext [] (nh :: U) := by
  obtain ⟨h1, hn, hb, he, hdp, heq, hu⟩ := hinv
  have hedge0 : in_edges l nh = 0 :=
    in_edges_zero l nh (fun y hy e hem => Nat.ne_of_lt (hdp y hy e hem))
  refine ⟨by omega, ?_, ?_, ?_, ?_, ?_, ?_⟩
  · rw [List.map_append, List.map_singleton, List.nodup_append]
    refine ⟨hn, List.nodup_singleton _, ?_⟩
    intro a ha hb'
    rw [List.mem_singleton] at hb'
    obtain ⟨y, hy, hyh⟩ := List.mem_map.1 ha
    have := (hb y hy).2
    omega
  · intro y hy
    rcases List.mem_append.1 hy with hy | hy
    · have := hb y hy
      omega
    · rw [List.mem_singleton.1 hy, hh]
      omega
  · intro x hx
    have := he x hx
    omega
  · intro y hy e hem
    rcases List.mem_append.1 hy with hy | hy
    · have := hdp y hy e hem
      omega
    · rw [List.mem_singleton.1 hy, hdeps] at hem
      cases hem
  · intro y hy
    rw [in_edges_append_one, hdeps]
    simp only [List.count_nil, Nat.add_zero]
    rcases List.mem_append.1 hy with hy | hy
    · exact heq y hy
    · rw [List.mem_singleton.1 hy, hh, hc, hedge0, List.count_eq_zero_of_not_mem]
      intro hm
      exact Nat.lt_irrefl _ (he nh hm)
  · intro y hy
    rcases List.mem_append.1 hy with hy | hy
    · rcases hu y hy with h | h
      · exact Or.inl (List.mem_cons_of_mem _ h)
      · exact Or.inr h
    · rw [List.mem_singleton.1 hy, hh]
      exact Or.inl (List.mem_cons_self _ _)

theorem load_dependencies_inv (ext : List Nat)
    (load : LinkerState → String → Option (Option (Nat × LinkerState)))
    (hload : ∀ st name h st' U, refs_inv st.solist st.next_handle ext [] U →
      load st name = some (some (h, st')) →
      refs_inv st'.solist st'.next_handle ext [] (h :: U)
        ∧ h ∈ st'.solist.map soinfo.handle
        ∧ ∀ z ∈ st.solist.map soinfo.handle, z ∈ st'.solist.map soinfo.handle)
    (p : Nat) (U : List Nat) :
    ∀ (needed : List String) (st st' : LinkerState),
      refs_inv st.solist st.next_handle ext [] (p :: U) →
      p ∈ st.solist.map soinfo.handle →
      load_dependencies load p needed st = some (some st') →
      refs_inv st'.solist st'.next_handle ext [] (p :: U)
        ∧ ∀ z ∈ st.solist.map soinfo.handle, z ∈ st'.solist.map soinfo.handle := by
  intro needed
  induction needed with
  | nil =>
    intro st st' hinv _ h
    unfold load_dependencies at h
    cases h
    exact ⟨hinv, fun z hz => hz⟩
  | cons dep rest ih =>
    intro st st' hinv hp h
    unfold load_dependencies at h
    rcases hl : load st dep with _ | _ | ⟨d, st1⟩
    · rw [hl] at h; cases h
    · rw [hl] at h; cases h
    · rw [hl] at h
      dsimp only at h
      obtain ⟨h1, h2, h3⟩ := hload st dep d st1 (p :: U) hinv hl
      have hadd := refs_inv_add_dependency st1 ext (p :: U) p d (h3 p hp) h2 h1
      obtain ⟨h4, h5⟩ := ih (add_dependency st1 p d) st' hadd
        (by rw [add_dependency_handles]; exact h3 p hp) h
      refine ⟨h4, fun z hz => h5 z ?_⟩
      rw [add_dependency_handles]
      exact h3 z hz

theorem load_image_inv (ext : List Nat) (fuel : Nat) :
    ∀ (images : List (String × Image)) (st : LinkerState) (name : String) (h : Nat)
      (st' : LinkerState) (U : List Nat),
      refs_inv st.solist st.next_handle ext [] U →
      load_image fuel images st name = some (some (h, st')) →
      refs_inv st'.solist st'.next_handle ext [] (h :: U)
        ∧ h ∈ st'.solist.map soinfo.handle
        ∧ ∀ z ∈ st.solist.map soinfo.handle, z ∈ st'.solist.map soinfo.handle := by
  induction fuel with
  | zero =>
    intro images st name h st' U _ hl
    unfold load_image at hl
    cases hl
  | succ fuel ih =>
    intro images st name h st' U hinv hl
    unfold load_image at hl
    cases hf : find_name st.solist name with
    | some r =>
      rw [hf] at hl
      simp only [Option.some.injEq, Prod.mk.injEq] at hl
      obtain ⟨rfl, rfl⟩ := hl
      exact ⟨refs_inv_under_mono _ _ _ _ _ _ (fun x hx => List.mem_cons_of_mem _ hx) hinv,
        List.mem_map_of_mem _ (find_name_some hf).1, fun z hz => hz⟩
    | none =>
      rw [hf] at hl
      dsimp only at hl
      cases hi : images.lookup name with
      | none => rw [hi] at hl; cases hl
      | some img =>
        rw [hi] at hl
        dsimp only at hl
        have hnew := refs_inv_new_record st.solist st.next_handle ext U
          { name := name, handle := st.next_handle, base := img.base, phdr := img.phdr,
            deps := [], ref_count := 0, symbols := [] } rfl rfl rfl hinv
        split at hl
        · cases hl
        · cases hl
        · rename_i st2 hd
          simp only [Option.some.injEq, Prod.mk.injEq] at hl
          obtain ⟨rfl, rfl⟩ := hl
          obtain ⟨h1, h2⟩ := load_dependencies_inv ext _
            (fun s n hh s' U' hi' hl' => ih _ s n hh s' U' hi' hl') st.next_handle U
            img.needed _ st2 hnew (by simp) hd
          refine ⟨h1, h2 _ (by simp), fun z hz => h2 z ?_⟩
          simp only [List.map_append, List.mem_append]
          exact Or.inl hz

theorem load_dependencies_total
    (load : LinkerState → String → Option (Option (Nat × LinkerState)))
    (hload : ∀ st name, load st name ≠ none) (p : Nat) :
    ∀ (needed : List String) (st : LinkerState), load_dependencies load p needed st ≠ none := by
  intro needed
  induction needed with
  | nil => intro st; simp [load_dependencies]
  | cons dep rest ih =>
    intro st
    unfold load_dependencies
    rcases hl : load st dep with _ | _ | ⟨d, st1⟩
    · exact absurd hl (hload st dep)
    · simp
    · exact ih _

theorem lookup_filter_length (images : List (String × Image)) (name : String) (img : Image)
    (h : images.lookup name = some img) :
    (images.filter (fun e => e.1 ≠ name)).length < images.length := by
  induction images with
  | nil => simp at h
  | cons a t ih =>
    obtain ⟨k, v⟩ := a
    by_cases hk : name = k
    · subst hk
      rw [List.filter_cons_of_neg (by simp)]
      exact Nat.lt_succ_of_le (List.length_filter_le _ _)
    · have hk' : (name == k) = false := by simpa using hk
      rw [List.lookup_cons, hk'] at h
      have := ih h
      by_cases hkeep : k ≠ name
      · rw [List.filter_cons_of_pos (by simpa using hkeep)]
        simp only [List.length_cons]
        omega
      · exact absurd (not_not.1 hkeep).symm hk

theorem load_image_total (fuel : Nat) :
    ∀ (images : List (String × Image)) (st : LinkerState) (name : String),
      images.length < fuel → load_image fuel images st name ≠ none := by
  induction fuel with
  | zero => intro images st name h; omega
  | succ fuel ih =>
    intro images st name hlen
    unfold load_image
    cases hf : find_name st.solist name with
    | some r => simp
    | none =>
      dsimp only
      cases hi : images.lookup name with
      | none => simp
      | some img =>
        dsimp only
        have hlt := lookup_filter_length images name img hi
        have htot := load_dependencies_total
          (fun s n => load_image fuel (images.filter (fun e => e.1 ≠ name)) s n)
          (fun s n => ih _ s n (by omega)) st.next_handle img.needed
        split
        · rename_i hd
          exact absurd hd (htot _)
        · simp
        · simp

theorem refs_inv_inc (l : List soinfo) (nh : Nat) (ext U U' : List Nat) (h : Nat)
    (hh : h ∈ l.map soinfo.handle) (hsub : ∀ x ∈ U, x = h ∨ x ∈ U')
    (hinv : refs_inv l nh ext [] U) :
    refs_inv (modify_handle soinfo.inc_ref l h) nh (h :: ext) [] U' := by
  obtain ⟨h1, hn, hb, he, hd, heq, hu⟩ := hinv
  have hmem : ∀ y ∈ modify_handle soinfo.inc_ref l h,
      ∃ y0 ∈ l, y = if y0.handle = h then soinfo.inc_ref y0 else y0 :=
    fun y hy => (mem_modify_handle soinfo.inc_ref h hn y).1 hy
  have hlt : h < nh := by
    obtain ⟨y, hy, hyh⟩ := List.mem_map.1 hh
    rw [← hyh]
    exact (hb y hy).2
  refine ⟨h1, ?_, ?_, ?_, ?_, ?_, ?_⟩
  · rw [modify_handle_map_handle soinfo.inc_ref (fun _ => rfl)]
    exact hn
  · intro y hy
    obtain ⟨y0, hy0, rfl⟩ := hmem y hy
    split <;> exact hb y0 hy0
  · intro x hx
    rcases List.mem_cons.1 hx with rfl | hx
    · exact hlt
    · exact he x hx
  · intro y hy
    obtain ⟨y0, hy0, rfl⟩ := hmem y hy
    split <;> exact hd y0 hy0
  · intro y hy
    obtain ⟨y0, hy0, rfl⟩ := hmem y hy
    rw [in_edges_modify_same_deps soinfo.inc_ref (fun _ => rfl)]
    have := heq y0 hy0
    by_cases hyh : y0.handle = h
    · rw [if_pos hyh]
      simp only [soinfo.inc_ref]
      rw [hyh, List.count_cons_self]
      rw [hyh] at this
      omega
    · rw [if_neg hyh, List.count_cons_of_ne hyh]
      exact this
  · intro y hy
    obtain ⟨y0, hy0, rfl⟩ := hmem y hy
    by_cases hyh : y0.handle = h
    · rw [if_pos hyh]
      right
      simp only [soinfo.inc_ref]
      omega
    · rw [if_neg hyh]
      rcases hu y0 hy0 with hc | hc
      · rcases hsub _ hc with hc | hc
        · exact absurd hc hyh
        · exact Or.inl hc
      · exact Or.inr hc

theorem registry_inv_load (s : LinkerState × List Nat) (name : String) (symbols : SymbolMap)
    (hinv : registry_inv s) :
    registry_inv ((linker.load_library s.1 name symbols).2,
      (linker.load_library s.1 name symbols).1 :: s.2) := by
  unfold registry_inv at hinv ⊢
  unfold linker.load_library soinfo.load_library increment_ref_count
  cases hf : find_name s.1.solist name with
  | some r =>
    dsimp only
    exact refs_inv_inc _ _ _ [] [] _ (List.mem_map_of_mem _ (find_name_some hf).1)
      (fun x hx => by cases hx) hinv
  | none =>
    dsimp only
    have hnew := refs_inv_new_record s.1.solist s.1.next_handle s.2 []
      { name := name, handle := s.1.next_handle, base := 0, phdr := [], deps := [],
        ref_count := 0, symbols := symbols } rfl rfl rfl hinv
    exact refs_inv_inc _ _ _ [s.1.next_handle] [] _ (by simp)
      (fun x hx => Or.inl (List.mem_singleton.1 hx)) hnew

theorem registry_inv_load_image (images : List (String × Image)) (s : LinkerState × List Nat)
    (name : String) (hinv : registry_inv s) :
    ∃ s', step images s (.load_image name) = some s' ∧ registry_inv s' := by
  unfold registry_inv at hinv
  rcases hl : load_image (images.length + 1) images s.1 name with _ | _ | ⟨h, st'⟩
  · exact absurd hl (load_image_total _ images s.1 name (Nat.lt_succ_self _))
  · refine ⟨(s.1, s.2), ?_, hinv⟩
    simp only [step, dlopen, hl, if_true]
  · obtain ⟨h1, h2, _⟩ := load_image_inv s.2 _ images s.1 name h st' [] hinv hl
    have hpos : h ≠ 0 := by
      obtain ⟨y, hy, hyh⟩ := List.mem_map.1 h2
      have := (h1.2.2.1 y hy).1
      omega
    refine ⟨(increment_ref_count st' h, h :: s.2), ?_, ?_⟩
    · simp only [step, dlopen, hl, hpos, if_false]
    · unfold registry_inv increment_ref_count
      exact refs_inv_inc _ _ _ [h] [] _ h2 (fun x hx => Or.inl (List.mem_singleton.1 hx)) h1

theorem registry_inv_unload (s : LinkerState × List Nat) (handle : Nat)
    (hinv : registry_inv s) :
    registry_inv ((linker.unload_library s.1 handle).2,
      if (linker.unload_library s.1 handle).1 = 0 then s.2.erase handle else s.2) := by
  cases hlive : soinfo_from_handle s.1 handle with
  | none =>
    rw [unload_library_dead s.1 handle hlive]
    exact hinv
  | some r =>
    by_cases hcount : r.ref_count = 1
    · have hfind : find_handle s.1.solist handle = some r := hlive
      have hun : linker.unload_library s.1 handle
          = (0, LinkerState.mk s.1.g_ld_debug_verbosity
              (r.deps.foldl (fun acc d => soinfo_unload s.1.solist.length acc d)
                (erase_handle s.1.solist handle)) s.1.next_handle) := by
        unfold linker.unload_library
        rw [hlive]
        simp only [hcount, ne_eq, not_true_eq_false, if_false]
        unfold dlclose
        rw [hlive]
        simp only [hcount, le_refl, if_true, soinfo_unload, hfind]
      rw [hun]
      unfold registry_inv at hinv ⊢
      simp only [if_true]
      have herase := refs_inv_erase s.1.solist s.1.next_handle s.2 (s.2.erase handle) [] []
        handle r hfind hinv
        (fun x hx => by rw [List.count_erase_of_ne hx])
        (fun x hx => hinv.2.2.2.1 x (List.mem_of_mem_erase hx))
      have hlen := erase_handle_length s.1.solist handle r hfind
      exact (foldl_release_inv (fun acc d => soinfo_unload s.1.solist.length acc d)
        s.1.next_handle (s.2.erase handle) s.1.solist.length
        (soinfo_unload_inv s.1.next_handle (s.2.erase handle) s.1.solist.length)
        r.deps (erase_handle s.1.solist handle) [] (by omega) herase).1
    · rw [unload_library_not_one s.1 handle r hlive hcount]
      exact hinv

theorem registry_inv_step (images : List (String × Image)) (s : LinkerState × List Nat)
    (c : Call) (hinv : registry_inv s) :
    ∃ s', step images s c = some s' ∧ registry_inv s' := by
  cases c with
  | load name symbols => exact ⟨_, rfl, registry_inv_load s name symbols hinv⟩
  | load_image name => exact registry_inv_load_image images s name hinv
  | unload handle => exact ⟨_, rfl, registry_inv_unload s handle hinv⟩

theorem registry_inv_run (images : List (String × Image)) (calls : List Call) :
    ∀ s, registry_inv s → ∃ s', run images s calls = some s' ∧ registry_inv s' := by
  induction calls with
  | nil => intro s hs; exact ⟨s, rfl, hs⟩
  | cons c cs ih =>
    intro s hs
    obtain ⟨s1, h1, h2⟩ := registry_inv_step images s c hs
    obtain ⟨s2, h3, h4⟩ := ih s1 h2
    refine ⟨s2, ?_, h4⟩
    unfold run
    rw [h1]
    exact h3

/-- C8: in every state reached from `init` by load and unload calls (loads of synthetic
objects, loads of image-backed objects with their dependencies, and `unload_library`),
each registered record has a reference count of at least 1, equal to the number of
outstanding external handles to it (loads that returned its handle, `init`'s own load
included, not yet matched by an unload that returned 0) plus the number of dependency
edges pointing to it; every such call sequence runs to its end. -/
theorem ref_count_invariant (env : Option String) (dl_symbols : SymbolMap)
    (st0 st : LinkerState) (images : List (String × Image)) (calls : List Call)
    (hinit : linker.init env dl_symbols st0 = .ok st) :
    ∃ s, run images (st, init_handles dl_symbols st0) calls = some s
      ∧ ∀ r ∈ s.1.solist,
          1 ≤ r.ref_count
            ∧ r.ref_count = s.2.count r.handle + in_edges s.1.solist r.handle := by
  obtain ⟨v, rfl⟩ := init_state env dl_symbols st0 st hinit
  have hinv0 : registry_inv
      ((linker.load_library (solist_init { st0 with g_ld_debug_verbosity := v })
          "libdl.so" dl_symbols).2, init_handles dl_symbols st0) := by
    have hempty : registry_inv (solist_init { st0 with g_ld_debug_verbosity := v }, []) := by
      unfold registry_inv refs_inv solist_init
      simp
    have := registry_inv_load _ "libdl.so" dl_symbols hempty
    unfold init_handles
    rw [load_libdl_fresh] at this ⊢
    rw [load_libdl_fresh]
    exact this
  obtain ⟨s, hs, hinv⟩ := registry_inv_run images calls _ hinv0
  refine ⟨s, hs, ?_⟩
  intro r hr
  obtain ⟨_, _, _, _, _, heq, hu⟩ := hinv
  refine ⟨?_, ?_⟩
  · rcases hu r hr with h | h
    · cases h
    · exact h
  · have := heq r hr
    simp only [List.count_nil, Nat.add_zero] at this
    exact this

/-- Witness of C8: `init` with the variable unset, then the calls `calls0` with the
images `images0`; in the final state `libc.so` has two references, none of them an
outstanding handle: the two dependency edges from `liba.so` and `libb.so`. -/
theorem ref_count_invariant_witness :
    run images0 (st_init, init_handles [("dlopen", 4660)] st_boot) calls0 = some run0
      ∧ rec_libc ∈ run0.1.solist
      ∧ run0.2.count rec_libc.handle = 0
      ∧ in_edges run0.1.solist rec_libc.handle = 2
      ∧ 1 ≤ rec_libc.ref_count
      ∧ rec_libc.ref_count
          = run0.2.count rec_libc.handle + in_edges run0.1.solist rec_libc.handle := by
  obtain ⟨s, hs, hinv⟩ := ref_count_invariant none [("dlopen", 4660)] st_boot st_init images0
    calls0 rfl
  have hrun : run images0 (st_init, init_handles [("dlopen", 4660)] st_boot) calls0
      = some run0 := by decide
  rw [hrun] at hs
  cases hs
  exact ⟨hrun, by decide, by decide, by decide, hinv rec_libc (by decide)⟩
